import Mathlib

/-! # The list layer of `rockredis` (`t_list.go`)

A shallow embedding of the list data type that `rockredis` keeps on top of an
ordered key-value engine, followed by theorems about its operations.

* Byte strings are lists of naturals; every byte the code produces is below 256.
* `int32` values are integers, every arithmetic step is wrapped by `wrap32`.
* An operation takes the store and returns its Go result together with the
  store it leaves behind.
-/

namespace RockRedis

/-! ## Machine integers and byte strings -/

/-- A byte string (`[]byte`). -/
abbrev Bytes := List Nat

/-- Two's complement reduction of an integer to `int32`. -/
def wrap32 (x : Int) : Int := (x + 2147483648) % 4294967296 - 2147483648

/-- Two's complement reduction of an integer to `int64`. -/
def wrap64 (x : Int) : Int :=
  (x + 9223372036854775808) % 18446744073709551616 - 9223372036854775808

/-- The `int32` sum. -/
def add32 (a b : Int) : Int := wrap32 (a + b)

/-- The `int32` difference. -/
def sub32 (a b : Int) : Int := wrap32 (a - b)

/-- The `int32` product. -/
def mul32 (a b : Int) : Int := wrap32 (a * b)

/-- The conversion `uint32(seq)` of an `int32`. -/
def toU32 (x : Int) : Nat := (x % 4294967296).toNat

/-- The four bytes written by `binary.BigEndian.PutUint32`. -/
def putUint32 (v : Nat) : Bytes :=
  [v / 16777216 % 256, v / 65536 % 256, v / 256 % 256, v % 256]

/-- The two bytes written by `binary.BigEndian.PutUint16` for `uint16(n)`. -/
def putUint16 (n : Nat) : Bytes := [n % 65536 / 256 % 256, n % 65536 % 256]

/-- The value read by `binary.BigEndian.Uint32` from the first four bytes. -/
def getUint32 (b : Bytes) : Nat :=
  b.getD 0 0 * 16777216 + b.getD 1 0 * 65536 + b.getD 2 0 * 256 + b.getD 3 0

/-- The value of `bytes.Compare a b < 0`: bytewise lexicographic order. -/
def bytesLt : Bytes → Bytes → Bool
  | _, [] => false
  | [], _ :: _ => true
  | a :: as, b :: bs => decide (a < b) || (decide (a = b) && bytesLt as bs)

/-- The value of `bytes.Compare a b <= 0`. -/
def bytesLe (a b : Bytes) : Bool := !bytesLt b a

/-! ## Constants and errors -/

def listHeadSeq : Int := 1
def listTailSeq : Int := 2
def listMinSeq : Int := 1000
def listMaxSeq : Int := 2147483648 - 1000
def listInitialSeq : Int := listMinSeq + (listMaxSeq - listMinSeq) / 2

/-- The error values of the list layer; `panic` stands for a Go run-time
panic (slicing a metadata value shorter than eight bytes). -/
inductive Err where
  | keySize
  | lmetaKey
  | listKey
  | listSeq
  | listIndex
  | trimInvalid
  | panic
  deriving DecidableEq, Repr

/-- A Go result `(value, error)`. -/
inductive Res (α : Type) where
  | ok (a : α)
  | err (e : Err)
  deriving DecidableEq, Repr

/-- Modelled from the spec: the constants `LMetaType`, `ListType` (type bytes
shared with the wider storage system), the bound of the key-size validator and
the threshold `RANGE_DELETE_NUM` of the bulk deleter are declared outside
`t_list.go`; they are parameters here. So is the file layout of the engine, of
which the store keeps no record: `dropsRecord k` tells whether the record
under `k` sits in a file that a range delete covering `k` drops as a whole. -/
structure Config where
  LMetaType : Nat
  ListType : Nat
  MaxKeySize : Nat
  RANGE_DELETE_NUM : Int
  dropsRecord : Bytes → Bool

/-- The requirements on the constants: the two type bytes are distinct bytes
and the validator's bound fits the `u16` length field of an element key. -/
def Config.OK (c : Config) : Prop :=
  c.LMetaType ≠ c.ListType ∧ c.LMetaType < 256 ∧ c.ListType < 256 ∧ c.MaxKeySize ≤ 65535

instance (c : Config) : Decidable c.OK := by
  unfold Config.OK; infer_instance

/-- Modelled from the spec: `checkKeySize`, the external key-size validator;
a logical key is a non-empty byte string of bounded size. Returns the error,
if any. -/
def checkKeySize (c : Config) (key : Bytes) : Option Err :=
  if key.length > c.MaxKeySize ∨ key.length = 0 then some Err.keySize else none

/-! ## The storage engine -/

/-- Modelled from the spec: the engine (`gorocksdb`) is an ordered map from
byte keys to byte values; here an association list read by first match. -/
abbrev Store := List (Bytes × Bytes)

/-- The point lookup `GetBytes`: `none` is Go's `nil`. -/
def get : Store → Bytes → Option Bytes
  | [], _ => none
  | (k, v) :: db, key => if k = key then some v else get db key

/-- The store without any record under `key`. -/
def del (db : Store) (key : Bytes) : Store := db.filter (fun kv => !decide (kv.1 = key))

/-- The store after `Put(key, value)`. -/
def put (db : Store) (key value : Bytes) : Store := (key, value) :: del db key

/-- One staged operation of a write batch. -/
inductive WOp where
  | put (key value : Bytes)
  | delete (key : Bytes)
  deriving DecidableEq, Repr

/-- A write batch: the staged operations, oldest first. -/
abbrev WriteBatch := List WOp

def applyOp (db : Store) : WOp → Store
  | .put k v => put db k v
  | .delete k => del db k

/-- The commit `eng.Write(wb)`: all staged operations, in order. -/
def write (db : Store) (wb : WriteBatch) : Store := wb.foldl applyOp db

/-- The least key of the store that satisfies `p`, if any: where an iterator
moving forward in ascending byte order stops. -/
def leastKey (p : Bytes → Bool) : Store → Option Bytes
  | [] => none
  | (k, _) :: db =>
    match leastKey p db with
    | none => if p k then some k else none
    | some b => if p k && bytesLt k b then some k else some b

/-- The position of an iterator after `Seek(key)`: the first key `>= key`. -/
def seek (db : Store) (key : Bytes) : Option Bytes := leastKey (fun k => bytesLe key k) db

/-- The position of an iterator after `Next()` from `key`. -/
def next (db : Store) (key : Bytes) : Option Bytes := leastKey (fun k => bytesLt key k) db

/-- Modelled from the spec: the engine call `DeleteFilesInRange` on the range
`[start, limit)`, which drops the files wholly covered by the range: a record
goes when its key lies in the range and its file is one of those dropped. -/
def deleteFilesInRange (c : Config) (db : Store) (start limit : Bytes) : Store :=
  db.filter (fun kv => !(c.dropsRecord kv.1 && bytesLe start kv.1 && bytesLt kv.1 limit))

/-- Modelled from the spec: the engine call `CompactRange`, a best-effort hint
that leaves the map from keys to values as it is. -/
def compactRange (db : Store) (_start _limit : Bytes) : Store := db

/-! ## Key codec -/

def lEncodeMetaKey (c : Config) (key : Bytes) : Bytes := c.LMetaType :: key

def lEncodeMinKey (c : Config) : Bytes := lEncodeMetaKey c []

/-- The metadata scan bound: the last byte of `lEncodeMetaKey(nil)` plus one,
as a byte. -/
def lEncodeMaxKey (c : Config) : Bytes :=
  (lEncodeMetaKey c []).set ((lEncodeMetaKey c []).length - 1) ((c.LMetaType + 1) % 256)

def lDecodeMetaKey (c : Config) (ek : Bytes) : Res Bytes :=
  match ek with
  | [] => .err .lmetaKey
  | t :: rest => if t ≠ c.LMetaType then .err .lmetaKey else .ok rest

def lEncodeListKey (c : Config) (key : Bytes) (seq : Int) : Bytes :=
  c.ListType :: (putUint16 key.length ++ (key ++ putUint32 (toU32 seq)))

def lDecodeListKey (c : Config) (ek : Bytes) : Res (Bytes × Int) :=
  if 1 > ek.length ∨ ek.getD 0 0 ≠ c.ListType then .err .listKey
  else if 3 > ek.length then .err .listKey
  else
    let keyLen := ek.getD 1 0 * 256 + ek.getD 2 0
    if keyLen + 3 + 4 ≠ ek.length then .err .listKey
    else .ok ((ek.drop 3).take keyLen, wrap32 (getUint32 (ek.drop (3 + keyLen))))

/-! ## Metadata -/

/-- The result `(headSeq, tailSeq, size)` of `lGetMeta`. Slicing a stored value
shorter than eight bytes is a run-time panic. -/
def lGetMeta (db : Store) (ek : Bytes) : Res (Int × Int × Int) :=
  match get db ek with
  | none => .ok (listInitialSeq, listInitialSeq, 0)
  | some v =>
    if v.length < 8 then .err .panic
    else
      let headSeq := wrap32 (getUint32 (v.take 4))
      let tailSeq := wrap32 (getUint32 ((v.drop 4).take 4))
      .ok (headSeq, tailSeq, add32 (sub32 tailSeq headSeq) 1)

/-- The eight-byte metadata value. -/
def metaValue (headSeq tailSeq : Int) : Bytes :=
  putUint32 (toU32 headSeq) ++ putUint32 (toU32 tailSeq)

/-- The batch after `lSetMeta` and its result `(size, err)`. -/
def lSetMeta (ek : Bytes) (headSeq tailSeq : Int) (wb : WriteBatch) : WriteBatch × Res Int :=
  let size := add32 (sub32 tailSeq headSeq) 1
  if size < 0 then (wb, .err .listSeq)
  else if size = 0 then (wb ++ [.delete ek], .ok size)
  else (wb ++ [.put ek (metaValue headSeq tailSeq)], .ok size)

/-! ## Mutations -/

/-- The loop of `lpush` that stages one put per argument, from index `i` on. -/
def pushLoop (c : Config) (key : Bytes) (seq delta : Int) :
    Nat → List Bytes → WriteBatch → WriteBatch
  | _, [], wb => wb
  | i, a :: as, wb =>
    pushLoop c key seq delta (i + 1) as
      (wb ++ [.put (lEncodeListKey c key (add32 seq (mul32 (wrap32 i) delta))) a])

def lpush (c : Config) (db : Store) (key : Bytes) (whereSeq : Int) (args : List Bytes) :
    Res Int × Store :=
  match checkKeySize c key with
  | some e => (.err e, db)
  | none =>
    let metaKey := lEncodeMetaKey c key
    match lGetMeta db metaKey with
    | .err e => (.err e, db)
    | .ok (headSeq, tailSeq, size) =>
      let pushCnt := args.length
      if pushCnt = 0 then (.ok size, db)
      else
        let seq := if whereSeq = listTailSeq then tailSeq else headSeq
        let delta : Int := if whereSeq = listTailSeq then 1 else -1
        let seq := if size > 0 then add32 seq delta else seq
        let checkSeq := add32 seq (mul32 (wrap32 ((pushCnt : Int) - 1)) delta)
        if checkSeq ≤ listMinSeq ∨ checkSeq ≥ listMaxSeq then (.err .listSeq, db)
        else
          let wb := pushLoop c key seq delta 0 args []
          let seq := add32 seq (mul32 (wrap32 ((pushCnt : Int) - 1)) delta)
          let headSeq := if whereSeq = listHeadSeq then seq else headSeq
          let tailSeq := if whereSeq = listHeadSeq then tailSeq else seq
          let wb := (lSetMeta metaKey headSeq tailSeq wb).1
          (.ok (wrap64 (size + (pushCnt : Int))), write db wb)

def lpop (c : Config) (db : Store) (key : Bytes) (whereSeq : Int) :
    Res (Option Bytes) × Store :=
  match checkKeySize c key with
  | some e => (.err e, db)
  | none =>
    let metaKey := lEncodeMetaKey c key
    match lGetMeta db metaKey with
    | .err e => (.err e, db)
    | .ok (headSeq, tailSeq, size) =>
      if size = 0 then (.ok none, db)
      else
        let seq := if whereSeq = listTailSeq then tailSeq else headSeq
        let itemKey := lEncodeListKey c key seq
        let value := get db itemKey
        let headSeq := if whereSeq = listHeadSeq then add32 headSeq 1 else headSeq
        let tailSeq := if whereSeq = listHeadSeq then tailSeq else sub32 tailSeq 1
        match lSetMeta metaKey headSeq tailSeq [.delete itemKey] with
        | (_, .err e) => (.err e, db)
        | (wb, .ok _) => (.ok value, write db wb)

/-- A loop `for i := from; i < to; i++ { wb.Delete(lEncodeListKey(key, headSeq+i)) }`
of `ltrim2` with `n` iterations left. -/
def trimLoop (c : Config) (key : Bytes) (headSeq : Int) : Nat → Int → WriteBatch → WriteBatch
  | 0, _, wb => wb
  | n + 1, i, wb =>
    trimLoop c key headSeq n (add32 i 1) (wb ++ [.delete (lEncodeListKey c key (add32 headSeq i))])

def ltrim2 (c : Config) (db : Store) (key : Bytes) (startP stopP : Int) : Res Unit × Store :=
  match checkKeySize c key with
  | some e => (.err e, db)
  | none =>
    let start := wrap32 startP
    let stop := wrap32 stopP
    let ek := lEncodeMetaKey c key
    match lGetMeta db ek with
    | .err e => (.err e, db)
    | .ok (headSeq, _, llen) =>
      let start := if start < 0 then add32 llen start else start
      let stop := if stop < 0 then add32 llen stop else stop
      if start ≥ llen ∨ start > stop then (.err .trimInvalid, db)
      else
        let start := if start < 0 then 0 else start
        let stop := if stop ≥ llen then sub32 llen 1 else stop
        let wb : WriteBatch := []
        let wb := if start > 0 then trimLoop c key headSeq start.toNat 0 wb else wb
        let wb :=
          if stop < sub32 llen 1 then
            trimLoop c key headSeq (llen - add32 stop 1).toNat (add32 stop 1) wb
          else wb
        let wb := (lSetMeta ek (add32 headSeq start) (add32 headSeq stop) wb).1
        (.ok (), write db wb)

/-- Modelled from the spec: the helper `MinInt32` is declared outside
`t_list.go`; it is the smaller of two `int32` values. -/
def MinInt32 (a b : Int) : Int := if a > b then b else a

/-- Modelled from the spec: the helper `MaxInt32` is declared outside
`t_list.go`; it is the larger of two `int32` values. -/
def MaxInt32 (a b : Int) : Int := if a > b then a else b

/-- The loop `for trimSeq := trimStartSeq; trimSeq <= trimEndSeq; trimSeq++` of
`ltrim` with `n` iterations left. -/
def ltrimLoop (c : Config) (key : Bytes) : Nat → Int → WriteBatch → WriteBatch
  | 0, _, wb => wb
  | n + 1, trimSeq, wb =>
    ltrimLoop c key n (add32 trimSeq 1) (wb ++ [.delete (lEncodeListKey c key trimSeq)])

/-- The result of `ltrim`; `none` when its loop never ends, which is the case
when `trimStartSeq <= trimEndSeq` and `trimEndSeq` is the largest `int32`. -/
def ltrim (c : Config) (db : Store) (key : Bytes) (trimSize whereSeq : Int) :
    Option (Res Int × Store) :=
  match checkKeySize c key with
  | some e => some (.err e, db)
  | none =>
    if trimSize = 0 then some (.ok 0, db)
    else
      let metaKey := lEncodeMetaKey c key
      match lGetMeta db metaKey with
      | .err e => some (.err e, db)
      | .ok (headSeq, tailSeq, size) =>
        if size = 0 then some (.ok 0, db)
        else
          let trimStartSeq :=
            if whereSeq = listHeadSeq then headSeq
            else MaxInt32 (add32 (sub32 tailSeq trimSize) 1) headSeq
          let trimEndSeq :=
            if whereSeq = listHeadSeq then MinInt32 (sub32 (add32 headSeq trimSize) 1) tailSeq
            else tailSeq
          let headSeq' := if whereSeq = listHeadSeq then add32 trimEndSeq 1 else headSeq
          let tailSeq' := if whereSeq = listHeadSeq then tailSeq else sub32 trimStartSeq 1
          if trimStartSeq ≤ trimEndSeq ∧ trimEndSeq = 2147483647 then none
          else
            let wb := ltrimLoop c key (trimEndSeq - trimStartSeq + 1).toNat trimStartSeq []
            match lSetMeta metaKey headSeq' tailSeq' wb with
            | (_, .err e) => some (.err e, db)
            | (wb, .ok _) => some (.ok (add32 (sub32 trimEndSeq trimStartSeq) 1), write db wb)

/-- The loop of `lDelete`: while the iterator is valid and its key is not above
`stopKey`, stage the delete of the key and count it. Each step moves the
iterator to a greater key of the store, so fuel above the number of records is
never used up. -/
def deleteLoop (db : Store) (stopKey : Bytes) :
    Nat → Option Bytes → Int → WriteBatch → Int × WriteBatch
  | 0, _, num, wb => (num, wb)
  | _ + 1, none, num, wb => (num, wb)
  | fuel + 1, some rawk, num, wb =>
    if bytesLt stopKey rawk then (num, wb)
    else deleteLoop db stopKey fuel (next db rawk) (num + 1) (wb ++ [.delete rawk])

/-- The count returned by `lDelete`, the batch it leaves and the store the
engine holds afterwards: the two hints act on the engine at once, the staged
deletes only when the caller commits the batch. -/
def lDelete (c : Config) (db : Store) (key : Bytes) (wb : WriteBatch) :
    Int × WriteBatch × Store :=
  let mk := lEncodeMetaKey c key
  match lGetMeta db mk with
  | .err _ => (0, wb, db)
  | .ok (headSeq, tailSeq, size) =>
    let startKey := lEncodeListKey c key headSeq
    let stopKey := lEncodeListKey c key tailSeq
    let db :=
      if size > c.RANGE_DELETE_NUM then
        compactRange (deleteFilesInRange c db startKey stopKey) startKey stopKey
      else db
    let r := deleteLoop db stopKey (db.length + 1) (seek db startKey) 0 wb
    (r.1, r.2 ++ [.delete mk], db)

/-! ## Reads and the public operations -/

def LIndex (c : Config) (db : Store) (key : Bytes) (index : Int) : Res (Option Bytes) × Store :=
  match checkKeySize c key with
  | some e => (.err e, db)
  | none =>
    match lGetMeta db (lEncodeMetaKey c key) with
    | .err e => (.err e, db)
    | .ok (headSeq, tailSeq, _) =>
      let seq := if index ≥ 0 then add32 headSeq index else add32 (add32 tailSeq index) 1
      (.ok (get db (lEncodeListKey c key seq)), db)

def LLen (c : Config) (db : Store) (key : Bytes) : Res Int × Store :=
  match checkKeySize c key with
  | some e => (.err e, db)
  | none =>
    match lGetMeta db (lEncodeMetaKey c key) with
    | .err e => (.err e, db)
    | .ok (_, _, size) => (.ok size, db)

def LPop (c : Config) (db : Store) (key : Bytes) : Res (Option Bytes) × Store :=
  lpop c db key listHeadSeq

def RPop (c : Config) (db : Store) (key : Bytes) : Res (Option Bytes) × Store :=
  lpop c db key listTailSeq

def LPush (c : Config) (db : Store) (key : Bytes) (args : List Bytes) : Res Int × Store :=
  lpush c db key listHeadSeq args

def RPush (c : Config) (db : Store) (key : Bytes) (args : List Bytes) : Res Int × Store :=
  lpush c db key listTailSeq args

def LTrim (c : Config) (db : Store) (key : Bytes) (start stop : Int) : Res Unit × Store :=
  ltrim2 c db key start stop

def LSet (c : Config) (db : Store) (key : Bytes) (index : Int) (value : Bytes) :
    Res Unit × Store :=
  match checkKeySize c key with
  | some e => (.err e, db)
  | none =>
    match lGetMeta db (lEncodeMetaKey c key) with
    | .err e => (.err e, db)
    | .ok (headSeq, tailSeq, _) =>
      let seq := if index ≥ 0 then add32 headSeq index else add32 (add32 tailSeq index) 1
      if seq < headSeq ∨ seq > tailSeq then (.err .listIndex, db)
      else (.ok (), put db (lEncodeListKey c key seq) value)

/-- The loop of `LRange`: while the iterator is valid, append its value and
leave once `limit` values are collected. One value is appended per step, so
`fuel` above `limit` is never used up. -/
def rangeLoop (db : Store) (limit : Int) : Nat → Option Bytes → List Bytes → List Bytes
  | 0, _, v => v
  | _ + 1, none, v => v
  | fuel + 1, some k, v =>
    let v := v ++ [(get db k).getD []]
    if (v.length : Int) ≥ limit then v else rangeLoop db limit fuel (next db k) v

def LRange (c : Config) (db : Store) (key : Bytes) (start stop : Int) :
    Res (List Bytes) × Store :=
  match checkKeySize c key with
  | some e => (.err e, db)
  | none =>
    match lGetMeta db (lEncodeMetaKey c key) with
    | .err e => (.err e, db)
    | .ok (headSeq, _, llen) =>
      let start := if start < 0 then add32 llen start else start
      let stop := if stop < 0 then add32 llen stop else stop
      let start := if start < 0 then 0 else start
      if start > stop ∨ start ≥ llen then (.ok [], db)
      else
        let stop := if stop ≥ llen then sub32 llen 1 else stop
        let limit := add32 (sub32 stop start) 1
        let headSeq := add32 headSeq start
        let startKey := lEncodeListKey c key headSeq
        (.ok (rangeLoop db limit (limit.toNat + 1) (seek db startKey) []), db)

def LKeyExists (c : Config) (db : Store) (key : Bytes) : Res Int × Store :=
  match checkKeySize c key with
  | some e => (.err e, db)
  | none =>
    match get db (lEncodeMetaKey c key) with
    | some _ => (.ok 1, db)
    | none => (.ok 0, db)

def LTrimFront (c : Config) (db : Store) (key : Bytes) (trimSize : Int) :
    Option (Res Int × Store) :=
  ltrim c db key trimSize listHeadSeq

def LTrimBack (c : Config) (db : Store) (key : Bytes) (trimSize : Int) :
    Option (Res Int × Store) :=
  ltrim c db key trimSize listTailSeq

def LClear (c : Config) (db : Store) (key : Bytes) : Res Int × Store :=
  match checkKeySize c key with
  | some e => (.err e, db)
  | none =>
    (.ok (lDelete c db key []).1, write (lDelete c db key []).2.2 (lDelete c db key []).2.1)

/-- The loop of `LMclear` over the keys: the first key-size error, if any, the
batch staged so far and the store the engine holds. -/
def mclearLoop (c : Config) : Store → List Bytes → WriteBatch → Option Err × WriteBatch × Store
  | db, [], wb => (none, wb, db)
  | db, key :: keys, wb =>
    match checkKeySize c key with
    | some e => (some e, wb, db)
    | none => mclearLoop c (lDelete c db key wb).2.2 keys (lDelete c db key wb).2.1

def LMclear (c : Config) (db : Store) (keys : List Bytes) : Res Int × Store :=
  match mclearLoop c db keys [] with
  | (some e, _, db) => (.err e, db)
  | (none, wb, db) => (.ok (keys.length : Int), write db wb)

/-! ## Vocabulary of the statements -/

/-- The value under `key` after the staged operations of a batch, given the
value `cur` before them. -/
def wbGet (wb : WriteBatch) (key : Bytes) (cur : Option Bytes) : Option Bytes :=
  wb.foldl (fun cur op =>
    match op with
    | .put k v => if k = key then some v else cur
    | .delete k => if k = key then none else cur) cur

/-- The batch of `ltrim2`: the deletes below `start`, the deletes above `stop`. -/
def trimBatch (c : Config) (key : Bytes) (headSeq llen start stop : Int) : WriteBatch :=
  let wb : WriteBatch := if start > 0 then trimLoop c key headSeq start.toNat 0 [] else []
  if stop < sub32 llen 1 then
    trimLoop c key headSeq (llen - add32 stop 1).toNat (add32 stop 1) wb
  else wb

/-- The list under `key` is well-formed with metadata `m` and contents `L`,
head first (invariants 1 to 4 of the data model). Without metadata there is no
element record and `L` is empty. With metadata `(h, t)`, where
`listMinSeq < h <= t < listMaxSeq`, the element records are exactly those of
the sequence numbers `h .. t` and hold `L` in this order. -/
def WellFormed (c : Config) (db : Store) (key : Bytes) :
    Option (Int × Int) → List Bytes → Prop
  | none, L =>
    L = [] ∧ get db (lEncodeMetaKey c key) = none ∧
      ∀ s : Int, -2147483648 ≤ s → s < 2147483648 → get db (lEncodeListKey c key s) = none
  | some (h, t), L =>
    get db (lEncodeMetaKey c key) = some (metaValue h t) ∧
      listMinSeq < h ∧ h ≤ t ∧ t < listMaxSeq ∧ (L.length : Int) = t - h + 1 ∧
      ∀ s : Int, -2147483648 ≤ s → s < 2147483648 →
        get db (lEncodeListKey c key s) = if h ≤ s ∧ s ≤ t then L[(s - h).toNat]? else none

/-- The element records of `key` are exactly those of the sequence numbers
`hd .. tl` and hold `L` in this order (`tl = hd - 1` for no record at all). -/
def ElemsAt (c : Config) (db : Store) (key : Bytes) (hd tl : Int) (L : List Bytes) : Prop :=
  (L.length : Int) = tl - hd + 1 ∧
    ∀ s : Int, -2147483648 ≤ s → s < 2147483648 →
      get db (lEncodeListKey c key s) = if hd ≤ s ∧ s ≤ tl then L[(s - hd).toNat]? else none

/-- Every record of the store whose key carries the type byte `ListType` is an
element record of some list: its key is the element key of a logical key of
at most 65535 bytes. -/
def ListKeysValid (c : Config) (db : Store) : Prop :=
  ∀ k : Bytes, get db k ≠ none → k.head? = some c.ListType →
    ∃ (key : Bytes) (seq : Int), key.length ≤ 65535 ∧ k = lEncodeListKey c key seq

/-- The result of a range read as the specification words it: negative indices
count from the tail, `start` is raised to 0 and `stop` lowered to `llen - 1`;
the result is empty when `start > stop` or `start >= llen`. -/
def lrangeSpec (L : List Bytes) (start stop : Int) : List Bytes :=
  let llen : Int := L.length
  let s := if start < 0 then start + llen else start
  let e := if stop < 0 then stop + llen else stop
  let s' := max s 0
  if s' > e ∨ s' ≥ llen then []
  else (L.drop s'.toNat).take (min e (llen - 1) - s' + 1).toNat

/-- One call of a push or pop on a list. -/
inductive Call where
  | lpush (args : List Bytes)
  | rpush (args : List Bytes)
  | lpop
  | rpop
  deriving DecidableEq, Repr

/-- The arguments a call pushes. -/
def Call.args : Call → List Bytes
  | .lpush args => args
  | .rpush args => args
  | .lpop => []
  | .rpop => []

/-- One call on `key`: the store it leaves, and the number of elements it
pushed when it is a push that succeeded, minus one when it is a pop that
returned an element, zero otherwise. -/
def Call.run (c : Config) (key : Bytes) (db : Store) : Call → Store × Int
  | .lpush args =>
    ((LPush c db key args).2,
      match (LPush c db key args).1 with
      | .ok _ => (args.length : Int)
      | .err _ => 0)
  | .rpush args =>
    ((RPush c db key args).2,
      match (RPush c db key args).1 with
      | .ok _ => (args.length : Int)
      | .err _ => 0)
  | .lpop =>
    ((LPop c db key).2,
      match (LPop c db key).1 with
      | .ok (some _) => -1
      | _ => 0)
  | .rpop =>
    ((RPop c db key).2,
      match (RPop c db key).1 with
      | .ok (some _) => -1
      | _ => 0)

/-- A sequence of calls on `key`: the final store, and the elements pushed
minus the elements popped. -/
def runCalls (c : Config) (key : Bytes) : Store → List Call → Store × Int
  | db, [] => (db, 0)
  | db, call :: rest =>
    ((runCalls c key (call.run c key db).1 rest).1,
      (call.run c key db).2 + (runCalls c key (call.run c key db).1 rest).2)

/-- The index that the specification of `LTrim` keeps: negative values count
from the tail, the result is clamped to `0 .. llen - 1`. -/
def trimIndexSpec (llen i : Int) : Int :=
  max 0 (min (llen - 1) (if i < 0 then i + llen else i))

/-- Sample constants for running the operations on concrete stores. -/
def sampleConfig : Config := ⟨25, 24, 1024, 100000, fun _ => false⟩

/-- Sample constants with a low threshold of the bulk deleter and an engine
whose range delete drops every record in its range. -/
def dropConfig : Config := ⟨25, 24, 1024, 2, fun _ => true⟩

/-- The sample key `k`. -/
def sampleKey : Bytes := [107]

/-- The store after `RPush(k, a, b, c)` on the empty store. -/
def sampleStore : Store := (RPush sampleConfig [] sampleKey [[97], [98], [99]]).2

/-- The last sequence number in use before a tail push: `tailSeq`, or
`listInitialSeq - 1` for an empty list, whose first element goes to
`listInitialSeq`. -/
def tailBefore : Option (Int × Int) → Int
  | none => listInitialSeq - 1
  | some (_, t) => t

/-- The first sequence number in use before a head push: `headSeq`, or
`listInitialSeq + 1` for an empty list, whose first element goes to
`listInitialSeq`. -/
def headBefore : Option (Int × Int) → Int
  | none => listInitialSeq + 1
  | some (h, _) => h

/-- The value `checkSeq = start + (n - 1) * stride` of the sequence allocator
as the specification words it, in exact integers: for a tail push `start` is
one past the tail and the stride is 1, for a head push `start` is one before
the head and the stride is -1. -/
def checkSeqSpec (m : Option (Int × Int)) (n : Nat) (tail : Bool) : Int :=
  if tail then (tailBefore m + 1) + ((n : Int) - 1) * 1
  else (headBefore m - 1) + ((n : Int) - 1) * (-1)

/-- The sample store after `RPush(j, x)`: a second list next to `[a, b, c]`. -/
def sampleStore2 : Store := (RPush sampleConfig sampleStore [106] [[120]]).2

/-- The store after `RPush(k, a, b, c)` on the empty store, with the constants
of `dropConfig`. -/
def dropStore : Store := (RPush dropConfig [] sampleKey [[97], [98], [99]]).2

/-! # Lemmas -/

/-! ## Machine integers and byte order -/

theorem wrap32_range (x : Int) : -2147483648 ≤ wrap32 x ∧ wrap32 x < 2147483648 := by
  unfold wrap32; omega

theorem wrap32_id {x : Int} (h1 : -2147483648 ≤ x) (h2 : x < 2147483648) : wrap32 x = x := by
  unfold wrap32; omega

theorem toU32_lt (x : Int) : toU32 x < 4294967296 := by
  unfold toU32; omega

theorem putUint32_inj {a b : Nat} (ha : a < 4294967296) (hb : b < 4294967296)
    (h : putUint32 a = putUint32 b) : a = b := by
  simp only [putUint32, List.cons.injEq, and_true] at h
  omega

theorem toU32_inj {a b : Int} (ha1 : -2147483648 ≤ a) (ha2 : a < 2147483648)
    (hb1 : -2147483648 ≤ b) (hb2 : b < 2147483648) (h : toU32 a = toU32 b) : a = b := by
  unfold toU32 at h; omega

theorem getUint32_putUint32 {v : Nat} (hv : v < 4294967296) : getUint32 (putUint32 v) = v := by
  simp [getUint32, putUint32]
  omega

theorem wrap32_toU32 {s : Int} (h1 : -2147483648 ≤ s) (h2 : s < 2147483648) :
    wrap32 (toU32 s) = s := by
  unfold wrap32 toU32; omega

theorem bytesLt_putUint32 {a b : Nat} (ha : a < 4294967296) (hb : b < 4294967296) :
    bytesLt (putUint32 a) (putUint32 b) = true ↔ a < b := by
  have e1 : a / 65536 = a / 16777216 * 256 + a / 65536 % 256 := by omega
  have e2 : a / 256 = a / 65536 * 256 + a / 256 % 256 := by omega
  have e3 : a = a / 256 * 256 + a % 256 := by omega
  have f1 : b / 65536 = b / 16777216 * 256 + b / 65536 % 256 := by omega
  have f2 : b / 256 = b / 65536 * 256 + b / 256 % 256 := by omega
  have f3 : b = b / 256 * 256 + b % 256 := by omega
  have g1 : a / 16777216 % 256 = a / 16777216 := by omega
  have g2 : b / 16777216 % 256 = b / 16777216 := by omega
  have ba2 : a / 65536 % 256 < 256 := by omega
  have ba1 : a / 256 % 256 < 256 := by omega
  have ba0 : a % 256 < 256 := by omega
  have bb2 : b / 65536 % 256 < 256 := by omega
  have bb1 : b / 256 % 256 < 256 := by omega
  have bb0 : b % 256 < 256 := by omega
  simp only [putUint32, bytesLt, Bool.or_eq_true, Bool.and_eq_true, decide_eq_true_eq,
    Bool.or_false, Bool.and_false, g1, g2]
  generalize a / 16777216 = a3 at *
  generalize a / 65536 % 256 = a2 at *
  generalize a / 256 % 256 = a1 at *
  generalize a % 256 = a0 at *
  generalize b / 16777216 = b3 at *
  generalize b / 65536 % 256 = b2 at *
  generalize b / 256 % 256 = b1 at *
  generalize b % 256 = b0 at *
  omega

theorem bytesLt_irrefl (a : Bytes) : bytesLt a a = false := by
  induction a with
  | nil => rfl
  | cons x xs ih => simp [bytesLt, ih]

theorem bytesLt_trans {a b d : Bytes} (h1 : bytesLt a b = true) (h2 : bytesLt b d = true) :
    bytesLt a d = true := by
  induction a generalizing b d with
  | nil =>
    cases b with
    | nil => simp [bytesLt] at h1
    | cons y ys =>
      cases d with
      | nil => simp [bytesLt] at h2
      | cons z zs => simp [bytesLt]
  | cons x xs ih =>
    cases b with
    | nil => simp [bytesLt] at h1
    | cons y ys =>
      cases d with
      | nil => simp [bytesLt] at h2
      | cons z zs =>
        simp only [bytesLt, Bool.or_eq_true, Bool.and_eq_true, decide_eq_true_eq] at h1 h2 ⊢
        rcases h1 with h1 | ⟨h1, h1'⟩
        · rcases h2 with h2 | ⟨h2, _⟩
          · left; omega
          · left; omega
        · rcases h2 with h2 | ⟨h2, h2'⟩
          · left; omega
          · right; exact ⟨by omega, ih h1' h2'⟩

theorem bytesLt_total (a b : Bytes) : bytesLt a b = true ∨ a = b ∨ bytesLt b a = true := by
  induction a generalizing b with
  | nil =>
    cases b with
    | nil => simp
    | cons y ys => simp [bytesLt]
  | cons x xs ih =>
    cases b with
    | nil => simp [bytesLt]
    | cons y ys =>
      simp only [bytesLt, Bool.or_eq_true, Bool.and_eq_true, decide_eq_true_eq, List.cons.injEq]
      rcases Nat.lt_trichotomy x y with h | h | h
      · left; left; exact h
      · rcases ih ys with h' | h' | h'
        · left; right; exact ⟨h, h'⟩
        · right; left; exact ⟨h, h'⟩
        · right; right; right; exact ⟨h.symm, h'⟩
      · right; right; left; exact h

theorem bytesLt_asymm {a b : Bytes} (h : bytesLt a b = true) : bytesLt b a = false := by
  cases hb : bytesLt b a with
  | false => rfl
  | true =>
    have := bytesLt_trans h hb
    rw [bytesLt_irrefl] at this
    exact absurd this (by simp)

theorem bytesLe_refl (a : Bytes) : bytesLe a a = true := by
  simp [bytesLe, bytesLt_irrefl]

theorem bytesLe_of_lt {a b : Bytes} (h : bytesLt a b = true) : bytesLe a b = true := by
  simp [bytesLe, bytesLt_asymm h]

theorem bytesLe_antisymm {a b : Bytes} (h1 : bytesLe a b = true) (h2 : bytesLe b a = true) :
    a = b := by
  simp only [bytesLe, Bool.not_eq_true'] at h1 h2
  rcases bytesLt_total a b with h | h | h
  · rw [h] at h2; exact absurd h2 (by simp)
  · exact h
  · rw [h] at h1; exact absurd h1 (by simp)

theorem bytesLt_append_left (p a b : Bytes) : bytesLt (p ++ a) (p ++ b) = bytesLt a b := by
  induction p with
  | nil => rfl
  | cons x xs ih => simp [bytesLt, ih]

/-- A byte string between two strings with a common prefix has that prefix. -/
theorem bytesLt_sandwich {p x y k : Bytes} (h1 : bytesLt (p ++ x) k = true)
    (h2 : bytesLt k (p ++ y) = true) :
    ∃ r, k = p ++ r ∧ bytesLt x r = true ∧ bytesLt r y = true := by
  induction p generalizing k with
  | nil => exact ⟨k, rfl, h1, h2⟩
  | cons a as ih =>
    cases k with
    | nil => simp [bytesLt] at h1
    | cons b bs =>
      simp only [List.cons_append, bytesLt, Bool.or_eq_true, Bool.and_eq_true,
        decide_eq_true_eq] at h1 h2
      have hab : a = b := by
        rcases h1 with h1 | ⟨h1, _⟩ <;> rcases h2 with h2 | ⟨h2, _⟩ <;> omega
      subst hab
      have h1' : bytesLt (as ++ x) bs = true := by
        rcases h1 with h1 | ⟨_, h1⟩
        · omega
        · exact h1
      have h2' : bytesLt bs (as ++ y) = true := by
        rcases h2 with h2 | ⟨_, h2⟩
        · omega
        · exact h2
      obtain ⟨r, hr, hx, hy⟩ := ih h1' h2'
      exact ⟨r, by simp [hr], hx, hy⟩

/-! ## The storage engine: point operations -/

theorem get_del (db : Store) (k key : Bytes) :
    get (del db k) key = if key = k then none else get db key := by
  induction db with
  | nil => simp [del, get]
  | cons kv db ih =>
    obtain ⟨k', v'⟩ := kv
    unfold del at ih ⊢
    by_cases hk : k' = k
    · subst hk
      simp only [List.filter, decide_True, Bool.not_true, get]
      rw [ih]
      by_cases h2 : key = k'
      · simp [h2]
      · have : ¬ k' = key := fun h => h2 h.symm
        simp [h2, this]
    · simp only [List.filter, hk, decide_False, Bool.not_false, get]
      by_cases h2 : k' = key
      · subst h2; simp [hk]
      · simp [h2, ih]

theorem get_put (db : Store) (k v key : Bytes) :
    get (put db k v) key = if key = k then some v else get db key := by
  unfold put
  simp only [get, get_del]
  by_cases h : k = key
  · simp [h]
  · have : ¬ key = k := fun h' => h h'.symm
    simp [h, this]

theorem get_ne_none_iff (db : Store) (k : Bytes) :
    get db k ≠ none ↔ k ∈ db.map Prod.fst := by
  induction db with
  | nil => simp [get]
  | cons kv db ih =>
    obtain ⟨k', v'⟩ := kv
    by_cases h : k' = k
    · simp [get, h]
    · have h' : ¬ k = k' := fun e => h e.symm
      simp [get, h, h', ih]

theorem get_write (db : Store) (wb : WriteBatch) (key : Bytes) :
    get (write db wb) key = wbGet wb key (get db key) := by
  induction wb generalizing db with
  | nil => rfl
  | cons op wb ih =>
    simp only [write, wbGet, List.foldl_cons] at ih ⊢
    rw [ih]
    cases op with
    | put k v =>
      simp only [applyOp, get_put]
      by_cases h : key = k
      · simp [h]
      · have : ¬ k = key := fun e => h e.symm
        simp [h, this]
    | delete k =>
      simp only [applyOp, get_del]
      by_cases h : key = k
      · simp [h]
      · have : ¬ k = key := fun e => h e.symm
        simp [h, this]

theorem wbGet_append (wb wb2 : WriteBatch) (key : Bytes) (cur : Option Bytes) :
    wbGet (wb ++ wb2) key cur = wbGet wb2 key (wbGet wb key cur) := by
  simp [wbGet, List.foldl_append]

theorem wbGet_put_self (k v : Bytes) (cur : Option Bytes) :
    wbGet [.put k v] k cur = some v := by simp [wbGet]

theorem wbGet_put_ne {k key : Bytes} (v : Bytes) (cur : Option Bytes) (h : k ≠ key) :
    wbGet [.put k v] key cur = cur := by simp [wbGet, h]

theorem wbGet_delete_self (k : Bytes) (cur : Option Bytes) :
    wbGet [.delete k] k cur = none := by simp [wbGet]

theorem wbGet_delete_ne {k key : Bytes} (cur : Option Bytes) (h : k ≠ key) :
    wbGet [.delete k] key cur = cur := by simp [wbGet, h]

/-- A key with a value after a batch had one before or is put by the batch. -/
theorem wbGet_ne_none {wb : WriteBatch} {key : Bytes} {cur : Option Bytes}
    (h : wbGet wb key cur ≠ none) : cur ≠ none ∨ ∃ v, WOp.put key v ∈ wb := by
  induction wb generalizing cur with
  | nil => left; simpa [wbGet] using h
  | cons op wb ih =>
    simp only [wbGet, List.foldl_cons] at h ih
    rcases ih h with h' | ⟨v, hv⟩
    · cases op with
      | put k v =>
        by_cases hk : k = key
        · right; exact ⟨v, by simp [hk]⟩
        · left; simpa [hk] using h'
      | delete k =>
        by_cases hk : k = key
        · simp [hk] at h'
        · left; simpa [hk] using h'
    · right; exact ⟨v, by simp [hv]⟩

/-! ## The storage engine: iteration -/

theorem leastKey_some {p : Bytes → Bool} {db : Store} {b : Bytes} (h : leastKey p db = some b) :
    p b = true ∧ get db b ≠ none ∧ ∀ k, get db k ≠ none → p k = true → bytesLe b k = true := by
  induction db generalizing b with
  | nil => simp [leastKey] at h
  | cons kv db ih =>
    obtain ⟨k', v'⟩ := kv
    simp only [leastKey] at h
    cases hl : leastKey p db with
    | none =>
      rw [hl] at h
      simp only at h
      split at h
      · rename_i hp
        injection h with h; subst h
        refine ⟨hp, by simp [get], ?_⟩
        intro k hk hpk
        by_cases e : k' = k
        · subst e; exact bytesLe_refl _
        · simp only [get, e, if_false] at hk
          -- k is in db with p k, so leastKey would be some
          exfalso
          clear ih
          induction db with
          | nil => simp [get] at hk
          | cons kv2 db2 ih2 =>
            obtain ⟨k2, v2⟩ := kv2
            simp only [leastKey] at hl
            cases hl2 : leastKey p db2 with
            | none =>
              rw [hl2] at hl
              simp only at hl
              by_cases e2 : k2 = k
              · subst e2; simp [hpk] at hl
              · simp only [get, e2, if_false] at hk
                exact ih2 hl2 hk
            | some b2 =>
              rw [hl2] at hl
              simp only at hl
              split at hl <;> simp at hl
      · simp at h
    | some b0 =>
      rw [hl] at h
      simp only at h
      obtain ⟨hp0, hg0, hmin0⟩ := ih hl
      split at h
      · rename_i hc
        injection h with h; subst h
        simp only [Bool.and_eq_true] at hc
        refine ⟨hc.1, by simp [get], ?_⟩
        intro k hk hpk
        by_cases e : k' = k
        · subst e; exact bytesLe_refl _
        · simp only [get, e, if_false] at hk
          have := hmin0 k hk hpk
          simp only [bytesLe, Bool.not_eq_true'] at this ⊢
          cases hx : bytesLt k k' with
          | false => rfl
          | true =>
            have := bytesLt_trans hx hc.2
            simp_all
      · rename_i hc
        injection h with h; subst h
        refine ⟨hp0, ?_, ?_⟩
        · by_cases e : k' = b0
          · simp [get, e]
          · simpa [get, e] using hg0
        · intro k hk hpk
          by_cases e : k' = k
          · subst e
            simp only [hpk, Bool.true_and, Bool.not_eq_true] at hc
            simp [bytesLe, hc]
          · simp only [get, e, if_false] at hk
            exact hmin0 k hk hpk

theorem leastKey_eq_some {p : Bytes → Bool} {db : Store} {b : Bytes} (hp : p b = true)
    (hg : get db b ≠ none) (hmin : ∀ k, get db k ≠ none → p k = true → bytesLe b k = true) :
    leastKey p db = some b := by
  cases hl : leastKey p db with
  | none =>
    exfalso
    induction db with
    | nil => simp [get] at hg
    | cons kv db ih =>
      obtain ⟨k', v'⟩ := kv
      simp only [leastKey] at hl
      cases hl2 : leastKey p db with
      | none =>
        rw [hl2] at hl
        simp only at hl
        by_cases e : k' = b
        · subst e; simp [hp] at hl
        · simp only [get, e, if_false] at hg
          refine ih hg ?_ hl2
          intro k hk hpk
          apply hmin k _ hpk
          by_cases e2 : k' = k
          · simp [get, e2]
          · simpa [get, e2] using hk
      | some b2 =>
        rw [hl2] at hl
        simp only at hl
        split at hl <;> simp at hl
  | some b' =>
    obtain ⟨hp', hg', hmin'⟩ := leastKey_some hl
    rw [bytesLe_antisymm (hmin b' hg' hp') (hmin' b hg hp)]

/-! ## Key codec -/

theorem lEncodeListKey_head (c : Config) (key : Bytes) (s : Int) :
    (lEncodeListKey c key s).head? = some c.ListType := rfl

theorem lEncodeMetaKey_head (c : Config) (key : Bytes) :
    (lEncodeMetaKey c key).head? = some c.LMetaType := rfl

theorem lEncodeListKey_ne_meta {c : Config} (hc : c.OK) (key key' : Bytes) (s : Int) :
    lEncodeListKey c key s ≠ lEncodeMetaKey c key' := by
  intro h
  have := congrArg List.head? h
  simp only [lEncodeListKey_head, lEncodeMetaKey_head, Option.some.injEq] at this
  exact hc.1 this.symm

theorem lEncodeMetaKey_inj {c : Config} {key key' : Bytes}
    (h : lEncodeMetaKey c key = lEncodeMetaKey c key') : key = key' := by
  simpa [lEncodeMetaKey] using h

theorem lEncodeListKey_inj_seq {c : Config} {key : Bytes} {s s' : Int}
    (h1 : -2147483648 ≤ s) (h2 : s < 2147483648) (h1' : -2147483648 ≤ s')
    (h2' : s' < 2147483648) (h : lEncodeListKey c key s = lEncodeListKey c key s') : s = s' := by
  simp only [lEncodeListKey, List.cons.injEq, true_and, List.append_cancel_left_eq] at h
  exact toU32_inj h1 h2 h1' h2' (putUint32_inj (toU32_lt _) (toU32_lt _) h)

theorem lEncodeListKey_ne {c : Config} {key : Bytes} {s s' : Int}
    (h1 : -2147483648 ≤ s) (h2 : s < 2147483648) (h1' : -2147483648 ≤ s')
    (h2' : s' < 2147483648) (h : s ≠ s') : lEncodeListKey c key s ≠ lEncodeListKey c key s' :=
  fun e => h (lEncodeListKey_inj_seq h1 h2 h1' h2' e)

theorem putUint32_length (v : Nat) : (putUint32 v).length = 4 := rfl

theorem putUint16_length (n : Nat) : (putUint16 n).length = 2 := rfl

/-- Element keys of one logical key with non-negative sequence numbers sort by
sequence number. -/
theorem bytesLt_lEncodeListKey {c : Config} {key : Bytes} {a b : Int} (ha : 0 ≤ a)
    (ha' : a < 2147483648) (hb : 0 ≤ b) (hb' : b < 2147483648) :
    bytesLt (lEncodeListKey c key a) (lEncodeListKey c key b) = true ↔ a < b := by
  have e : ∀ s, lEncodeListKey c key s = (c.ListType :: (putUint16 key.length ++ key)) ++
      putUint32 (toU32 s) := by intro s; simp [lEncodeListKey]
  rw [e, e, bytesLt_append_left, bytesLt_putUint32 (toU32_lt _) (toU32_lt _)]
  unfold toU32; omega

/-- An element key of a logical key of at most 65535 bytes that lies between two
element keys of `key` is an element key of `key`. -/
theorem lEncodeListKey_between {c : Config} {key key' : Bytes} {a b s' : Int}
    (hk : key'.length ≤ 65535)
    (h1 : bytesLt (lEncodeListKey c key a) (lEncodeListKey c key' s') = true)
    (h2 : bytesLt (lEncodeListKey c key' s') (lEncodeListKey c key b) = true) :
    key' = key ∧ bytesLt (putUint32 (toU32 a)) (putUint32 (toU32 s')) = true ∧
      bytesLt (putUint32 (toU32 s')) (putUint32 (toU32 b)) = true := by
  have e : ∀ s, lEncodeListKey c key s = (c.ListType :: (putUint16 key.length ++ key)) ++
      putUint32 (toU32 s) := by intro s; simp [lEncodeListKey]
  rw [e] at h1 h2
  obtain ⟨r, hr, hx, hy⟩ := bytesLt_sandwich h1 h2
  simp only [lEncodeListKey, List.cons_append, List.cons.injEq, true_and, List.append_assoc] at hr
  have hlen := congrArg List.length hr
  simp only [List.length_append, putUint16_length, putUint32_length] at hlen
  have h16 := List.append_inj_left hr (by simp [putUint16_length])
  simp only [putUint16, List.cons.injEq, and_true] at h16
  have hkk : key'.length = key.length := by omega
  have h3 := List.append_inj_right hr (by simp [putUint16_length])
  have h4 := List.append_inj h3 hkk
  refine ⟨h4.1, ?_, ?_⟩
  · rw [h4.2]; exact hx
  · rw [h4.2]; exact hy

/-! ## Metadata -/

theorem lGetMeta_none {db : Store} {ek : Bytes} (h : get db ek = none) :
    lGetMeta db ek = .ok (listInitialSeq, listInitialSeq, 0) := by
  simp [lGetMeta, h]

theorem lGetMeta_metaValue {db : Store} {ek : Bytes} {h t : Int}
    (hm : get db ek = some (metaValue h t)) (h1 : -2147483648 ≤ h) (h2 : h < 2147483648)
    (t1 : -2147483648 ≤ t) (t2 : t < 2147483648) :
    lGetMeta db ek = .ok (h, t, add32 (sub32 t h) 1) := by
  have e1 : (metaValue h t).take 4 = putUint32 (toU32 h) := by
    simp [metaValue, putUint32]
  have e2 : ((metaValue h t).drop 4).take 4 = putUint32 (toU32 t) := by
    simp [metaValue, putUint32]
  have e3 : ¬ (metaValue h t).length < 8 := by simp [metaValue, putUint32]
  simp only [lGetMeta, hm, e3, if_false, e1, e2, getUint32_putUint32 (toU32_lt _),
    wrap32_toU32 h1 h2, wrap32_toU32 t1 t2]

theorem WellFormed.meta_some {c : Config} {db : Store} {key : Bytes} {h t : Int}
    {L : List Bytes} (hwf : WellFormed c db key (some (h, t)) L) :
    lGetMeta db (lEncodeMetaKey c key) = .ok (h, t, L.length) := by
  obtain ⟨hm, h1, h2, h3, hl, _⟩ := hwf
  simp only [listMinSeq, listMaxSeq] at h1 h3
  rw [lGetMeta_metaValue hm (by omega) (by omega) (by omega) (by omega)]
  have : add32 (sub32 t h) 1 = L.length := by
    simp only [add32, sub32, wrap32]; omega
  rw [this]

theorem WellFormed.meta_none {c : Config} {db : Store} {key : Bytes}
    {L : List Bytes} (hwf : WellFormed c db key none L) :
    lGetMeta db (lEncodeMetaKey c key) = .ok (listInitialSeq, listInitialSeq, 0) :=
  RockRedis.lGetMeta_none hwf.2.1

theorem WellFormed.length_lt {c : Config} {db : Store} {key : Bytes} {m : Option (Int × Int)}
    {L : List Bytes} (hwf : WellFormed c db key m L) : (L.length : Int) < 2147483648 - 2000 := by
  cases m with
  | none => simp [hwf.1]
  | some ht =>
    obtain ⟨h, t⟩ := ht
    obtain ⟨_, h1, h2, h3, hl, _⟩ := hwf
    simp only [listMinSeq, listMaxSeq] at h1 h3
    omega

/-- The element record at position `i` of a well-formed list. -/
theorem WellFormed.get_elem {c : Config} {db : Store} {key : Bytes} {h t : Int}
    {L : List Bytes} (hwf : WellFormed c db key (some (h, t)) L) {i : Nat} (hi : i < L.length) :
    get db (lEncodeListKey c key (h + i)) = some (L[i]) := by
  obtain ⟨_, h1, h2, h3, hl, he⟩ := hwf
  simp only [listMinSeq, listMaxSeq] at h1 h3
  rw [he _ (by omega) (by omega), if_pos (by omega)]
  have : (h + (i : Int) - h).toNat = i := by omega
  rw [this]
  exact List.getElem?_eq_getElem hi

/-! ## Range reads -/

theorem WellFormed.seek_elem {c : Config} {db : Store} {key : Bytes} {h t : Int}
    {L : List Bytes} (hwf : WellFormed c db key (some (h, t)) L) {i : Nat} (hi : i < L.length) :
    seek db (lEncodeListKey c key (h + i)) = some (lEncodeListKey c key (h + i)) := by
  apply leastKey_eq_some
  · exact bytesLe_refl _
  · rw [hwf.get_elem hi]; simp
  · intro k _ hk; exact hk

theorem WellFormed.next_elem {c : Config} {db : Store} {key : Bytes} {h t : Int}
    {L : List Bytes} (hwf : WellFormed c db key (some (h, t)) L) (hv : ListKeysValid c db)
    {i : Nat} (hi : i + 1 < L.length) :
    next db (lEncodeListKey c key (h + i)) = some (lEncodeListKey c key (h + i + 1)) := by
  have hwf' := hwf
  obtain ⟨_, h1, h2, h3, hl, he⟩ := hwf
  simp only [listMinSeq, listMaxSeq] at h1 h3
  apply leastKey_eq_some
  · exact (bytesLt_lEncodeListKey (by omega) (by omega) (by omega) (by omega)).2 (by omega)
  · have := hwf'.get_elem hi
    rw [show h + ((i + 1 : Nat) : Int) = h + i + 1 by push_cast; ring] at this
    rw [this]; simp
  · intro k hk hlt
    simp only [bytesLe, Bool.not_eq_true', Bool.not_eq_true]
    cases hx : bytesLt k (lEncodeListKey c key (h + i + 1)) with
    | false => rfl
    | true =>
      exfalso
      have e : ∀ s, lEncodeListKey c key s = [c.ListType] ++
          (putUint16 key.length ++ (key ++ putUint32 (toU32 s))) := by
        intro s; simp [lEncodeListKey]
      have hlt' := hlt
      have hx' := hx
      rw [e] at hlt' hx'
      obtain ⟨r, hr, _, _⟩ := bytesLt_sandwich hlt' hx'
      obtain ⟨key', s', hk', hks⟩ := hv k hk (by simp [hr])
      subst hks
      obtain ⟨_, b1, b2⟩ := lEncodeListKey_between hk' hlt hx
      rw [bytesLt_putUint32 (toU32_lt _) (toU32_lt _)] at b1 b2
      unfold toU32 at b1 b2
      omega

theorem WellFormed.rangeLoop_elems {c : Config} {db : Store} {key : Bytes} {h t : Int}
    {L : List Bytes} (hwf : WellFormed c db key (some (h, t)) L) (hv : ListKeysValid c db)
    (limit : Int) (n : Nat) :
    ∀ (i : Nat) (acc : List Bytes) (fuel : Nat), 1 ≤ n → i + n ≤ L.length → n ≤ fuel →
      limit = acc.length + n →
      rangeLoop db limit fuel (some (lEncodeListKey c key (h + i))) acc =
        acc ++ (L.drop i).take n := by
  induction n with
  | zero => intro i acc fuel h1; omega
  | succ m ih =>
    intro i acc fuel _ hin hf hlim
    obtain ⟨f, rfl⟩ : ∃ f, fuel = f + 1 := ⟨fuel - 1, by omega⟩
    have hi : i < L.length := by omega
    simp only [rangeLoop, hwf.get_elem hi, Option.getD_some, List.length_append,
      List.length_singleton]
    rw [List.drop_eq_getElem_cons hi, List.take_succ_cons]
    by_cases hm : m = 0
    · subst hm
      rw [if_pos (by push_cast at hlim ⊢; omega)]
      simp
    · rw [if_neg (by push_cast at hlim ⊢; omega)]
      rw [hwf.next_elem hv (by omega)]
      have := ih (i + 1) (acc ++ [L[i]]) f (by omega) (by omega) (by omega)
        (by simp only [List.length_append, List.length_singleton]; push_cast at hlim ⊢; omega)
      rw [show h + ((i + 1 : Nat) : Int) = h + i + 1 by push_cast; ring] at this
      rw [this]
      simp

/-- A range read of a well-formed list returns what the specification says. -/
theorem WellFormed.LRange_eq {c : Config} {db : Store} {key : Bytes} {m : Option (Int × Int)}
    {L : List Bytes} (hwf : WellFormed c db key m L) (hv : ListKeysValid c db)
    (hK : checkKeySize c key = none) {start stop : Int}
    (hs1 : -2147483648 ≤ start) (hs2 : start < 2147483648)
    (he1 : -2147483648 ≤ stop) (he2 : stop < 2147483648) :
    LRange c db key start stop = (.ok (lrangeSpec L start stop), db) := by
  have hlen := hwf.length_lt
  cases m with
  | none =>
    have hL : L = [] := hwf.1
    subst hL
    have g : ∀ x : Int, (if x < 0 then (0 : Int) else x) ≥ 0 := by intro x; split <;> omega
    simp only [LRange, hK, hwf.meta_none, lrangeSpec, g, or_true, if_true]
    simp
  | some ht =>
    obtain ⟨h, t⟩ := ht
    have hwf' := hwf
    obtain ⟨_, h1, h2, h3, hl, _⟩ := hwf'
    simp only [listMinSeq, listMaxSeq] at h1 h3
    simp only [LRange, hK, hwf.meta_some, lrangeSpec]
    have a1 : (if start < 0 then add32 L.length start else start) =
        (if start < 0 then start + L.length else start) := by
      split
      · simp only [add32, wrap32]; omega
      · rfl
    have a2 : (if stop < 0 then add32 L.length stop else stop) =
        (if stop < 0 then stop + L.length else stop) := by
      split
      · simp only [add32, wrap32]; omega
      · rfl
    rw [a1, a2]
    have bs : -2147483648 ≤ (if start < 0 then start + (L.length : Int) else start) ∧
        (if start < 0 then start + (L.length : Int) else start) < 2147483648 := by
      split <;> omega
    have be : -2147483648 ≤ (if stop < 0 then stop + (L.length : Int) else stop) ∧
        (if stop < 0 then stop + (L.length : Int) else stop) < 2147483648 := by
      split <;> omega
    generalize (if start < 0 then start + (L.length : Int) else start) = s at bs
    generalize (if stop < 0 then stop + (L.length : Int) else stop) = e at be
    have a3 : (if s < 0 then (0 : Int) else s) = max s 0 := by
      split <;> omega
    rw [a3]
    by_cases hg : max s 0 > e ∨ max s 0 ≥ (L.length : Int)
    · rw [if_pos hg, if_pos hg]
    · rw [if_neg hg, if_neg hg]
      have a4 : (if e ≥ (L.length : Int) then sub32 L.length 1 else e) =
          min e ((L.length : Int) - 1) := by
        split
        · simp only [sub32, wrap32]; omega
        · omega
      rw [a4]
      obtain ⟨i, hi⟩ : ∃ i : Nat, max s 0 = i := ⟨(max s 0).toNat, by omega⟩
      obtain ⟨n, hn⟩ : ∃ n : Nat, min e ((L.length : Int) - 1) - max s 0 + 1 = n :=
        ⟨(min e ((L.length : Int) - 1) - max s 0 + 1).toNat, by omega⟩
      have a5 : add32 (sub32 (min e ((L.length : Int) - 1)) (max s 0)) 1 = n := by
        simp only [add32, sub32, wrap32]; omega
      have a6 : add32 h (max s 0) = h + i := by
        simp only [add32, wrap32]; omega
      rw [a5, a6, hn, hi]
      simp only [Int.toNat_ofNat]
      rw [hwf.seek_elem (by omega)]
      rw [hwf.rangeLoop_elems hv n n i [] (n + 1) (by omega) (by omega) (by omega) (by simp)]
      simp

/-! ## Well-formed lists and element records -/

theorem WellFormed.elems {c : Config} {db : Store} {key : Bytes} {h t : Int} {L : List Bytes}
    (hwf : WellFormed c db key (some (h, t)) L) : ElemsAt c db key h t L :=
  ⟨hwf.2.2.2.2.1, hwf.2.2.2.2.2⟩

theorem WellFormed.elems_none {c : Config} {db : Store} {key : Bytes} {L : List Bytes}
    (hwf : WellFormed c db key none L) (x : Int) : ElemsAt c db key (x + 1) x L := by
  obtain ⟨hL, _, he⟩ := hwf
  subst hL
  refine ⟨by simp, ?_⟩
  intro s s1 s2
  rw [he s s1 s2, if_neg (by omega)]

theorem WellFormed.of_elems {c : Config} {db : Store} {key : Bytes} {h t : Int} {L : List Bytes}
    (hm : get db (lEncodeMetaKey c key) = some (metaValue h t)) (h1 : listMinSeq < h)
    (h2 : h ≤ t) (h3 : t < listMaxSeq) (he : ElemsAt c db key h t L) :
    WellFormed c db key (some (h, t)) L :=
  ⟨hm, h1, h2, h3, he.1, he.2⟩

theorem WellFormed.of_elems_none {c : Config} {db : Store} {key : Bytes} {x : Int}
    {L : List Bytes} (hm : get db (lEncodeMetaKey c key) = none)
    (he : ElemsAt c db key (x + 1) x L) : WellFormed c db key none L := by
  obtain ⟨hl, he⟩ := he
  have hL : L = [] := List.length_eq_zero.1 (by omega)
  refine ⟨hL, hm, ?_⟩
  intro s s1 s2
  rw [he s s1 s2, if_neg (by omega)]

/-! ## Staged puts of a push -/

theorem wbGet_pushLoop_other {c : Config} {key : Bytes} {seq delta : Int} {k : Bytes}
    (hk : ∀ s, k ≠ lEncodeListKey c key s) (args : List Bytes) :
    ∀ (i : Nat) (wb : WriteBatch) (cur : Option Bytes),
      wbGet (pushLoop c key seq delta i args wb) k cur = wbGet wb k cur := by
  induction args with
  | nil => intro i wb cur; rfl
  | cons a as ih =>
    intro i wb cur
    simp only [pushLoop]
    rw [ih, wbGet_append, wbGet_put_ne _ _ (fun e => hk _ e.symm)]

theorem wbGet_pushLoop_miss {c : Config} {key : Bytes} {seq delta : Int}
    (hd : delta = 1 ∨ delta = -1) {s : Int} (s1 : -2147483648 ≤ s) (s2 : s < 2147483648)
    (args : List Bytes) :
    ∀ (i : Nat) (wb : WriteBatch) (cur : Option Bytes),
      (i : Int) + args.length ≤ 2147483648 →
      (∀ j : Nat, j < args.length → s ≠ seq + ((i : Int) + j) * delta) →
      (∀ j : Nat, j < args.length → -2147483648 ≤ seq + ((i : Int) + j) * delta ∧
        seq + ((i : Int) + j) * delta < 2147483648) →
      wbGet (pushLoop c key seq delta i args wb) (lEncodeListKey c key s) cur =
        wbGet wb (lEncodeListKey c key s) cur := by
  induction args with
  | nil => intro i wb cur _ _ _; rfl
  | cons a as ih =>
    intro i wb cur hi hne hr
    simp only [pushLoop]
    simp only [List.length_cons, Nat.cast_add, Nat.cast_one] at hi
    have h0 := hne 0 (by simp)
    have r0 := hr 0 (by simp)
    simp only [Nat.cast_zero, add_zero] at h0 r0
    have e : add32 seq (mul32 (wrap32 i) delta) = seq + (i : Int) * delta := by
      rcases hd with rfl | rfl <;> simp only [add32, mul32, wrap32] at * <;> omega
    rw [ih (i + 1) _ _ (by push_cast; omega)
      (fun j hj => by
        have := hne (j + 1) (by simp; omega)
        push_cast at this ⊢
        rw [show (i : Int) + 1 + j = i + (j + 1) by ring]; exact this)
      (fun j hj => by
        have := hr (j + 1) (by simp; omega)
        push_cast at this ⊢
        rw [show (i : Int) + 1 + j = i + (j + 1) by ring]; exact this)]
    rw [wbGet_append, e, wbGet_put_ne]
    exact lEncodeListKey_ne r0.1 r0.2 s1 s2 (fun e => h0 e.symm)

theorem wbGet_pushLoop_hit {c : Config} {key : Bytes} {seq delta : Int}
    (hd : delta = 1 ∨ delta = -1) (args : List Bytes) :
    ∀ (i : Nat) (wb : WriteBatch) (cur : Option Bytes) (j : Nat) (hj : j < args.length),
      (i : Int) + args.length ≤ 2147483648 →
      (∀ j : Nat, j < args.length → -2147483648 ≤ seq + ((i : Int) + j) * delta ∧
        seq + ((i : Int) + j) * delta < 2147483648) →
      wbGet (pushLoop c key seq delta i args wb)
        (lEncodeListKey c key (seq + ((i : Int) + j) * delta)) cur = some args[j] := by
  induction args with
  | nil => intro i wb cur j hj; simp at hj
  | cons a as ih =>
    intro i wb cur j hj hi hr
    simp only [pushLoop]
    simp only [List.length_cons, Nat.cast_add, Nat.cast_one] at hi
    have r0 := hr 0 (by simp)
    simp only [Nat.cast_zero, add_zero] at r0
    have e : add32 seq (mul32 (wrap32 i) delta) = seq + (i : Int) * delta := by
      rcases hd with rfl | rfl <;> simp only [add32, mul32, wrap32] at * <;> omega
    have hr' : ∀ j : Nat, j < as.length → -2147483648 ≤ seq + (((i + 1 : Nat) : Int) + j) * delta ∧
        seq + (((i + 1 : Nat) : Int) + j) * delta < 2147483648 := fun j hj => by
      have := hr (j + 1) (by simp; omega)
      push_cast at this ⊢
      rw [show (i : Int) + 1 + j = i + (j + 1) by ring]; exact this
    cases j with
    | zero =>
      simp only [Nat.cast_zero, add_zero, List.getElem_cons_zero]
      rw [wbGet_pushLoop_miss hd r0.1 r0.2 as (i + 1) _ _ (by push_cast; omega) _ hr']
      · rw [wbGet_append, e, wbGet_put_self]
      · intro j hj
        rcases hd with rfl | rfl <;> push_cast <;> omega
    | succ j' =>
      have := ih (i + 1) (wb ++ [.put (lEncodeListKey c key (add32 seq (mul32 (wrap32 i) delta))) a])
        cur j' (by simpa using hj) (by push_cast; omega) hr'
      push_cast at this ⊢
      rw [show (i : Int) + (j' + 1) = i + 1 + j' by ring]
      simpa using this

theorem get_write_meta_put {c : Config} (db : Store) (wb : WriteBatch) (key mv : Bytes) :
    get (write db (wb ++ [.put (lEncodeMetaKey c key) mv])) (lEncodeMetaKey c key) = some mv := by
  rw [get_write, wbGet_append, wbGet_put_self]

theorem get_write_meta_delete {c : Config} (db : Store) (wb : WriteBatch) (key : Bytes) :
    get (write db (wb ++ [.delete (lEncodeMetaKey c key)])) (lEncodeMetaKey c key) = none := by
  rw [get_write, wbGet_append, wbGet_delete_self]

/-- The element records after a tail push. -/
theorem ElemsAt.push_tail {c : Config} {db : Store} {key : Bytes} {hd tl : Int} {L : List Bytes}
    (hc : c.OK) (he : ElemsAt c db key hd tl L) (args : List Bytes) (mv : Bytes)
    (hn : (args.length : Int) ≤ 2147483648)
    (b1 : -2147483648 ≤ tl + 1) (b2 : tl + args.length < 2147483648) :
    ElemsAt c (write db (pushLoop c key (tl + 1) 1 0 args [] ++ [.put (lEncodeMetaKey c key) mv]))
      key hd (tl + args.length) (L ++ args) := by
  obtain ⟨hl, he⟩ := he
  refine ⟨by simp only [List.length_append]; push_cast; omega, ?_⟩
  intro s s1 s2
  rw [get_write, wbGet_append, wbGet_put_ne _ _ (lEncodeListKey_ne_meta hc _ _ _).symm]
  have hr : ∀ j : Nat, j < args.length → -2147483648 ≤ tl + 1 + (((0 : Nat) : Int) + j) * 1 ∧
      tl + 1 + (((0 : Nat) : Int) + j) * 1 < 2147483648 := by
    intro j hj; constructor <;> push_cast <;> omega
  by_cases hs : tl < s ∧ s ≤ tl + args.length
  · obtain ⟨j, hj⟩ : ∃ j : Nat, s = tl + 1 + j := ⟨(s - tl - 1).toNat, by omega⟩
    have hjl : j < args.length := by omega
    have := @wbGet_pushLoop_hit c key (tl + 1) 1 (Or.inl rfl) args 0 []
      (get db (lEncodeListKey c key s)) j hjl (by push_cast; omega) hr
    rw [show tl + 1 + (((0 : Nat) : Int) + j) * 1 = s by push_cast; omega] at this
    rw [this, if_pos (by omega)]
    have e : (s - hd).toNat = L.length + j := by omega
    rw [e, List.getElem?_append_right (by omega)]
    simp [List.getElem?_eq_getElem hjl]
  · rw [wbGet_pushLoop_miss (Or.inl rfl) s1 s2 args 0 [] _ (by push_cast; omega)
      (by intro j hj; push_cast; omega) hr]
    simp only [wbGet, List.foldl_nil]
    rw [he s s1 s2]
    by_cases hin : hd ≤ s ∧ s ≤ tl
    · rw [if_pos hin, if_pos (by omega), List.getElem?_append_left (by omega)]
    · rw [if_neg hin, if_neg (by omega)]

/-- The element records after a head push. -/
theorem ElemsAt.push_head {c : Config} {db : Store} {key : Bytes} {hd tl : Int} {L : List Bytes}
    (hc : c.OK) (he : ElemsAt c db key hd tl L) (args : List Bytes) (mv : Bytes)
    (hn : (args.length : Int) ≤ 2147483648)
    (b1 : hd - 1 < 2147483648) (b2 : -2147483648 ≤ hd - args.length) :
    ElemsAt c (write db (pushLoop c key (hd - 1) (-1) 0 args [] ++
      [.put (lEncodeMetaKey c key) mv])) key (hd - args.length) tl (args.reverse ++ L) := by
  obtain ⟨hl, he⟩ := he
  refine ⟨by simp only [List.length_append, List.length_reverse]; push_cast; omega, ?_⟩
  intro s s1 s2
  rw [get_write, wbGet_append, wbGet_put_ne _ _ (lEncodeListKey_ne_meta hc _ _ _).symm]
  have hr : ∀ j : Nat, j < args.length →
      -2147483648 ≤ hd - 1 + (((0 : Nat) : Int) + j) * (-1) ∧
      hd - 1 + (((0 : Nat) : Int) + j) * (-1) < 2147483648 := by
    intro j hj; constructor <;> push_cast <;> omega
  by_cases hs : hd - args.length ≤ s ∧ s < hd
  · obtain ⟨j, hj⟩ : ∃ j : Nat, s = hd - 1 - j := ⟨(hd - 1 - s).toNat, by omega⟩
    have hjl : j < args.length := by omega
    have := @wbGet_pushLoop_hit c key (hd - 1) (-1) (Or.inr rfl) args 0 []
      (get db (lEncodeListKey c key s)) j hjl (by push_cast; omega) hr
    rw [show hd - 1 + (((0 : Nat) : Int) + j) * (-1) = s by push_cast; omega] at this
    rw [this, if_pos (by omega)]
    have e : (s - (hd - args.length)).toNat = args.length - 1 - j := by omega
    rw [e, List.getElem?_append_left (by simp only [List.length_reverse]; omega),
      List.getElem?_reverse (by omega)]
    have : args.length - 1 - (args.length - 1 - j) = j := by omega
    rw [this, List.getElem?_eq_getElem hjl]
  · rw [wbGet_pushLoop_miss (Or.inr rfl) s1 s2 args 0 [] _ (by push_cast; omega)
      (by intro j hj; push_cast; omega) hr]
    simp only [wbGet, List.foldl_nil]
    rw [he s s1 s2]
    by_cases hin : hd ≤ s ∧ s ≤ tl
    · rw [if_pos hin, if_pos (by omega)]
      have e : (s - (hd - args.length)).toNat = args.reverse.length + (s - hd).toNat := by
        simp only [List.length_reverse]; omega
      rw [e, List.getElem?_append_right (by omega)]
      simp
    · rw [if_neg hin, if_neg (by omega)]

/-! ## The element namespace under writes -/

theorem ListKeysValid.after_write {c : Config} {db : Store} (hv : ListKeysValid c db)
    {wb : WriteBatch}
    (hp : ∀ k v, WOp.put k v ∈ wb → k.head? = some c.ListType →
      ∃ (key : Bytes) (seq : Int), key.length ≤ 65535 ∧ k = lEncodeListKey c key seq) :
    ListKeysValid c (write db wb) := by
  intro k hk hh
  rw [get_write] at hk
  rcases wbGet_ne_none hk with h | ⟨v, h⟩
  · exact hv k h hh
  · exact hp k v h hh

theorem mem_pushLoop {c : Config} {key : Bytes} {seq delta : Int} {k v : Bytes}
    (args : List Bytes) :
    ∀ (i : Nat) (wb : WriteBatch), WOp.put k v ∈ pushLoop c key seq delta i args wb →
      WOp.put k v ∈ wb ∨ ∃ s, k = lEncodeListKey c key s := by
  induction args with
  | nil => intro i wb h; exact Or.inl h
  | cons a as ih =>
    intro i wb h
    simp only [pushLoop] at h
    rcases ih _ _ h with h' | h'
    · simp only [List.mem_append, List.mem_singleton, WOp.put.injEq] at h'
      rcases h' with h' | h'
      · exact Or.inl h'
      · exact Or.inr ⟨_, h'.1⟩
    · exact Or.inr h'

theorem listInitialSeq_eq : listInitialSeq = 1073741824 := by
  norm_num [listInitialSeq, listMinSeq, listMaxSeq]

theorem checkKeySize_length {c : Config} (hc : c.OK) {key : Bytes}
    (hK : checkKeySize c key = none) : key.length ≤ 65535 := by
  unfold checkKeySize at hK
  have := hc.2.2.2
  split at hK
  · simp at hK
  · omega

theorem lSetMeta_pos {ek : Bytes} {h t : Int} (wb : WriteBatch)
    (hp : 0 < add32 (sub32 t h) 1) :
    lSetMeta ek h t wb = (wb ++ [.put ek (metaValue h t)], .ok (add32 (sub32 t h) 1)) := by
  unfold lSetMeta
  simp only
  rw [if_neg (by omega), if_neg (by omega)]

theorem lSetMeta_zero {ek : Bytes} {h t : Int} (wb : WriteBatch)
    (hp : add32 (sub32 t h) 1 = 0) :
    lSetMeta ek h t wb = (wb ++ [.delete ek], .ok 0) := by
  unfold lSetMeta
  simp only
  rw [if_neg (by omega), if_pos hp, hp]

/-- The store after a push that passed the sequence check keeps the element
namespace valid. -/
theorem ListKeysValid.after_push {c : Config} {db : Store} (hc : c.OK) (hv : ListKeysValid c db)
    {key : Bytes} (hK : checkKeySize c key = none) (seq delta : Int) (args : List Bytes)
    (mv : Bytes) :
    ListKeysValid c (write db (pushLoop c key seq delta 0 args [] ++
      [.put (lEncodeMetaKey c key) mv])) := by
  apply hv.after_write
  intro k v hmem hh
  simp only [List.mem_append, List.mem_singleton, WOp.put.injEq] at hmem
  rcases hmem with h | h
  · rcases mem_pushLoop args 0 [] h with h' | ⟨s, hs⟩
    · simp at h'
    · exact ⟨key, s, checkKeySize_length hc hK, hs⟩
  · rw [h.1, lEncodeMetaKey_head] at hh
    exact absurd (Option.some.inj hh) hc.1

theorem listMaxSeq_eq : listMaxSeq = 2147482648 := by
  norm_num [listMaxSeq]

/-- The code of a tail push once the metadata is read. -/
theorem RPush_eval {c : Config} {db : Store} {key : Bytes} (hK : checkKeySize c key = none)
    {h0 t0 size : Int} (hm : lGetMeta db (lEncodeMetaKey c key) = .ok (h0, t0, size))
    {args : List Bytes} (hlen : args.length ≠ 0) (seq0 chk : Int)
    (hseq : seq0 = if size > 0 then add32 t0 1 else t0)
    (hchk : chk = add32 seq0 (mul32 (wrap32 ((args.length : Int) - 1)) 1)) :
    RPush c db key args =
      if chk ≤ 1000 ∨ chk ≥ 2147482648 then (.err .listSeq, db)
      else (.ok (wrap64 (size + args.length)),
        write db (lSetMeta (lEncodeMetaKey c key) h0 chk (pushLoop c key seq0 1 0 args [])).1) := by
  subst hseq hchk
  simp only [RPush, lpush, hK, hm, hlen, if_false, if_true, listTailSeq, listHeadSeq,
    listMinSeq, listMaxSeq_eq, show ¬ ((2 : Int) = 1) by decide]

/-- A tail push on an empty list: it fails with the sequence error when the
new tail would reach `listMaxSeq`, and otherwise stores the arguments from
`listInitialSeq` upwards. -/
theorem WellFormed.rpush_none {c : Config} {db : Store} {key : Bytes}
    {L : List Bytes} (hc : c.OK) (hK : checkKeySize c key = none)
    (hwf : WellFormed c db key none L) {args : List Bytes} (hne : args ≠ [])
    (hn : args.length < 2147483648) :
    (listInitialSeq + args.length - 1 < listMaxSeq →
      (RPush c db key args).1 = .ok ((L.length : Int) + args.length) ∧
        WellFormed c (RPush c db key args).2 key
          (some (listInitialSeq, listInitialSeq + args.length - 1)) (L ++ args) ∧
        (ListKeysValid c db → ListKeysValid c (RPush c db key args).2)) ∧
    (¬ listInitialSeq + args.length - 1 < listMaxSeq →
      RPush c db key args = (.err .listSeq, db)) := by
  have hlen : args.length ≠ 0 := fun e => hne (List.length_eq_zero.1 e)
  have hpos : 0 < args.length := Nat.pos_of_ne_zero hlen
  have hL : L = [] := hwf.1
  have hm := hwf.meta_none
  rw [listInitialSeq_eq] at hm
  rw [RPush_eval hK hm hlen (1073741823 + 1) (wrap32 (1073741823 + args.length))
    (by simp) (by simp only [add32, mul32, wrap32]; omega)]
  have e0 : listInitialSeq + (args.length : Int) - 1 = 1073741823 + args.length := by
    rw [listInitialSeq_eq]; omega
  rw [e0, listInitialSeq_eq, listMaxSeq_eq]
  constructor
  · intro hok
    have e2 : wrap32 (1073741823 + args.length) = 1073741823 + args.length := by
      simp only [wrap32]; omega
    rw [e2, if_neg (by omega)]
    have e3 : add32 (sub32 (1073741823 + (args.length : Int)) 1073741824) 1 =
        args.length := by
      simp only [add32, sub32, wrap32]; omega
    rw [lSetMeta_pos _ (by rw [e3]; omega)]
    simp only
    have he := (hwf.elems_none 1073741823).push_tail hc args
      (metaValue 1073741824 (1073741823 + args.length)) (by omega) (by omega) (by omega)
    rw [show (1073741823 : Int) + 1 = 1073741824 by norm_num] at he ⊢
    refine ⟨?_, ?_, ?_⟩
    · subst hL
      have : wrap64 (0 + (args.length : Int)) = ((([] : List Bytes).length : Nat) : Int) +
          args.length := by
        simp only [wrap64, List.length_nil]; push_cast; omega
      rw [this]
    · exact WellFormed.of_elems (get_write_meta_put _ _ _ _)
        (by simp only [listMinSeq]; omega) (by omega) (by rw [listMaxSeq_eq]; omega) he
    · intro hv; exact hv.after_push hc hK _ _ _ _
  · intro hok
    rw [if_pos (by simp only [wrap32]; omega)]

/-- A tail push on a non-empty list: it fails with the sequence error when the
new tail would reach `listMaxSeq`, and otherwise appends the arguments. -/
theorem WellFormed.rpush_some {c : Config} {db : Store} {key : Bytes} {h t : Int}
    {L : List Bytes} (hc : c.OK) (hK : checkKeySize c key = none)
    (hwf : WellFormed c db key (some (h, t)) L) {args : List Bytes} (hne : args ≠ [])
    (hn : args.length < 2147483648) :
    (t + args.length < listMaxSeq →
      (RPush c db key args).1 = .ok ((L.length : Int) + args.length) ∧
        WellFormed c (RPush c db key args).2 key (some (h, t + args.length)) (L ++ args) ∧
        (ListKeysValid c db → ListKeysValid c (RPush c db key args).2)) ∧
    (¬ t + args.length < listMaxSeq → RPush c db key args = (.err .listSeq, db)) := by
  have hlen : args.length ≠ 0 := fun e => hne (List.length_eq_zero.1 e)
  have hpos : 0 < args.length := Nat.pos_of_ne_zero hlen
  have hwf' := hwf
  obtain ⟨_, h1, h2, h3, hl, _⟩ := hwf'
  simp only [listMinSeq, listMaxSeq_eq] at h1 h3
  have hsz : (0 : Int) < L.length := by omega
  rw [RPush_eval hK hwf.meta_some hlen (t + 1) (wrap32 (t + args.length))
    (by rw [if_pos (by omega)]; simp only [add32, wrap32]; omega)
    (by simp only [add32, mul32, wrap32]; omega)]
  rw [listMaxSeq_eq]
  constructor
  · intro hok
    have e2 : wrap32 (t + args.length) = t + args.length := by
      simp only [wrap32]; omega
    rw [e2, if_neg (by omega)]
    have e3 : add32 (sub32 (t + (args.length : Int)) h) 1 = L.length + args.length := by
      simp only [add32, sub32, wrap32]; omega
    rw [lSetMeta_pos _ (by rw [e3]; omega)]
    simp only
    have he := hwf.elems.push_tail hc args
      (metaValue h (t + args.length)) (by omega) (by omega) (by omega)
    refine ⟨?_, ?_, ?_⟩
    · have : wrap64 ((L.length : Int) + args.length) = (L.length : Int) + args.length := by
        simp only [wrap64]; omega
      rw [this]
    · exact WellFormed.of_elems (get_write_meta_put _ _ _ _)
        (by simp only [listMinSeq]; omega) (by omega) (by rw [listMaxSeq_eq]; omega) he
    · intro hv; exact hv.after_push hc hK _ _ _ _
  · intro hok
    rw [if_pos (by simp only [wrap32]; omega)]

/-- The code of a head push once the metadata is read. -/
theorem LPush_eval {c : Config} {db : Store} {key : Bytes} (hK : checkKeySize c key = none)
    {h0 t0 size : Int} (hm : lGetMeta db (lEncodeMetaKey c key) = .ok (h0, t0, size))
    {args : List Bytes} (hlen : args.length ≠ 0) (seq0 chk : Int)
    (hseq : seq0 = if size > 0 then add32 h0 (-1) else h0)
    (hchk : chk = add32 seq0 (mul32 (wrap32 ((args.length : Int) - 1)) (-1))) :
    LPush c db key args =
      if chk ≤ 1000 ∨ chk ≥ 2147482648 then (.err .listSeq, db)
      else (.ok (wrap64 (size + args.length)),
        write db (lSetMeta (lEncodeMetaKey c key) chk t0
          (pushLoop c key seq0 (-1) 0 args [])).1) := by
  subst hseq hchk
  simp only [LPush, lpush, hK, hm, hlen, if_false, if_true, listTailSeq, listHeadSeq,
    listMinSeq, listMaxSeq_eq, show ¬ ((1 : Int) = 2) by decide]

/-- A head push on an empty list: it fails with the sequence error when the
new head would reach `listMinSeq`, and otherwise stores the arguments from
`listInitialSeq` downwards. -/
theorem WellFormed.lpush_none {c : Config} {db : Store} {key : Bytes}
    {L : List Bytes} (hc : c.OK) (hK : checkKeySize c key = none)
    (hwf : WellFormed c db key none L) {args : List Bytes} (hne : args ≠ [])
    (hn : args.length < 2147483648) :
    (listMinSeq < listInitialSeq - args.length + 1 →
      (LPush c db key args).1 = .ok ((L.length : Int) + args.length) ∧
        WellFormed c (LPush c db key args).2 key
          (some (listInitialSeq - args.length + 1, listInitialSeq)) (args.reverse ++ L) ∧
        (ListKeysValid c db → ListKeysValid c (LPush c db key args).2)) ∧
    (¬ listMinSeq < listInitialSeq - args.length + 1 →
      LPush c db key args = (.err .listSeq, db)) := by
  have hlen : args.length ≠ 0 := fun e => hne (List.length_eq_zero.1 e)
  have hpos : 0 < args.length := Nat.pos_of_ne_zero hlen
  have hL : L = [] := hwf.1
  have hm := hwf.meta_none
  rw [listInitialSeq_eq] at hm
  rw [LPush_eval hK hm hlen (1073741825 - 1) (wrap32 (1073741825 - args.length))
    (by simp) (by simp only [add32, mul32, wrap32]; omega)]
  have e0 : listInitialSeq - (args.length : Int) + 1 = 1073741825 - args.length := by
    rw [listInitialSeq_eq]; omega
  rw [e0, listInitialSeq_eq, listMinSeq]
  constructor
  · intro hok
    have e2 : wrap32 (1073741825 - args.length) = 1073741825 - args.length := by
      simp only [wrap32]; omega
    rw [e2, if_neg (by omega)]
    have e3 : add32 (sub32 1073741824 (1073741825 - (args.length : Int))) 1 =
        args.length := by
      simp only [add32, sub32, wrap32]; omega
    rw [lSetMeta_pos _ (by rw [e3]; omega)]
    simp only
    have he := (hwf.elems_none 1073741824).push_head hc args
      (metaValue (1073741825 - args.length) 1073741824) (by omega) (by omega) (by omega)
    rw [show (1073741824 : Int) + 1 = 1073741825 by norm_num] at he
    refine ⟨?_, ?_, ?_⟩
    · subst hL
      have : wrap64 (0 + (args.length : Int)) = ((([] : List Bytes).length : Nat) : Int) +
          args.length := by
        simp only [wrap64, List.length_nil]; push_cast; omega
      rw [this]
    · exact WellFormed.of_elems (get_write_meta_put _ _ _ _)
        (by simp only [listMinSeq]; omega) (by omega) (by rw [listMaxSeq_eq]; omega) he
    · intro hv; exact hv.after_push hc hK _ _ _ _
  · intro hok
    rw [if_pos (by simp only [wrap32]; omega)]

/-- A head push on a non-empty list: it fails with the sequence error when the
new head would reach `listMinSeq`, and otherwise prepends the arguments, the
last argument first. -/
theorem WellFormed.lpush_some {c : Config} {db : Store} {key : Bytes} {h t : Int}
    {L : List Bytes} (hc : c.OK) (hK : checkKeySize c key = none)
    (hwf : WellFormed c db key (some (h, t)) L) {args : List Bytes} (hne : args ≠ [])
    (hn : args.length < 2147483648) :
    (listMinSeq < h - args.length →
      (LPush c db key args).1 = .ok ((L.length : Int) + args.length) ∧
        WellFormed c (LPush c db key args).2 key (some (h - args.length, t))
          (args.reverse ++ L) ∧
        (ListKeysValid c db → ListKeysValid c (LPush c db key args).2)) ∧
    (¬ listMinSeq < h - args.length → LPush c db key args = (.err .listSeq, db)) := by
  have hlen : args.length ≠ 0 := fun e => hne (List.length_eq_zero.1 e)
  have hpos : 0 < args.length := Nat.pos_of_ne_zero hlen
  have hwf' := hwf
  obtain ⟨_, h1, h2, h3, hl, _⟩ := hwf'
  simp only [listMinSeq, listMaxSeq_eq] at h1 h3
  have hsz : (0 : Int) < L.length := by omega
  rw [LPush_eval hK hwf.meta_some hlen (h - 1) (wrap32 (h - args.length))
    (by rw [if_pos (by omega)]; simp only [add32, wrap32]; omega)
    (by simp only [add32, mul32, wrap32]; omega)]
  rw [listMinSeq]
  constructor
  · intro hok
    have e2 : wrap32 (h - args.length) = h - args.length := by
      simp only [wrap32]; omega
    rw [e2, if_neg (by omega)]
    have e3 : add32 (sub32 t (h - (args.length : Int))) 1 = L.length + args.length := by
      simp only [add32, sub32, wrap32]; omega
    rw [lSetMeta_pos _ (by rw [e3]; omega)]
    simp only
    have he := hwf.elems.push_head hc args
      (metaValue (h - args.length) t) (by omega) (by omega) (by omega)
    refine ⟨?_, ?_, ?_⟩
    · have : wrap64 ((L.length : Int) + args.length) = (L.length : Int) + args.length := by
        simp only [wrap64]; omega
      rw [this]
    · exact WellFormed.of_elems (get_write_meta_put _ _ _ _)
        (by simp only [listMinSeq]; omega) (by omega) (by rw [listMaxSeq_eq]; omega) he
    · intro hv; exact hv.after_push hc hK _ _ _ _
  · intro hok
    rw [if_pos (by simp only [wrap32]; omega)]

/-! ## Removing element records at the ends -/

/-- If a store keeps the element records of the sequence numbers `a .. b` and
has none outside, its list is the slice of the old contents. -/
theorem ElemsAt.restrict {c : Config} {db : Store} (db' : Store) {key : Bytes} {hd tl : Int}
    {L : List Bytes} (he : ElemsAt c db key hd tl L) {a b : Int} (h1 : hd ≤ a) (h2 : b ≤ tl)
    (h3 : a ≤ b + 1)
    (hget : ∀ s : Int, -2147483648 ≤ s → s < 2147483648 →
      get db' (lEncodeListKey c key s) =
        if a ≤ s ∧ s ≤ b then get db (lEncodeListKey c key s) else none) :
    ElemsAt c db' key a b ((L.drop (a - hd).toNat).take (b - a + 1).toNat) := by
  obtain ⟨hl, he⟩ := he
  refine ⟨by simp only [List.length_take, List.length_drop]; omega, ?_⟩
  intro s s1 s2
  rw [hget s s1 s2]
  by_cases hin : a ≤ s ∧ s ≤ b
  · rw [if_pos hin, if_pos hin, he s s1 s2, if_pos (by omega),
      List.getElem?_take_of_lt (by omega), List.getElem?_drop]
    congr 1
    omega
  · rw [if_neg hin, if_neg hin]

theorem wbGet_cons (op : WOp) (wb : WriteBatch) (key : Bytes) (cur : Option Bytes) :
    wbGet (op :: wb) key cur = wbGet wb key (wbGet [op] key cur) := by
  simp [wbGet]

theorem wbGet_nil (key : Bytes) (cur : Option Bytes) : wbGet [] key cur = cur := rfl

/-- The batch of a pop: one element delete, then the metadata update. -/
theorem get_write_pop {c : Config} (hc : c.OK) (db : Store) (key : Bytes) (x : Int)
    (x1 : -2147483648 ≤ x) (x2 : x < 2147483648) (wb : WriteBatch)
    (hwb : wb = [.delete (lEncodeListKey c key x), .delete (lEncodeMetaKey c key)] ∨
      ∃ mv, wb = [.delete (lEncodeListKey c key x), .put (lEncodeMetaKey c key) mv])
    (s : Int) (s1 : -2147483648 ≤ s) (s2 : s < 2147483648) :
    get (write db wb) (lEncodeListKey c key s) =
      if s = x then none else get db (lEncodeListKey c key s) := by
  have hmk : lEncodeMetaKey c key ≠ lEncodeListKey c key s :=
    (lEncodeListKey_ne_meta hc _ _ _).symm
  rw [get_write]
  by_cases hs : s = x
  · subst hs
    rcases hwb with rfl | ⟨mv, rfl⟩
    · rw [wbGet_cons, wbGet_delete_self, wbGet_delete_ne _ hmk, if_pos rfl]
    · rw [wbGet_cons, wbGet_delete_self, wbGet_put_ne _ _ hmk, if_pos rfl]
  · have hne := @lEncodeListKey_ne c key x s x1 x2 s1 s2 (fun e => hs e.symm)
    rcases hwb with rfl | ⟨mv, rfl⟩
    · rw [wbGet_cons, wbGet_delete_ne _ hne, wbGet_delete_ne _ hmk, if_neg hs]
    · rw [wbGet_cons, wbGet_delete_ne _ hne, wbGet_put_ne _ _ hmk, if_neg hs]

theorem ListKeysValid.after_deletes {c : Config} {db : Store} (hc : c.OK)
    (hv : ListKeysValid c db) (key : Bytes) {wb : WriteBatch}
    (hp : ∀ k v, WOp.put k v ∈ wb → k = lEncodeMetaKey c key) :
    ListKeysValid c (write db wb) := by
  apply hv.after_write
  intro k v hmem hh
  rw [hp k v hmem, lEncodeMetaKey_head] at hh
  exact absurd (Option.some.inj hh) hc.1

/-- The code of a pop once the metadata is read and `lSetMeta` succeeds. -/
theorem lpop_eval {c : Config} {db : Store} {key : Bytes} (hK : checkKeySize c key = none)
    {h0 t0 size : Int} (hm : lGetMeta db (lEncodeMetaKey c key) = .ok (h0, t0, size))
    (hsz : size ≠ 0) (whereSeq : Int) (wb : WriteBatch) (sz : Int)
    (hset : lSetMeta (lEncodeMetaKey c key)
      (if whereSeq = listHeadSeq then add32 h0 1 else h0)
      (if whereSeq = listHeadSeq then t0 else sub32 t0 1)
      [.delete (lEncodeListKey c key (if whereSeq = listTailSeq then t0 else h0))] =
        (wb, .ok sz)) :
    lpop c db key whereSeq =
      (.ok (get db (lEncodeListKey c key (if whereSeq = listTailSeq then t0 else h0))),
        write db wb) := by
  simp only [lpop, hK, hm, hsz, if_false, hset]

/-- A head pop on a non-empty well-formed list. -/
theorem WellFormed.lpop_some {c : Config} {db : Store} {key : Bytes} {h t : Int}
    {L : List Bytes} (hc : c.OK) (hK : checkKeySize c key = none)
    (hwf : WellFormed c db key (some (h, t)) L) :
    (LPop c db key).1 = .ok L.head? ∧
      WellFormed c (LPop c db key).2 key (if h + 1 ≤ t then some (h + 1, t) else none) L.tail ∧
      (ListKeysValid c db → ListKeysValid c (LPop c db key).2) := by
  have hwf' := hwf
  obtain ⟨_, h1, h2, h3, hl, hel⟩ := hwf'
  simp only [listMinSeq, listMaxSeq_eq] at h1 h3
  have hsz : (L.length : Int) ≠ 0 := by omega
  have hpos : 0 < L.length := by omega
  have e1 : add32 h 1 = h + 1 := by simp only [add32, wrap32]; omega
  have e2 : add32 (sub32 t (h + 1)) 1 = t - h := by simp only [add32, sub32, wrap32]; omega
  have hv0 := hwf.get_elem hpos
  simp only [Nat.cast_zero, add_zero] at hv0
  have hhead : L.head? = some L[0] := by
    rw [List.head?_eq_getElem?, List.getElem?_eq_getElem hpos]
  have htail : (L.drop (h + 1 - h).toNat).take (t - (h + 1) + 1).toNat = L.tail := by
    rw [show (h + 1 - h).toNat = 1 by omega, List.drop_one, List.take_of_length_le]
    simp only [List.length_tail]; omega
  by_cases hlast : h + 1 ≤ t
  · rw [LPop, lpop_eval hK hwf.meta_some hsz listHeadSeq
      ([.delete (lEncodeListKey c key h), .put (lEncodeMetaKey c key) (metaValue (h + 1) t)])
      (add32 (sub32 t (h + 1)) 1)
      (by
        simp only [listHeadSeq, listTailSeq, if_true, show ¬ ((1 : Int) = 2) by decide,
          if_false, e1]
        rw [lSetMeta_pos _ (by rw [e2]; omega)]; rfl), if_pos hlast]
    simp only [listHeadSeq, listTailSeq, show ¬ ((1 : Int) = 2) by decide, if_false]
    have hg := get_write_pop hc db key h (by omega) (by omega) _
      (Or.inr ⟨metaValue (h + 1) t, rfl⟩)
    refine ⟨by rw [hv0, hhead], ?_, ?_⟩
    · have he := hwf.elems.restrict
        (write db [.delete (lEncodeListKey c key h),
          .put (lEncodeMetaKey c key) (metaValue (h + 1) t)])
        (a := h + 1) (b := t) (by omega) (by omega) (by omega)
        (fun s s1 s2 => by
          rw [hg s s1 s2]
          by_cases hs : s = h
          · rw [if_pos hs, if_neg (by omega)]
          · rw [if_neg hs]
            by_cases hin : h + 1 ≤ s ∧ s ≤ t
            · rw [if_pos hin]
            · rw [if_neg hin, hel s s1 s2, if_neg (by omega)])
      rw [htail] at he
      exact WellFormed.of_elems
        (get_write_meta_put db [.delete (lEncodeListKey c key h)] key _)
        (by simp only [listMinSeq]; omega) hlast (by rw [listMaxSeq_eq]; omega) he
    · intro hv
      apply hv.after_deletes hc key
      intro k v hmem
      simp at hmem
      exact hmem.1
  · rw [LPop, lpop_eval hK hwf.meta_some hsz listHeadSeq
      ([.delete (lEncodeListKey c key h), .delete (lEncodeMetaKey c key)])
      (0)
      (by
        simp only [listHeadSeq, listTailSeq, if_true, show ¬ ((1 : Int) = 2) by decide,
          if_false, e1]
        rw [lSetMeta_zero _ (by rw [e2]; omega)]; rfl), if_neg hlast]
    simp only [listHeadSeq, listTailSeq, show ¬ ((1 : Int) = 2) by decide, if_false]
    have hg := get_write_pop hc db key h (by omega) (by omega) _ (Or.inl rfl)
    refine ⟨by rw [hv0, hhead], ?_, ?_⟩
    · have he := hwf.elems.restrict
        (write db [.delete (lEncodeListKey c key h), .delete (lEncodeMetaKey c key)])
        (a := h + 1) (b := h) (by omega) (by omega) (by omega)
        (fun s s1 s2 => by
          rw [hg s s1 s2, if_neg (show ¬ (h + 1 ≤ s ∧ s ≤ h) by omega)]
          by_cases hs : s = h
          · rw [if_pos hs]
          · rw [if_neg hs, hel s s1 s2, if_neg (by omega)])
      have ht : t = h := by omega
      subst ht
      rw [htail] at he
      exact WellFormed.of_elems_none
        (get_write_meta_delete db [.delete (lEncodeListKey c key t)] key) he
    · intro hv
      apply hv.after_deletes hc key
      intro k v hmem
      simp at hmem

/-- A tail pop on a non-empty well-formed list. -/
theorem WellFormed.rpop_some {c : Config} {db : Store} {key : Bytes} {h t : Int}
    {L : List Bytes} (hc : c.OK) (hK : checkKeySize c key = none)
    (hwf : WellFormed c db key (some (h, t)) L) :
    (RPop c db key).1 = .ok L.getLast? ∧
      WellFormed c (RPop c db key).2 key (if h ≤ t - 1 then some (h, t - 1) else none)
        L.dropLast ∧
      (ListKeysValid c db → ListKeysValid c (RPop c db key).2) := by
  have hwf' := hwf
  obtain ⟨_, h1, h2, h3, hl, hel⟩ := hwf'
  simp only [listMinSeq, listMaxSeq_eq] at h1 h3
  have hsz : (L.length : Int) ≠ 0 := by omega
  have hpos : L.length - 1 < L.length := by omega
  have e1 : sub32 t 1 = t - 1 := by simp only [sub32, wrap32]; omega
  have e2 : add32 (sub32 (t - 1) h) 1 = t - h := by simp only [add32, sub32, wrap32]; omega
  have hv0 := hwf.get_elem hpos
  rw [show h + ((L.length - 1 : Nat) : Int) = t by omega] at hv0
  have hlast' : L.getLast? = some L[L.length - 1] := by
    rw [List.getLast?_eq_getElem?, List.getElem?_eq_getElem hpos]
  have htail : (L.drop (h - h).toNat).take (t - 1 - h + 1).toNat = L.dropLast := by
    rw [show (h - h).toNat = 0 by omega, List.drop_zero, List.dropLast_eq_take]
    congr 1
    omega
  by_cases hlast : h ≤ t - 1
  · rw [RPop, lpop_eval hK hwf.meta_some hsz listTailSeq
      ([.delete (lEncodeListKey c key t), .put (lEncodeMetaKey c key) (metaValue h (t - 1))])
      (add32 (sub32 (t - 1) h) 1)
      (by
        simp only [listHeadSeq, listTailSeq, if_true, show ¬ ((2 : Int) = 1) by decide,
          if_false, e1]
        rw [lSetMeta_pos _ (by rw [e2]; omega)]; rfl), if_pos hlast]
    simp only [listHeadSeq, listTailSeq, if_true]
    have hg := get_write_pop hc db key t (by omega) (by omega) _
      (Or.inr ⟨metaValue h (t - 1), rfl⟩)
    refine ⟨by rw [hv0, hlast'], ?_, ?_⟩
    · have he := hwf.elems.restrict
        (write db [.delete (lEncodeListKey c key t),
          .put (lEncodeMetaKey c key) (metaValue h (t - 1))])
        (a := h) (b := t - 1) (by omega) (by omega) (by omega)
        (fun s s1 s2 => by
          rw [hg s s1 s2]
          by_cases hs : s = t
          · rw [if_pos hs, if_neg (by omega)]
          · rw [if_neg hs]
            by_cases hin : h ≤ s ∧ s ≤ t - 1
            · rw [if_pos hin]
            · rw [if_neg hin, hel s s1 s2, if_neg (by omega)])
      rw [htail] at he
      exact WellFormed.of_elems
        (get_write_meta_put db [.delete (lEncodeListKey c key t)] key _)
        (by simp only [listMinSeq]; omega) hlast (by rw [listMaxSeq_eq]; omega) he
    · intro hv
      apply hv.after_deletes hc key
      intro k v hmem
      simp at hmem
      exact hmem.1
  · rw [RPop, lpop_eval hK hwf.meta_some hsz listTailSeq
      ([.delete (lEncodeListKey c key t), .delete (lEncodeMetaKey c key)])
      (0)
      (by
        simp only [listHeadSeq, listTailSeq, if_true, show ¬ ((2 : Int) = 1) by decide,
          if_false, e1]
        rw [lSetMeta_zero _ (by rw [e2]; omega)]; rfl), if_neg hlast]
    simp only [listHeadSeq, listTailSeq, if_true]
    have hg := get_write_pop hc db key t (by omega) (by omega) _ (Or.inl rfl)
    have ht : t = h := by omega
    subst ht
    refine ⟨by rw [hv0, hlast'], ?_, ?_⟩
    · have he := hwf.elems.restrict
        (write db [.delete (lEncodeListKey c key t), .delete (lEncodeMetaKey c key)])
        (a := t) (b := t - 1) (by omega) (by omega) (by omega)
        (fun s s1 s2 => by
          rw [hg s s1 s2, if_neg (show ¬ (t ≤ s ∧ s ≤ t - 1) by omega)]
          by_cases hs : s = t
          · rw [if_pos hs]
          · rw [if_neg hs, hel s s1 s2, if_neg (by omega)])
      rw [htail] at he
      have he' : ElemsAt c (write db [.delete (lEncodeListKey c key t),
          .delete (lEncodeMetaKey c key)]) key (t - 1 + 1) (t - 1) L.dropLast := by
        rw [show t - 1 + 1 = t by omega]; exact he
      exact WellFormed.of_elems_none
        (get_write_meta_delete db [.delete (lEncodeListKey c key t)] key) he'
    · intro hv
      apply hv.after_deletes hc key
      intro k v hmem
      simp at hmem

/-- A pop on an empty well-formed list returns nil and writes nothing. -/
theorem WellFormed.lpop_none {c : Config} {db : Store} {key : Bytes} {L : List Bytes}
    (hK : checkKeySize c key = none) (hwf : WellFormed c db key none L) (whereSeq : Int) :
    lpop c db key whereSeq = (.ok none, db) := by
  simp only [lpop, hK, hwf.meta_none, if_true]

/-! ## Point reads and positional set -/

theorem WellFormed.LLen_eq {c : Config} {db : Store} {key : Bytes} {m : Option (Int × Int)}
    {L : List Bytes} (hK : checkKeySize c key = none) (hwf : WellFormed c db key m L) :
    LLen c db key = (.ok (L.length : Int), db) := by
  cases m with
  | none =>
    have hL : L = [] := hwf.1
    subst hL
    simp only [LLen, hK, hwf.meta_none, List.length_nil, Nat.cast_zero]
  | some ht =>
    obtain ⟨h, t⟩ := ht
    simp only [LLen, hK, hwf.meta_some]

/-- An index read of a well-formed list. -/
theorem WellFormed.LIndex_eq {c : Config} {db : Store} {key : Bytes} {m : Option (Int × Int)}
    {L : List Bytes} (hK : checkKeySize c key = none) (hwf : WellFormed c db key m L)
    {i : Int} (i1 : -2147483648 ≤ i) (i2 : i < 2147483648) :
    LIndex c db key i =
      (.ok (if 0 ≤ i ∧ i < L.length then L[i.toNat]?
        else if -(L.length : Int) ≤ i ∧ i < 0 then L[((L.length : Int) + i).toNat]?
        else none), db) := by
  cases m with
  | none =>
    obtain ⟨hL, hm, he⟩ := hwf
    subst hL
    simp only [LIndex, hK, RockRedis.lGetMeta_none hm, List.length_nil, Nat.cast_zero]
    have e : get db (lEncodeListKey c key
        (if i ≥ 0 then add32 listInitialSeq i else add32 (add32 listInitialSeq i) 1)) = none := by
      split
      · exact he _ (wrap32_range _).1 (wrap32_range _).2
      · exact he _ (wrap32_range _).1 (wrap32_range _).2
    rw [e, if_neg (by omega), if_neg (by omega)]
  | some ht =>
    obtain ⟨h, t⟩ := ht
    have hwf' := hwf
    obtain ⟨_, h1, h2, h3, hl, hel⟩ := hwf'
    simp only [listMinSeq, listMaxSeq_eq] at h1 h3
    simp only [LIndex, hK, hwf.meta_some]
    by_cases hi : i ≥ 0
    · rw [if_pos hi, add32, hel _ (wrap32_range _).1 (wrap32_range _).2]
      by_cases hin : i < L.length
      · have e : wrap32 (h + i) = h + i := by simp only [wrap32]; omega
        rw [e, if_pos (by omega), if_pos (by omega)]
        congr 3
        omega
      · rw [if_neg (by simp only [wrap32]; omega), if_neg (by omega), if_neg (by omega)]
    · rw [if_neg hi, add32, add32, hel _ (wrap32_range _).1 (wrap32_range _).2,
        if_neg (show ¬ (0 ≤ i ∧ i < (L.length : Int)) by omega)]
      by_cases hin : -(L.length : Int) ≤ i
      · have e : wrap32 (wrap32 (t + i) + 1) = t + i + 1 := by simp only [wrap32]; omega
        rw [e, if_pos (by omega), if_pos (by omega)]
        congr 3
        omega
      · rw [if_neg (by simp only [wrap32]; omega), if_neg (by omega)]

/-- The sequence number that `LIndex` and `LSet` resolve an index to. -/
theorem WellFormed.lset_ok {c : Config} {db : Store} {key : Bytes} {h t : Int}
    {L : List Bytes} (hc : c.OK) (hK : checkKeySize c key = none)
    (hwf : WellFormed c db key (some (h, t)) L)
    {i : Int} (i1 : -2147483648 ≤ i) (i2 : i < 2147483648) (v : Bytes)
    (hin : -(L.length : Int) ≤ i ∧ i < L.length) :
    LSet c db key i v =
        (.ok (), put db (lEncodeListKey c key
          (h + (if 0 ≤ i then i else (L.length : Int) + i))) v) ∧
      WellFormed c (put db (lEncodeListKey c key
          (h + (if 0 ≤ i then i else (L.length : Int) + i))) v) key (some (h, t))
        (L.set (if 0 ≤ i then i else (L.length : Int) + i).toNat v) ∧
      (ListKeysValid c db → ListKeysValid c (put db (lEncodeListKey c key
          (h + (if 0 ≤ i then i else (L.length : Int) + i))) v)) := by
  have hwf' := hwf
  obtain ⟨hm, h1, h2, h3, hl, hel⟩ := hwf'
  have h1' := h1
  have h3' := h3
  simp only [listMinSeq, listMaxSeq_eq] at h1 h3
  have hseq : (if i ≥ 0 then add32 h i else add32 (add32 t i) 1) =
      h + (if 0 ≤ i then i else (L.length : Int) + i) := by
    by_cases hi : 0 ≤ i
    · rw [if_pos hi, if_pos hi]; simp only [add32, wrap32]; omega
    · rw [if_neg hi, if_neg hi]; simp only [add32, wrap32]; omega
  generalize hj : (if 0 ≤ i then i else (L.length : Int) + i) = j at hseq ⊢
  have hj1 : 0 ≤ j ∧ j < L.length := by
    subst hj; split <;> omega
  refine ⟨?_, ?_, ?_⟩
  · simp only [LSet, hK, hwf.meta_some, hseq]
    rw [if_neg (by omega)]
  · refine ⟨?_, h1', h2, h3', by simp only [List.length_set]; exact hl, ?_⟩
    · rw [get_put, if_neg (lEncodeListKey_ne_meta hc _ _ _).symm]; exact hm
    · intro s s1 s2
      rw [get_put]
      by_cases hs : s = h + j
      · subst hs
        rw [if_pos rfl, if_pos (by omega)]
        rw [show (h + j - h).toNat = j.toNat by omega, List.getElem?_set_self (by omega)]
      · rw [if_neg (lEncodeListKey_ne s1 s2 (by omega) (by omega) hs), hel s s1 s2]
        by_cases hr : h ≤ s ∧ s ≤ t
        · rw [if_pos hr, if_pos hr, List.getElem?_set_ne (by omega)]
        · rw [if_neg hr, if_neg hr]
  · intro hv k hk hh
    rw [get_put] at hk
    by_cases e : k = lEncodeListKey c key (h + j)
    · exact ⟨key, h + j, checkKeySize_length hc hK, e⟩
    · rw [if_neg e] at hk
      exact hv k hk hh

theorem WellFormed.lset_err {c : Config} {db : Store} {key : Bytes} {h t : Int}
    {L : List Bytes} (hK : checkKeySize c key = none)
    (hwf : WellFormed c db key (some (h, t)) L)
    {i : Int} (i1 : -2147483648 ≤ i) (i2 : i < 2147483648) (v : Bytes)
    (hout : ¬ (-(L.length : Int) ≤ i ∧ i < L.length)) :
    LSet c db key i v = (.err .listIndex, db) := by
  have hwf' := hwf
  obtain ⟨hm, h1, h2, h3, hl, hel⟩ := hwf'
  simp only [listMinSeq, listMaxSeq_eq] at h1 h3
  simp only [LSet, hK, hwf.meta_some]
  rw [if_pos]
  by_cases hi : i ≥ 0
  · rw [if_pos hi]; simp only [add32, wrap32]; omega
  · rw [if_neg hi]; simp only [add32, wrap32]; omega

/-- Without metadata, `LSet` at index 0 passes the range check and writes an
element record at `listInitialSeq`. -/
theorem LSet_no_meta {c : Config} {db : Store} {key : Bytes} (hK : checkKeySize c key = none)
    (hm : get db (lEncodeMetaKey c key) = none) (v : Bytes) :
    LSet c db key 0 v = (.ok (), put db (lEncodeListKey c key listInitialSeq) v) := by
  simp only [LSet, hK, lGetMeta_none hm]
  have e : add32 listInitialSeq 0 = listInitialSeq := by
    rw [listInitialSeq_eq]; simp only [add32, wrap32]; omega
  simp [e]

/-! ## Staged deletes of a trim -/

theorem wbGet_trimLoop {c : Config} {key : Bytes} {hd : Int} (n : Nat) :
    ∀ (i : Int) (wb : WriteBatch) (cur : Option Bytes),
      -2147483648 ≤ i → i + n ≤ 2147483648 → -2147483648 ≤ hd + i → hd + i + n ≤ 2147483648 →
      ∀ s : Int, -2147483648 ≤ s → s < 2147483648 →
      wbGet (trimLoop c key hd n i wb) (lEncodeListKey c key s) cur =
        if hd + i ≤ s ∧ s < hd + i + n then none
        else wbGet wb (lEncodeListKey c key s) cur := by
  induction n with
  | zero =>
    intro i wb cur _ _ _ _ s _ _
    simp only [trimLoop]
    rw [if_neg (by push_cast; omega)]
  | succ n ih =>
    intro i wb cur i1 i2 hi1 hi2 s s1 s2
    push_cast at i2 hi2
    simp only [trimLoop]
    have e1 : add32 hd i = hd + i := by simp only [add32, wrap32]; omega
    rw [e1]
    by_cases hn : n = 0
    · subst hn
      simp only [trimLoop]
      rw [wbGet_append]
      by_cases hs : s = hd + i
      · subst hs
        rw [wbGet_delete_self, if_pos (by push_cast; omega)]
      · rw [wbGet_delete_ne _ (lEncodeListKey_ne (by omega) (by omega) s1 s2
          (fun e => hs e.symm)), if_neg (by push_cast; omega)]
    · have e2 : add32 i 1 = i + 1 := by simp only [add32, wrap32]; omega
      rw [e2, ih (i + 1) _ cur (by omega) (by omega) (by omega) (by omega) s s1 s2]
      rw [wbGet_append]
      by_cases hs : s = hd + i
      · subst hs
        rw [wbGet_delete_self, ite_self,
          if_pos (show hd + i ≤ hd + i ∧ hd + i < hd + i + ((n + 1 : Nat) : Int) by
            push_cast; omega)]
      · rw [wbGet_delete_ne _ (lEncodeListKey_ne (by omega) (by omega) s1 s2
          (fun e => hs e.symm))]
        by_cases hr : hd + (i + 1) ≤ s ∧ s < hd + (i + 1) + n
        · rw [if_pos hr, if_pos (show hd + i ≤ s ∧ s < hd + i + ((n + 1 : Nat) : Int) by
            push_cast; omega)]
        · rw [if_neg hr, if_neg (show ¬ (hd + i ≤ s ∧ s < hd + i + ((n + 1 : Nat) : Int)) by
            push_cast; omega)]

theorem mem_trimLoop {c : Config} {key : Bytes} {hd : Int} {k v : Bytes} (n : Nat) :
    ∀ (i : Int) (wb : WriteBatch), WOp.put k v ∈ trimLoop c key hd n i wb →
      WOp.put k v ∈ wb := by
  induction n with
  | zero => intro i wb h; exact h
  | succ n ih =>
    intro i wb h
    simp only [trimLoop] at h
    have := ih _ _ h
    simpa using this

theorem mem_trimBatch {c : Config} {key : Bytes} {h llen s e : Int} {k v : Bytes} :
    ¬ WOp.put k v ∈ trimBatch c key h llen s e := by
  unfold trimBatch
  intro hmem
  simp only at hmem
  split at hmem
  · have := mem_trimLoop _ _ _ hmem
    split at this
    · have := mem_trimLoop _ _ _ this
      simp at this
    · simp at this
  · split at hmem
    · have := mem_trimLoop _ _ _ hmem
      simp at this
    · simp at hmem

/-- Element records after the deletes of a trim: those outside `s .. e` are gone. -/
theorem wbGet_trimBatch {c : Config} {key : Bytes} {h llen s e : Int}
    (h1 : 1000 < h) (h2 : h + llen < 2147483648) (hs1 : 0 ≤ s) (hs2 : s ≤ llen)
    (he1 : -1 ≤ e) (he2 : e < llen) (x : Int) (x1 : -2147483648 ≤ x) (x2 : x < 2147483648)
    (cur : Option Bytes) :
    wbGet (trimBatch c key h llen s e) (lEncodeListKey c key x) cur =
      if (h ≤ x ∧ x < h + s) ∨ (h + e < x ∧ x < h + llen) then none else cur := by
  unfold trimBatch
  have e1 : sub32 llen 1 = llen - 1 := by simp only [sub32, wrap32]; omega
  have e2 : add32 e 1 = e + 1 := by simp only [add32, wrap32]; omega
  simp only [e1, e2]
  have first : ∀ cur, wbGet (if s > 0 then trimLoop c key h s.toNat 0 [] else [])
      (lEncodeListKey c key x) cur = if h ≤ x ∧ x < h + s then none else cur := by
    intro cur
    by_cases hp : s > 0
    · rw [if_pos hp, wbGet_trimLoop _ 0 [] cur (by omega) (by omega) (by omega) (by omega)
        x x1 x2, wbGet_nil]
      by_cases hr : h ≤ x ∧ x < h + s
      · rw [if_pos hr, if_pos (by omega)]
      · rw [if_neg hr, if_neg (by omega)]
    · rw [if_neg hp, wbGet_nil, if_neg (by omega)]
  by_cases hq : e < llen - 1
  · rw [if_pos hq, wbGet_trimLoop _ (e + 1) _ cur (by omega) (by omega) (by omega) (by omega)
      x x1 x2, first]
    by_cases hr : h + (e + 1) ≤ x ∧ x < h + (e + 1) + ((llen - (e + 1)).toNat : Int)
    · rw [if_pos hr, if_pos (Or.inr (by omega))]
    · rw [if_neg hr]
      by_cases hr2 : h ≤ x ∧ x < h + s
      · rw [if_pos hr2, if_pos (Or.inl hr2)]
      · rw [if_neg hr2, if_neg (by omega)]
  · rw [if_neg hq, first]
    by_cases hr2 : h ≤ x ∧ x < h + s
    · rw [if_pos hr2, if_pos (Or.inl hr2)]
    · rw [if_neg hr2, if_neg (by omega)]

theorem wbGet_no_put {wb : WriteBatch} {key : Bytes}
    (hp : ∀ v, ¬ WOp.put key v ∈ wb) (hnd : ¬ WOp.delete key ∈ wb) (cur : Option Bytes) :
    wbGet wb key cur = cur := by
  induction wb generalizing cur with
  | nil => rfl
  | cons op wb ih =>
    rw [wbGet_cons, ih (fun v hv => hp v (List.mem_cons_of_mem _ hv))
      (fun hv => hnd (List.mem_cons_of_mem _ hv))]
    cases op with
    | put k v =>
      have : k ≠ key := fun e => hp v (by simp [e])
      exact wbGet_put_ne _ _ this
    | delete k =>
      have : k ≠ key := fun e => hnd (by simp [e])
      exact wbGet_delete_ne _ this

theorem mem_trimLoop_delete {c : Config} {key : Bytes} {hd : Int} {k : Bytes} (n : Nat) :
    ∀ (i : Int) (wb : WriteBatch), WOp.delete k ∈ trimLoop c key hd n i wb →
      WOp.delete k ∈ wb ∨ ∃ s, k = lEncodeListKey c key s := by
  induction n with
  | zero => intro i wb h; exact Or.inl h
  | succ n ih =>
    intro i wb h
    simp only [trimLoop] at h
    rcases ih _ _ h with h' | h'
    · simp only [List.mem_append, List.mem_singleton, WOp.delete.injEq] at h'
      rcases h' with h' | h'
      · exact Or.inl h'
      · exact Or.inr ⟨_, h'⟩
    · exact Or.inr h'

theorem mem_trimBatch_delete {c : Config} {key : Bytes} {h llen s e : Int} {k : Bytes}
    (hmem : WOp.delete k ∈ trimBatch c key h llen s e) : ∃ x, k = lEncodeListKey c key x := by
  unfold trimBatch at hmem
  simp only at hmem
  have first : WOp.delete k ∈ (if s > 0 then trimLoop c key h s.toNat 0 [] else []) →
      ∃ x, k = lEncodeListKey c key x := by
    intro hm
    split at hm
    · rcases mem_trimLoop_delete _ _ _ hm with h' | h'
      · simp at h'
      · exact h'
    · simp at hm
  split at hmem
  · rcases mem_trimLoop_delete _ _ _ hmem with h' | h'
    · exact first h'
    · exact h'
  · exact first hmem

/-- The deletes of a trim leave every key that is no element key of `key` alone. -/
theorem wbGet_trimBatch_other {c : Config} {key : Bytes} {h llen s e : Int} {k : Bytes}
    (hk : ∀ x, k ≠ lEncodeListKey c key x) (cur : Option Bytes) :
    wbGet (trimBatch c key h llen s e) k cur = cur :=
  wbGet_no_put (fun _ hv => mem_trimBatch hv)
    (fun hv => by obtain ⟨x, hx⟩ := mem_trimBatch_delete hv; exact hk x hx) cur

/-! ## Trim to a range -/

/-- The code of `ltrim2` once the metadata is read. -/
theorem ltrim2_eval {c : Config} {db : Store} {key : Bytes} (hK : checkKeySize c key = none)
    {h0 t0 llen : Int} (hm : lGetMeta db (lEncodeMetaKey c key) = .ok (h0, t0, llen))
    {start stop : Int} (a1 : -2147483648 ≤ start) (a2 : start < 2147483648)
    (b1 : -2147483648 ≤ stop) (b2 : stop < 2147483648) {s0 e0 : Int}
    (hs0 : s0 = if start < 0 then add32 llen start else start)
    (he0 : e0 = if stop < 0 then add32 llen stop else stop) :
    ltrim2 c db key start stop =
      if s0 ≥ llen ∨ s0 > e0 then (.err .trimInvalid, db)
      else (.ok (), write db (lSetMeta (lEncodeMetaKey c key)
        (add32 h0 (if s0 < 0 then 0 else s0))
        (add32 h0 (if e0 ≥ llen then sub32 llen 1 else e0))
        (trimBatch c key h0 llen (if s0 < 0 then 0 else s0)
          (if e0 ≥ llen then sub32 llen 1 else e0))).1) := by
  subst hs0 he0
  simp only [ltrim2, hK, hm, wrap32_id a1 a2, wrap32_id b1 b2, trimBatch]

/-- A batch without puts leaves an absent key absent. -/
theorem wbGet_none_of_no_put {wb : WriteBatch} {key : Bytes}
    (hp : ∀ v, ¬ WOp.put key v ∈ wb) : wbGet wb key none = none := by
  by_contra hne
  rcases wbGet_ne_none hne with h | ⟨v, hv⟩
  · exact h rfl
  · exact hp v hv

theorem lSetMeta_fst_put {ek : Bytes} {h t : Int} {wb : WriteBatch} {k v : Bytes}
    (hmem : WOp.put k v ∈ (lSetMeta ek h t wb).1) : WOp.put k v ∈ wb ∨ k = ek := by
  unfold lSetMeta at hmem
  simp only at hmem
  split at hmem
  · exact Or.inl hmem
  · split at hmem
    · simp at hmem; exact Or.inl hmem
    · simp at hmem
      rcases hmem with h' | h'
      · exact Or.inl h'
      · exact Or.inr h'.1

theorem lSetMeta_fst_put_of_nonpos {ek : Bytes} {h t : Int} {wb : WriteBatch} {k v : Bytes}
    (hsz : add32 (sub32 t h) 1 ≤ 0) (hmem : WOp.put k v ∈ (lSetMeta ek h t wb).1) :
    WOp.put k v ∈ wb := by
  unfold lSetMeta at hmem
  simp only at hmem
  by_cases h0 : add32 (sub32 t h) 1 < 0
  · rw [if_pos h0] at hmem; exact hmem
  · rw [if_neg h0, if_pos (by omega)] at hmem
    simpa using hmem

/-- A range trim of an empty well-formed list. -/
theorem WellFormed.ltrim_none {c : Config} {db : Store} {key : Bytes} {L : List Bytes}
    (hK : checkKeySize c key = none) (hwf : WellFormed c db key none L)
    {start stop : Int} (a1 : -2147483648 ≤ start) (a2 : start < 2147483648)
    (b1 : -2147483648 ≤ stop) (b2 : stop < 2147483648) :
    (start ≥ 0 ∨ start > stop → LTrim c db key start stop = (.err .trimInvalid, db)) ∧
      (¬ (start ≥ 0 ∨ start > stop) → (LTrim c db key start stop).1 = .ok () ∧
        WellFormed c (LTrim c db key start stop).2 key none L ∧
        (ListKeysValid c db → ListKeysValid c (LTrim c db key start stop).2)) := by
  have hs0 : start = if start < 0 then add32 0 start else start := by
    split
    · simp only [add32, wrap32]; omega
    · rfl
  have he0 : stop = if stop < 0 then add32 0 stop else stop := by
    split
    · simp only [add32, wrap32]; omega
    · rfl
  rw [LTrim, ltrim2_eval hK hwf.meta_none a1 a2 b1 b2 hs0 he0]
  constructor
  · intro hinv
    rw [if_pos hinv]
  · intro hval
    rw [if_neg hval]
    obtain ⟨hL, hm, hel⟩ := hwf
    have hnp : ∀ k v, WOp.put k v ∈ (lSetMeta (lEncodeMetaKey c key)
        (add32 listInitialSeq (if start < 0 then 0 else start))
        (add32 listInitialSeq (if stop ≥ 0 then sub32 0 1 else stop))
        (trimBatch c key listInitialSeq 0 (if start < 0 then 0 else start)
          (if stop ≥ 0 then sub32 0 1 else stop))).1 → False := by
      intro k v hmem
      have e1 : add32 listInitialSeq (if start < 0 then 0 else start) = listInitialSeq := by
        rw [if_pos (by omega), listInitialSeq_eq]; simp only [add32, wrap32]; omega
      have e2 : add32 (sub32 (add32 listInitialSeq (if stop ≥ 0 then sub32 0 1 else stop))
          (add32 listInitialSeq (if start < 0 then 0 else start))) 1 ≤ 0 := by
        rw [e1, listInitialSeq_eq]
        split <;> simp only [add32, sub32, wrap32] <;> omega
      rw [e1] at hmem e2
      exact mem_trimBatch (lSetMeta_fst_put_of_nonpos e2 hmem)
    refine ⟨rfl, ⟨hL, ?_, ?_⟩, ?_⟩
    · simp only
      rw [get_write, hm]
      exact wbGet_none_of_no_put (fun v hv => hnp _ v hv)
    · intro s s1 s2
      simp only
      rw [get_write, hel s s1 s2]
      exact wbGet_none_of_no_put (fun v hv => hnp _ v hv)
    · intro hv
      exact hv.after_write (fun k v hmem _ => (hnp k v hmem).elim)

/-- A range trim of a non-empty well-formed list, with `s0`, `e0` the indices
after the conversion of negative values. When it is not rejected and `e0` is at
least `-1`, the list keeps the slice from `max s0 0` to `min e0 (llen - 1)`. -/
theorem WellFormed.ltrim_some {c : Config} {db : Store} {key : Bytes} {h t : Int}
    {L : List Bytes} (hc : c.OK) (hK : checkKeySize c key = none)
    (hwf : WellFormed c db key (some (h, t)) L)
    {start stop : Int} (a1 : -2147483648 ≤ start) (a2 : start < 2147483648)
    (b1 : -2147483648 ≤ stop) (b2 : stop < 2147483648) {s0 e0 : Int}
    (hs0 : s0 = if start < 0 then start + L.length else start)
    (he0 : e0 = if stop < 0 then stop + L.length else stop) :
    (s0 ≥ L.length ∨ s0 > e0 → LTrim c db key start stop = (.err .trimInvalid, db)) ∧
      (¬ (s0 ≥ L.length ∨ s0 > e0) → (LTrim c db key start stop).1 = .ok () ∧
        (-1 ≤ e0 →
          WellFormed c (LTrim c db key start stop).2 key
            (if max s0 0 ≤ min e0 ((L.length : Int) - 1)
              then some (h + max s0 0, h + min e0 ((L.length : Int) - 1)) else none)
            ((L.drop (max s0 0).toNat).take
              (min e0 ((L.length : Int) - 1) - max s0 0 + 1).toNat) ∧
          (ListKeysValid c db → ListKeysValid c (LTrim c db key start stop).2))) := by
  have hwf' := hwf
  obtain ⟨hm, h1, h2, h3, hl, hel⟩ := hwf'
  simp only [listMinSeq, listMaxSeq_eq] at h1 h3
  have hs0' : s0 = if start < 0 then add32 L.length start else start := by
    rw [hs0]; split
    · simp only [add32, wrap32]; omega
    · rfl
  have he0' : e0 = if stop < 0 then add32 L.length stop else stop := by
    rw [he0]; split
    · simp only [add32, wrap32]; omega
    · rfl
  have bs : -2147483648 ≤ s0 ∧ s0 < 2147483648 := by rw [hs0]; split <;> omega
  have be : -2147483648 ≤ e0 ∧ e0 < 2147483648 := by rw [he0]; split <;> omega
  rw [LTrim, ltrim2_eval hK hwf.meta_some a1 a2 b1 b2 hs0' he0']
  clear hs0 he0 hs0' he0'
  constructor
  · intro hinv
    rw [if_pos hinv]
  · intro hval
    rw [if_neg hval]
    refine ⟨rfl, ?_⟩
    intro hge
    have c1 : (if s0 < 0 then (0 : Int) else s0) = max s0 0 := by split <;> omega
    have c2 : (if e0 ≥ (L.length : Int) then sub32 L.length 1 else e0) =
        min e0 ((L.length : Int) - 1) := by
      split
      · simp only [sub32, wrap32]; omega
      · omega
    rw [c1, c2]
    generalize hs : max s0 0 = s
    generalize he : min e0 ((L.length : Int) - 1) = e
    have s1 : 0 ≤ s ∧ s < L.length := by omega
    have e1 : -1 ≤ e ∧ e < L.length ∧ s ≤ e + 1 := by omega
    have f1 : add32 h s = h + s := by simp only [add32, wrap32]; omega
    have f2 : add32 h e = h + e := by simp only [add32, wrap32]; omega
    have f3 : add32 (sub32 (h + e) (h + s)) 1 = e - s + 1 := by
      simp only [add32, sub32, wrap32]; omega
    rw [f1, f2]
    simp only
    have hget : ∀ (mop : WOp), (∀ x cur, wbGet [mop] (lEncodeListKey c key x) cur = cur) →
        ∀ x : Int, -2147483648 ≤ x → x < 2147483648 →
        get (write db (trimBatch c key h L.length s e ++ [mop])) (lEncodeListKey c key x) =
          if h + s ≤ x ∧ x ≤ h + e then get db (lEncodeListKey c key x) else none := by
      intro mop hmop x x1 x2
      rw [get_write, wbGet_append, hmop,
        wbGet_trimBatch h1 (by omega) s1.1 (by omega) e1.1 e1.2.1 x x1 x2]
      by_cases hr : h + s ≤ x ∧ x ≤ h + e
      · rw [if_pos hr, if_neg (by omega)]
      · rw [if_neg hr]
        by_cases hr2 : (h ≤ x ∧ x < h + s) ∨ (h + e < x ∧ x < h + L.length)
        · rw [if_pos hr2]
        · rw [if_neg hr2, hel x x1 x2, if_neg (by omega)]
    by_cases hse : s ≤ e
    · rw [lSetMeta_pos _ (by rw [f3]; omega), if_pos hse]
      simp only
      constructor
      · have he' := hwf.elems.restrict _ (a := h + s) (b := h + e) (by omega) (by omega)
          (by omega) (hget (.put (lEncodeMetaKey c key) (metaValue (h + s) (h + e)))
            (fun x cur => wbGet_put_ne _ _ (lEncodeListKey_ne_meta hc _ _ _).symm))
        rw [show (h + s - h).toNat = s.toNat by omega,
          show (h + e - (h + s) + 1).toNat = (e - s + 1).toNat by omega] at he'
        exact WellFormed.of_elems (get_write_meta_put _ _ _ _)
          (by simp only [listMinSeq]; omega) (by omega) (by rw [listMaxSeq_eq]; omega) he'
      · intro hv
        apply hv.after_deletes hc key
        intro k v hmem
        simp only [List.mem_append, List.mem_singleton, WOp.put.injEq] at hmem
        rcases hmem with h' | h'
        · exact (mem_trimBatch h').elim
        · exact h'.1
    · rw [lSetMeta_zero _ (by rw [f3]; omega), if_neg hse]
      simp only
      constructor
      · have he' := hwf.elems.restrict _ (a := h + s) (b := h + e) (by omega) (by omega)
          (by omega) (hget (.delete (lEncodeMetaKey c key))
            (fun x cur => wbGet_delete_ne _ (lEncodeListKey_ne_meta hc _ _ _).symm))
        rw [show (h + s - h).toNat = s.toNat by omega,
          show (h + e - (h + s) + 1).toNat = (e - s + 1).toNat by omega] at he'
        have heq : ElemsAt c (write db (trimBatch c key h L.length s e ++
            [.delete (lEncodeMetaKey c key)])) key (h + e + 1) (h + e)
            ((L.drop s.toNat).take (e - s + 1).toNat) := by
          rw [show h + e + 1 = h + s by omega]; exact he'
        exact WellFormed.of_elems_none (get_write_meta_delete _ _ _) heq
      · intro hv
        apply hv.after_deletes hc key
        intro k v hmem
        simp only [List.mem_append, List.mem_singleton] at hmem
        rcases hmem with h' | h'
        · exact (mem_trimBatch h').elim
        · simp at h'

/-! ## Whole-list reads, call sequences and sample states -/

theorem lrangeSpec_all (L : List Bytes) : lrangeSpec L 0 (-1) = L := by
  unfold lrangeSpec
  simp only [lt_irrefl, if_false, show ((-1 : Int) < 0) by decide, if_true]
  cases L with
  | nil => simp
  | cons a as =>
    rw [if_neg (by simp only [List.length_cons]; push_cast; omega)]
    have e1 : (max (0 : Int) 0).toNat = 0 := by simp
    have e2 : (min (-1 + (((a :: as).length : Nat) : Int)) ((((a :: as).length : Nat) : Int) - 1)
        - max 0 0 + 1).toNat = (a :: as).length := by
      simp only [List.length_cons]; push_cast; omega
    rw [e1, e2, List.drop_zero, List.take_length]

theorem WellFormed.of_empty_store (c : Config) (key : Bytes) : WellFormed c [] key none [] :=
  ⟨rfl, rfl, fun _ _ _ => rfl⟩

theorem ListKeysValid.of_empty (c : Config) : ListKeysValid c [] :=
  fun _ hk => absurd rfl hk

theorem WellFormed.eq_nil_iff {c : Config} {db : Store} {key : Bytes} {m : Option (Int × Int)}
    {L : List Bytes} (hwf : WellFormed c db key m L) : L = [] ↔ m = none := by
  cases m with
  | none => simp [hwf.1]
  | some ht =>
    obtain ⟨h, t⟩ := ht
    obtain ⟨_, _, h2, _, hl, _⟩ := hwf
    simp only [reduceCtorEq, iff_false]
    intro hL
    subst hL
    simp at hl
    omega

/-- A push with arguments below `2^31` in number keeps a well-formed list
well-formed and grows it by the arguments when it succeeds. -/
theorem WellFormed.push_step {c : Config} {db : Store} {key : Bytes} {m : Option (Int × Int)}
    {L : List Bytes} (hc : c.OK) (hK : checkKeySize c key = none)
    (hwf : WellFormed c db key m L) (args : List Bytes) (hn : args.length < 2147483648)
    (tail : Bool) :
    ∃ m' L', WellFormed c (Call.run c key db (if tail then .rpush args else .lpush args)).1
        key m' L' ∧
      (L'.length : Int) = L.length +
        (Call.run c key db (if tail then .rpush args else .lpush args)).2 := by
  by_cases hne : args = []
  · subst hne
    have hl : ∀ ws, lpush c db key ws [] = (.ok (L.length : Int), db) := by
      intro ws
      cases m with
      | none =>
        have hL : L = [] := hwf.1
        subst hL
        simp [lpush, hK, hwf.meta_none]
      | some ht =>
        obtain ⟨h, t⟩ := ht
        simp [lpush, hK, hwf.meta_some]
    refine ⟨m, L, ?_, ?_⟩ <;> cases tail <;> simp [Call.run, LPush, RPush, hl, hwf]
  · cases tail with
    | true =>
      simp only [if_true, Call.run]
      cases m with
      | none =>
        obtain ⟨hok, herr⟩ := hwf.rpush_none hc hK hne hn
        by_cases hcond : listInitialSeq + args.length - 1 < listMaxSeq
        · obtain ⟨hr, hw, _⟩ := hok hcond
          exact ⟨_, L ++ args, hw, by rw [hr]; simp⟩
        · rw [herr hcond]
          exact ⟨none, L, hwf, by simp⟩
      | some ht =>
        obtain ⟨h, t⟩ := ht
        obtain ⟨hok, herr⟩ := hwf.rpush_some hc hK hne hn
        by_cases hcond : t + args.length < listMaxSeq
        · obtain ⟨hr, hw, _⟩ := hok hcond
          exact ⟨_, L ++ args, hw, by rw [hr]; simp⟩
        · rw [herr hcond]
          exact ⟨_, L, hwf, by simp⟩
    | false =>
      simp only [Bool.false_eq_true, if_false, Call.run]
      cases m with
      | none =>
        obtain ⟨hok, herr⟩ := hwf.lpush_none hc hK hne hn
        by_cases hcond : listMinSeq < listInitialSeq - args.length + 1
        · obtain ⟨hr, hw, _⟩ := hok hcond
          exact ⟨_, args.reverse ++ L, hw, by rw [hr]; simp; omega⟩
        · rw [herr hcond]
          exact ⟨none, L, hwf, by simp⟩
      | some ht =>
        obtain ⟨h, t⟩ := ht
        obtain ⟨hok, herr⟩ := hwf.lpush_some hc hK hne hn
        by_cases hcond : listMinSeq < h - args.length
        · obtain ⟨hr, hw, _⟩ := hok hcond
          exact ⟨_, args.reverse ++ L, hw, by rw [hr]; simp; omega⟩
        · rw [herr hcond]
          exact ⟨_, L, hwf, by simp⟩

/-- A pop keeps a well-formed list well-formed and shortens it by one when it
returns an element. -/
theorem WellFormed.pop_step {c : Config} {db : Store} {key : Bytes} {m : Option (Int × Int)}
    {L : List Bytes} (hc : c.OK) (hK : checkKeySize c key = none)
    (hwf : WellFormed c db key m L) (tail : Bool) :
    ∃ m' L', WellFormed c (Call.run c key db (if tail then .rpop else .lpop)).1 key m' L' ∧
      (L'.length : Int) = L.length + (Call.run c key db (if tail then .rpop else .lpop)).2 := by
  cases m with
  | none =>
    have hL : L = [] := hwf.1
    refine ⟨none, L, ?_, ?_⟩ <;> cases tail <;>
      simp [Call.run, LPop, RPop, hwf.lpop_none hK, hwf]
  | some ht =>
    obtain ⟨h, t⟩ := ht
    have hpos : 0 < L.length := by
      obtain ⟨_, _, h2, _, hl, _⟩ := hwf
      omega
    cases tail with
    | true =>
      obtain ⟨hr, hw, _⟩ := hwf.rpop_some hc hK
      refine ⟨_, L.dropLast, hw, ?_⟩
      simp only [if_true, Call.run, hr]
      rw [List.getLast?_eq_getElem?, List.getElem?_eq_getElem (by omega)]
      simp only [List.length_dropLast]
      omega
    | false =>
      obtain ⟨hr, hw, _⟩ := hwf.lpop_some hc hK
      refine ⟨_, L.tail, hw, ?_⟩
      simp only [Bool.false_eq_true, if_false, Call.run, hr]
      rw [List.head?_eq_getElem?, List.getElem?_eq_getElem hpos]
      simp only [List.length_tail]
      omega

/-- After any sequence of pushes and pops on a well-formed list, `LLen` is the
old length plus the elements pushed minus the elements popped. -/
theorem WellFormed.runCalls_llen {c : Config} {key : Bytes} (hc : c.OK)
    (hK : checkKeySize c key = none) (calls : List Call) :
    ∀ (db : Store) (m : Option (Int × Int)) (L : List Bytes), WellFormed c db key m L →
      (∀ call ∈ calls, call.args.length < 2147483648) →
      (LLen c (runCalls c key db calls).1 key).1 =
        .ok ((L.length : Int) + (runCalls c key db calls).2) := by
  induction calls with
  | nil =>
    intro db m L hwf _
    simp [runCalls, hwf.LLen_eq hK]
  | cons call rest ih =>
    intro db m L hwf hn
    have hstep : ∃ m' L', WellFormed c (call.run c key db).1 key m' L' ∧
        (L'.length : Int) = L.length + (call.run c key db).2 := by
      have hargs := hn call (List.mem_cons_self _ _)
      cases call with
      | lpush args => exact hwf.push_step hc hK args hargs false
      | rpush args => exact hwf.push_step hc hK args hargs true
      | lpop => exact hwf.pop_step hc hK false
      | rpop => exact hwf.pop_step hc hK true
    obtain ⟨m', L', hw', hl'⟩ := hstep
    have := ih _ m' L' hw' (fun call hc' => hn call (List.mem_cons_of_mem _ hc'))
    simp only [runCalls]
    rw [this, hl']
    congr 1
    ring

theorem sampleConfig_ok : sampleConfig.OK := by decide

theorem sampleKey_ok : checkKeySize sampleConfig sampleKey = none := by decide

/-- The sample store holds the well-formed list `[a, b, c]` under the sample key. -/
theorem sampleStore_wf :
    WellFormed sampleConfig sampleStore sampleKey (some (listInitialSeq, listInitialSeq + 2))
      [[97], [98], [99]] := by
  have h := ((WellFormed.of_empty_store sampleConfig sampleKey).rpush_none sampleConfig_ok
    sampleKey_ok (show ([[97], [98], [99]] : List Bytes) ≠ [] by decide) (by decide)).1 (by decide)
  have e : listInitialSeq + ((([[97], [98], [99]] : List Bytes).length : Nat) : Int) - 1 =
      listInitialSeq + 2 := by
    simp only [List.length_cons, List.length_nil]; push_cast; omega
  rw [e] at h
  exact h.2.1

theorem sampleStore_valid : ListKeysValid sampleConfig sampleStore :=
  (((WellFormed.of_empty_store sampleConfig sampleKey).rpush_none sampleConfig_ok
    sampleKey_ok (show ([[97], [98], [99]] : List Bytes) ≠ [] by decide) (by decide)).1 (by decide)).2.2
    (ListKeysValid.of_empty _)

/-! ## Element key codec: decoding and order across keys -/

theorem lEncodeListKey_length (c : Config) (key : Bytes) (s : Int) :
    (lEncodeListKey c key s).length = key.length + 7 := by
  simp [lEncodeListKey, putUint16, putUint32]

theorem toU32_wrap32_of_lt {v : Nat} (hv : v < 4294967296) : toU32 (wrap32 v) = v := by
  unfold toU32 wrap32; omega

theorem putUint32_getUint32 {x0 x1 x2 x3 : Nat} (h0 : x0 < 256) (h1 : x1 < 256) (h2 : x2 < 256)
    (h3 : x3 < 256) :
    putUint32 (getUint32 [x0, x1, x2, x3]) = [x0, x1, x2, x3] := by
  simp only [getUint32, putUint32, List.getD_cons_zero, List.getD_cons_succ, List.cons.injEq,
    and_true]
  refine ⟨?_, ?_, ?_, ?_⟩ <;> omega

theorem getUint32_lt {x0 x1 x2 x3 : Nat} (h0 : x0 < 256) (h1 : x1 < 256) (h2 : x2 < 256)
    (h3 : x3 < 256) : getUint32 [x0, x1, x2, x3] < 4294967296 := by
  simp only [getUint32, List.getD_cons_zero, List.getD_cons_succ]
  omega

/-- Decoding an element key gives back the logical key and the sequence number. -/
theorem lDecodeListKey_lEncodeListKey (c : Config) {key : Bytes} (hk : key.length ≤ 65535)
    {s : Int} (s1 : -2147483648 ≤ s) (s2 : s < 2147483648) :
    lDecodeListKey c (lEncodeListKey c key s) = .ok (key, s) := by
  have e1 : key.length % 65536 / 256 % 256 * 256 + key.length % 65536 % 256 = key.length := by
    omega
  simp only [lDecodeListKey, lEncodeListKey, putUint16, List.cons_append, List.nil_append,
    List.length_cons, List.length_append, putUint32_length, List.getD_cons_zero,
    List.getD_cons_succ, e1, List.drop_succ_cons, List.drop_zero]
  rw [if_neg (by simp), if_neg (by omega), if_neg (by omega)]
  simp only [List.take_left', List.drop_left', getUint32_putUint32 (toU32_lt s),
    wrap32_toU32 s1 s2]
  rw [show 3 + key.length = (key.length + 1 + 1 + 1) by omega]
  simp [getUint32_putUint32 (toU32_lt s), wrap32_toU32 s1 s2]

/-- What `lDecodeListKey` accepts: a first byte `ListType` and a length of 7
plus the length stored in bytes 1 and 2; everything else is an invalid list
key. -/
theorem lDecodeListKey_ok_iff (c : Config) (ek : Bytes) :
    (ek.head? = some c.ListType ∧ ek.length = 7 + (ek.getD 1 0 * 256 + ek.getD 2 0) →
      lDecodeListKey c ek =
        .ok ((ek.drop 3).take (ek.getD 1 0 * 256 + ek.getD 2 0),
          wrap32 (getUint32 (ek.drop (3 + (ek.getD 1 0 * 256 + ek.getD 2 0)))))) ∧
    (¬ (ek.head? = some c.ListType ∧ ek.length = 7 + (ek.getD 1 0 * 256 + ek.getD 2 0)) →
      lDecodeListKey c ek = .err .listKey) := by
  cases ek with
  | nil => simp [lDecodeListKey]
  | cons t rest =>
    simp only [lDecodeListKey, List.head?_cons, Option.some.injEq, List.length_cons,
      List.getD_cons_zero]
    constructor
    · rintro ⟨ht, hl⟩
      rw [if_neg (by rw [ht]; simp), if_neg (by omega), if_neg (by omega)]
    · intro hn
      by_cases ht : t = c.ListType
      · rw [if_neg (by rw [ht]; simp)]
        by_cases h3 : 3 > rest.length + 1
        · rw [if_pos h3]
        · rw [if_neg h3, if_pos]
          intro hl
          exact hn ⟨ht, by omega⟩
      · rw [if_pos (Or.inr ht)]

/-- An accepted byte string is the element key of what it decodes to. -/
theorem lEncodeListKey_of_lDecodeListKey {c : Config} {ek key : Bytes} {s : Int}
    (hb : ∀ b ∈ ek, b < 256) (hd : lDecodeListKey c ek = .ok (key, s)) :
    ek = lEncodeListKey c key s ∧ key.length ≤ 65535 ∧ -2147483648 ≤ s ∧ s < 2147483648 := by
  obtain ⟨hok, herr⟩ := lDecodeListKey_ok_iff c ek
  by_cases hacc : ek.head? = some c.ListType ∧ ek.length = 7 + (ek.getD 1 0 * 256 + ek.getD 2 0)
  · rw [hok hacc] at hd
    simp only [Res.ok.injEq, Prod.mk.injEq] at hd
    obtain ⟨hkey, hseq⟩ := hd
    obtain ⟨hh, hl⟩ := hacc
    rcases ek with _ | ⟨t, _ | ⟨b1, _ | ⟨b2, rest⟩⟩⟩
    · simp at hh
    · simp at hl
    · simp at hl; omega
    simp only [List.head?_cons, Option.some.injEq] at hh
    simp only [List.getD_cons_zero, List.getD_cons_succ, List.length_cons,
      List.drop_succ_cons, List.drop_zero] at hl hkey hseq
    have hb1 : b1 < 256 := hb b1 (by simp)
    have hb2 : b2 < 256 := hb b2 (by simp)
    have hkl : key.length = b1 * 256 + b2 := by
      rw [← hkey, List.length_take]; omega
    have hrest : rest = key ++ rest.drop (b1 * 256 + b2) := by
      rw [← hkey, List.take_append_drop]
    have h4 : (rest.drop (b1 * 256 + b2)).length = 4 := by
      rw [List.length_drop]; omega
    rw [show 3 + (b1 * 256 + b2) = (b1 * 256 + b2) + 1 + 1 + 1 by omega] at hseq
    simp only [List.drop_succ_cons] at hseq
    generalize hx : rest.drop (b1 * 256 + b2) = x at h4 hseq hrest
    have hxb : ∀ b ∈ x, b < 256 := by
      intro b hbx
      apply hb b
      rw [hrest]
      simp [hbx]
    rcases x with _ | ⟨x0, _ | ⟨x1, _ | ⟨x2, _ | ⟨x3, _ | ⟨x4, xs⟩⟩⟩⟩⟩
    · simp at h4
    · simp at h4
    · simp at h4
    · simp at h4
    · have y0 := hxb x0 (by simp)
      have y1 := hxb x1 (by simp)
      have y2 := hxb x2 (by simp)
      have y3 := hxb x3 (by simp)
      have hv := getUint32_lt y0 y1 y2 y3
      refine ⟨?_, by omega, ?_, ?_⟩
      · rw [lEncodeListKey, ← hseq, toU32_wrap32_of_lt hv, putUint32_getUint32 y0 y1 y2 y3,
          hh, ← hrest, hkl]
        simp only [putUint16, List.cons_append, List.nil_append, List.cons.injEq, true_and]
        refine ⟨?_, ?_, trivial⟩ <;> omega
      · rw [← hseq]; exact (wrap32_range _).1
      · rw [← hseq]; exact (wrap32_range _).2
    · simp at h4
  · rw [herr hacc] at hd
    simp at hd

/-- Element keys of logical keys of at most 65535 bytes determine the logical
key and the sequence number. -/
theorem lEncodeListKey_inj {c : Config} {key key' : Bytes} {s s' : Int}
    (hk : key.length ≤ 65535) (hk' : key'.length ≤ 65535)
    (s1 : -2147483648 ≤ s) (s2 : s < 2147483648) (t1 : -2147483648 ≤ s')
    (t2 : s' < 2147483648) (h : lEncodeListKey c key s = lEncodeListKey c key' s') :
    key = key' ∧ s = s' := by
  have := lDecodeListKey_lEncodeListKey c hk s1 s2
  rw [h, lDecodeListKey_lEncodeListKey c hk' t1 t2] at this
  simp only [Res.ok.injEq, Prod.mk.injEq] at this
  exact ⟨this.1.symm, this.2.symm⟩

/-- Element keys of distinct logical keys of at most 65535 bytes differ, whatever
the sequence numbers. -/
theorem lEncodeListKey_ne_of_key_ne {c : Config} {key key' : Bytes}
    (hk : key.length ≤ 65535) (hk' : key'.length ≤ 65535) (hne : key ≠ key') (s s' : Int) :
    lEncodeListKey c key s ≠ lEncodeListKey c key' s' := by
  intro h
  simp only [lEncodeListKey, List.cons.injEq, true_and] at h
  have h16 := List.append_inj_left h (by simp [putUint16_length])
  simp only [putUint16, List.cons.injEq, and_true] at h16
  have hkk : key.length = key'.length := by omega
  have h3 := List.append_inj_right h (by simp [putUint16_length])
  exact hne (List.append_inj_left h3 hkk)

theorem bytesLe_trans {a b d : Bytes} (h1 : bytesLe a b = true) (h2 : bytesLe b d = true) :
    bytesLe a d = true := by
  simp only [bytesLe, Bool.not_eq_true', Bool.not_eq_true] at h1 h2 ⊢
  cases hx : bytesLt d a with
  | false => rfl
  | true =>
    rcases bytesLt_total a b with h | h | h
    · have := bytesLt_trans hx h
      rw [h2] at this; exact absurd this (by simp)
    · subst h; rw [h2] at hx; exact absurd hx (by simp)
    · rw [h1] at h; exact absurd h (by simp)

theorem bytesLe_iff_lt_or_eq (a b : Bytes) : bytesLe a b = true ↔ bytesLt a b = true ∨ a = b := by
  constructor
  · intro h
    simp only [bytesLe, Bool.not_eq_true', Bool.not_eq_true] at h
    rcases bytesLt_total a b with h' | h' | h'
    · exact Or.inl h'
    · exact Or.inr h'
    · rw [h] at h'; exact absurd h' (by simp)
  · rintro (h | h)
    · exact bytesLe_of_lt h
    · subst h; exact bytesLe_refl _

/-- Two byte strings in order have first bytes in order. -/
theorem bytesLe_head {a b : Nat} {as bs : Bytes} (h : bytesLe (a :: as) (b :: bs) = true) :
    a ≤ b := by
  simp only [bytesLe, bytesLt, Bool.not_eq_true', Bool.or_eq_false_iff, Bool.and_eq_false_iff,
    decide_eq_false_iff_not] at h
  omega

/-! ## Bulk delete -/

/-- The records left by a filter on the keys. -/
theorem get_filter_key (q : Bytes → Bool) (db : Store) (k : Bytes) :
    get (db.filter (fun kv => !q kv.1)) k = if q k = true then none else get db k := by
  induction db with
  | nil => simp [get]
  | cons kv db ih =>
    obtain ⟨k', v'⟩ := kv
    by_cases hq : q k' = true
    · have hf : List.filter (fun kv : Bytes × Bytes => !q kv.1) ((k', v') :: db) =
          List.filter (fun kv : Bytes × Bytes => !q kv.1) db := by
        simp [List.filter_cons, hq]
      rw [hf, ih]
      by_cases e : k' = k
      · subst e; simp [hq]
      · simp [get, e]
    · have hq' : q k' = false := by simpa using hq
      have hf : List.filter (fun kv : Bytes × Bytes => !q kv.1) ((k', v') :: db) =
          (k', v') :: List.filter (fun kv : Bytes × Bytes => !q kv.1) db := by
        simp [List.filter_cons, hq']
      rw [hf]
      by_cases e : k' = k
      · subst e; simp [get, hq']
      · simp only [get, e, if_false]
        exact ih

/-- The records left by the range delete: those outside the range or in a file
that stays. -/
theorem get_deleteFilesInRange (c : Config) (db : Store) (start limit k : Bytes) :
    get (deleteFilesInRange c db start limit) k =
      if (c.dropsRecord k && bytesLe start k && bytesLt k limit) = true then none
      else get db k :=
  get_filter_key (fun k => c.dropsRecord k && bytesLe start k && bytesLt k limit) db k

theorem length_deleteFilesInRange (c : Config) (db : Store) (start limit : Bytes) :
    (deleteFilesInRange c db start limit).length ≤ db.length :=
  List.length_filter_le _ _

theorem leastKey_none {p : Bytes → Bool} {db : Store} (h : leastKey p db = none) (k : Bytes)
    (hk : get db k ≠ none) : p k = false := by
  induction db with
  | nil => simp [get] at hk
  | cons kv db ih =>
    obtain ⟨k', v'⟩ := kv
    simp only [leastKey] at h
    cases hl : leastKey p db with
    | none =>
      rw [hl] at h
      simp only at h
      by_cases e : k' = k
      · subst e
        by_contra hp
        simp [hp] at h
      · simp only [get, e, if_false] at hk
        exact ih hl hk
    | some b =>
      rw [hl] at h
      simp only at h
      split at h <;> simp at h

theorem deleteLoop_none (db : Store) (stopKey : Bytes) (fuel : Nat) (num : Int)
    (wb : WriteBatch) : deleteLoop db stopKey fuel none num wb = (num, wb) := by
  cases fuel <;> rfl

/-- The delete loop from a key `k0` of the store: it stages the deletes of the
keys of the store from `k0` up to `stopKey`, each once, and counts them. -/
theorem deleteLoop_spec (db : Store) (stopKey : Bytes) :
    ∀ (fuel : Nat) (k0 : Bytes) (num : Int) (wb : WriteBatch), get db k0 ≠ none →
      ((db.map Prod.fst).toFinset.filter (fun k => bytesLe k0 k = true)).card < fuel →
      ∃ ks : List Bytes,
        deleteLoop db stopKey fuel (some k0) num wb =
          (num + ks.length, wb ++ ks.map WOp.delete) ∧
        ks.Nodup ∧
        ∀ k, k ∈ ks ↔ (get db k ≠ none ∧ bytesLe k0 k = true ∧ bytesLe k stopKey = true) := by
  intro fuel
  induction fuel with
  | zero => intro k0 num wb _ hf; omega
  | succ f ih =>
    intro k0 num wb hk0 hf
    by_cases hstop : bytesLt stopKey k0 = true
    · refine ⟨[], by simp [deleteLoop, hstop], List.nodup_nil, fun k => ?_⟩
      simp only [List.not_mem_nil, false_iff, not_and]
      intro _ h1 h2
      have := bytesLe_trans h1 h2
      simp [bytesLe, hstop] at this
    · have hstop' : bytesLt stopKey k0 = false := by simpa using hstop
      have hle0 : bytesLe k0 stopKey = true := by simp [bytesLe, hstop']
      cases hn : next db k0 with
      | none =>
        refine ⟨[k0], by simp [deleteLoop, hstop', hn, deleteLoop_none], List.nodup_singleton _,
          fun k => ?_⟩
        simp only [List.mem_singleton]
        constructor
        · rintro rfl
          exact ⟨hk0, bytesLe_refl _, hle0⟩
        · rintro ⟨hk, h1, _⟩
          rcases (bytesLe_iff_lt_or_eq _ _).1 h1 with hlt | heq
          · have := leastKey_none hn k hk
            simp only at this
            rw [hlt] at this
            exact absurd this (by simp)
          · exact heq.symm
      | some k1 =>
        obtain ⟨hp1, hg1, hmin1⟩ := leastKey_some hn
        have hcard : ((db.map Prod.fst).toFinset.filter (fun k => bytesLe k1 k = true)).card <
            ((db.map Prod.fst).toFinset.filter (fun k => bytesLe k0 k = true)).card := by
          apply Finset.card_lt_card
          rw [Finset.ssubset_iff_of_subset]
          · refine ⟨k0, ?_, ?_⟩
            · simp only [Finset.mem_filter, List.mem_toFinset]
              exact ⟨(get_ne_none_iff db k0).1 hk0, bytesLe_refl _⟩
            · simp only [Finset.mem_filter, List.mem_toFinset, not_and]
              intro _
              simp [bytesLe, hp1]
          · intro k hk
            simp only [Finset.mem_filter, List.mem_toFinset] at hk ⊢
            exact ⟨hk.1, bytesLe_trans (bytesLe_of_lt hp1) hk.2⟩
        obtain ⟨ks, he, hnd, hmem⟩ := ih k1 (num + 1) (wb ++ [.delete k0]) hg1 (by omega)
        refine ⟨k0 :: ks, ?_, ?_, fun k => ?_⟩
        · simp only [deleteLoop, hstop', Bool.false_eq_true, if_false, hn, he, List.length_cons,
            List.map_cons, List.append_assoc, List.singleton_append, Prod.mk.injEq, and_true]
          push_cast
          ring
        · refine List.nodup_cons.2 ⟨fun hin => ?_, hnd⟩
          have := ((hmem k0).1 hin).2.1
          simp [bytesLe, hp1] at this
        · simp only [List.mem_cons, hmem]
          constructor
          · rintro (rfl | ⟨hk, h1, h2⟩)
            · exact ⟨hk0, bytesLe_refl _, hle0⟩
            · exact ⟨hk, bytesLe_trans (bytesLe_of_lt hp1) h1, h2⟩
          · rintro ⟨hk, h1, h2⟩
            rcases (bytesLe_iff_lt_or_eq _ _).1 h1 with hlt | heq
            · exact Or.inr ⟨hk, hmin1 k hk hlt, h2⟩
            · exact Or.inl heq.symm

/-- A well-formed list has no more elements than the store has records. -/
theorem WellFormed.length_le_store {c : Config} {db : Store} {key : Bytes} {h t : Int}
    {L : List Bytes} (hwf : WellFormed c db key (some (h, t)) L) : L.length ≤ db.length := by
  have hwf' := hwf
  obtain ⟨_, h1, h2, h3, hl, _⟩ := hwf'
  simp only [listMinSeq, listMaxSeq_eq] at h1 h3
  have hnd : ((List.range L.length).map (fun i : Nat => lEncodeListKey c key (h + i))).Nodup := by
    apply List.Nodup.map_on _ (List.nodup_range _)
    intro i hi j hj hij
    simp only [List.mem_range] at hi hj
    have := lEncodeListKey_inj_seq (by omega) (by omega) (by omega) (by omega) hij
    omega
  have hsub : (List.range L.length).map (fun i : Nat => lEncodeListKey c key (h + i)) ⊆
      db.map Prod.fst := by
    intro k hk
    simp only [List.mem_map, List.mem_range] at hk
    obtain ⟨i, hi, rfl⟩ := hk
    rw [← get_ne_none_iff, hwf.get_elem hi]
    simp
  have := (List.subperm_of_subset hnd hsub).length_le
  simpa using this

/-- The delete loop over a well-formed list: from the element at position `i`
it stages the deletes of the `m` remaining elements and counts them. -/
theorem WellFormed.deleteLoop_elems {c : Config} {db : Store} {key : Bytes} {h t : Int}
    {L : List Bytes} (hwf : WellFormed c db key (some (h, t)) L) (hv : ListKeysValid c db)
    (m : Nat) :
    ∀ (i : Nat) (fuel : Nat) (num : Int) (wb : WriteBatch), 1 ≤ m → i + m = L.length →
      m + 1 ≤ fuel →
      deleteLoop db (lEncodeListKey c key t) fuel (some (lEncodeListKey c key (h + i))) num wb =
        (num + m, trimLoop c key h m i wb) := by
  have hwf' := hwf
  obtain ⟨_, h1, h2, h3, hl, _⟩ := hwf'
  simp only [listMinSeq, listMaxSeq_eq] at h1 h3
  induction m with
  | zero => intro i fuel num wb hm; omega
  | succ m ih =>
    intro i fuel num wb _ him hf
    obtain ⟨f, rfl⟩ : ∃ f, fuel = f + 1 := ⟨fuel - 1, by omega⟩
    have hnot : bytesLt (lEncodeListKey c key t) (lEncodeListKey c key (h + i)) = false := by
      cases hx : bytesLt (lEncodeListKey c key t) (lEncodeListKey c key (h + i)) with
      | false => rfl
      | true =>
        have := (bytesLt_lEncodeListKey (by omega) (by omega) (by omega) (by omega)).1 hx
        omega
    have e1 : add32 h i = h + i := by simp only [add32, wrap32]; omega
    simp only [deleteLoop, hnot, Bool.false_eq_true, if_false, trimLoop, e1]
    by_cases hm : m = 0
    · subst hm
      obtain ⟨f', rfl⟩ : ∃ f', f = f' + 1 := ⟨f - 1, by omega⟩
      have ht : h + (i : Int) = t := by omega
      simp only [trimLoop]
      cases hnx : next db (lEncodeListKey c key (h + i)) with
      | none => simp [deleteLoop]
      | some k =>
        have hk := (leastKey_some hnx).1
        simp only at hk
        rw [ht] at hk
        simp [deleteLoop, hk]
    · rw [hwf.next_elem hv (by omega)]
      have e2 : add32 i 1 = ((i + 1 : Nat) : Int) := by
        simp only [add32, wrap32]; push_cast; omega
      have := ih (i + 1) f (num + 1) (wb ++ [.delete (lEncodeListKey c key (h + i))])
        (by omega) (by omega) (by omega)
      rw [show h + ((i + 1 : Nat) : Int) = h + i + 1 by push_cast; ring] at this
      rw [this, e2, show num + 1 + (m : Int) = num + ((m + 1 : Nat) : Int) by push_cast; ring]

/-- Well-formedness of a list only depends on the records under its own keys. -/
theorem WellFormed.of_get_eq {c : Config} {db db' : Store} {key : Bytes}
    {m : Option (Int × Int)} {L : List Bytes} (hwf : WellFormed c db key m L)
    (hm : get db' (lEncodeMetaKey c key) = get db (lEncodeMetaKey c key))
    (he : ∀ s : Int, get db' (lEncodeListKey c key s) = get db (lEncodeListKey c key s)) :
    WellFormed c db' key m L := by
  cases m with
  | none =>
    obtain ⟨hL, h1, h2⟩ := hwf
    exact ⟨hL, by rw [hm, h1], fun s s1 s2 => by rw [he, h2 s s1 s2]⟩
  | some ht =>
    obtain ⟨h, t⟩ := ht
    obtain ⟨h0, h1, h2, h3, hl, hel⟩ := hwf
    exact ⟨by rw [hm, h0], h1, h2, h3, hl, fun s s1 s2 => by rw [he, hel s s1 s2]⟩


theorem deleteFilesInRange_of_keeps {c : Config} (hd : ∀ k, c.dropsRecord k = false)
    (db : Store) (start limit : Bytes) : deleteFilesInRange c db start limit = db := by
  simp [deleteFilesInRange, hd]

/-- The range delete of an empty range drops nothing. -/
theorem deleteFilesInRange_self (c : Config) (db : Store) (e : Bytes) :
    deleteFilesInRange c db e e = db := by
  unfold deleteFilesInRange
  apply List.filter_eq_self.2
  intro kv _
  cases c.dropsRecord kv.1 <;> cases hx : bytesLt kv.1 e <;> simp [bytesLe, hx]

/-- The store that `lDelete` leaves to the engine. -/
theorem lDelete_store {c : Config} {db : Store} {key : Bytes} {h t size : Int}
    (hm : lGetMeta db (lEncodeMetaKey c key) = .ok (h, t, size)) (wb : WriteBatch) :
    (lDelete c db key wb).2.2 =
      if size > c.RANGE_DELETE_NUM then
        deleteFilesInRange c db (lEncodeListKey c key h) (lEncodeListKey c key t)
      else db := by
  simp only [lDelete, hm, compactRange]

/-- The bulk delete in general: it stages the deletes of the keys that the
engine still holds between the two ends of the list, each once, counts them,
and stages the delete of the metadata key. -/
theorem lDelete_spec {c : Config} {db : Store} {key : Bytes} {h t size : Int}
    (hm : lGetMeta db (lEncodeMetaKey c key) = .ok (h, t, size)) (wb : WriteBatch) :
    ∃ ks : List Bytes,
      (lDelete c db key wb).1 = (ks.length : Int) ∧
      (lDelete c db key wb).2.1 =
        wb ++ ks.map WOp.delete ++ [.delete (lEncodeMetaKey c key)] ∧
      ks.Nodup ∧
      ∀ k, k ∈ ks ↔ (get (lDelete c db key wb).2.2 k ≠ none ∧
        bytesLe (lEncodeListKey c key h) k = true ∧
        bytesLe k (lEncodeListKey c key t) = true) := by
  simp only [lDelete, hm, compactRange]
  generalize (if size > c.RANGE_DELETE_NUM then
    deleteFilesInRange c db (lEncodeListKey c key h) (lEncodeListKey c key t) else db) = D
  cases hs : seek D (lEncodeListKey c key h) with
  | none =>
    refine ⟨[], by simp [deleteLoop_none], by simp [deleteLoop_none], List.nodup_nil,
      fun k => ?_⟩
    simp only [List.not_mem_nil, false_iff, not_and]
    intro hk h1
    have := leastKey_none hs k hk
    simp only at this
    rw [h1] at this
    exact absurd this (by simp)
  | some k0 =>
    obtain ⟨hp0, hg0, hmin0⟩ := leastKey_some hs
    have hcard : ((D.map Prod.fst).toFinset.filter (fun k => bytesLe k0 k = true)).card <
        D.length + 1 := by
      have h1 := Finset.card_filter_le (D.map Prod.fst).toFinset (fun k => bytesLe k0 k = true)
      have h2 := List.toFinset_card_le (D.map Prod.fst)
      simp only [List.length_map] at h2
      omega
    obtain ⟨ks, he, hnd, hmem⟩ := deleteLoop_spec D (lEncodeListKey c key t) (D.length + 1) k0 0
      wb hg0 hcard
    refine ⟨ks, by simp [he], by simp [he], hnd, fun k => ?_⟩
    rw [hmem]
    constructor
    · rintro ⟨hk, h1, h2⟩
      exact ⟨hk, bytesLe_trans hp0 h1, h2⟩
    · rintro ⟨hk, h1, h2⟩
      exact ⟨hk, hmin0 k hk h1, h2⟩

/-- The bulk delete of a non-empty well-formed list when the engine drops no
record: it counts the elements and stages their deletes and the delete of the
metadata key. -/
theorem WellFormed.lDelete_some {c : Config} {db : Store} {key : Bytes} {h t : Int}
    {L : List Bytes} (hwf : WellFormed c db key (some (h, t)) L) (hv : ListKeysValid c db)
    (wb : WriteBatch)
    (hD : (if (L.length : Int) > c.RANGE_DELETE_NUM then
      deleteFilesInRange c db (lEncodeListKey c key h) (lEncodeListKey c key t) else db) = db) :
    lDelete c db key wb =
      ((L.length : Int), trimLoop c key h L.length 0 wb ++ [.delete (lEncodeMetaKey c key)],
        db) := by
  have hwf' := hwf
  obtain ⟨_, h1, h2, h3, hl, _⟩ := hwf'
  have hpos : 0 < L.length := by omega
  have hs := hwf.seek_elem hpos
  have hd := hwf.deleteLoop_elems hv L.length 0 (db.length + 1) 0 wb (by omega) (by omega)
    (by have := hwf.length_le_store; omega)
  simp only [Nat.cast_zero, add_zero] at hs hd
  simp only [lDelete, hwf.meta_some, compactRange, hD, hs, hd]
  simp

/-- The bulk delete when the metadata record is absent and no element record
sits at `listInitialSeq`: nothing is counted, only the delete of the metadata
key is staged, and the engine holds what it held. -/
theorem lDelete_absent {c : Config} {db : Store} {key : Bytes}
    (hm : get db (lEncodeMetaKey c key) = none)
    (he : get db (lEncodeListKey c key listInitialSeq) = none) (wb : WriteBatch) :
    lDelete c db key wb = (0, wb ++ [.delete (lEncodeMetaKey c key)], db) := by
  simp only [lDelete, lGetMeta_none hm, deleteFilesInRange_self, compactRange, ite_self]
  cases hs : seek db (lEncodeListKey c key listInitialSeq) with
  | none => simp [deleteLoop]
  | some k =>
    obtain ⟨hp, hg, _⟩ := leastKey_some hs
    have hne : k ≠ lEncodeListKey c key listInitialSeq := by
      intro e; rw [e] at hg; exact hg he
    have hlt : bytesLt (lEncodeListKey c key listInitialSeq) k = true := by
      rcases (bytesLe_iff_lt_or_eq _ _).1 hp with h' | h'
      · exact h'
      · exact absurd h'.symm hne
    simp [deleteLoop, hlt]

/-- The value under a key after a batch of deletes. -/
theorem wbGet_map_delete (ks : List Bytes) (k : Bytes) (cur : Option Bytes) :
    wbGet (ks.map WOp.delete) k cur = if k ∈ ks then none else cur := by
  induction ks generalizing cur with
  | nil => simp [wbGet]
  | cons a as ih =>
    rw [List.map_cons, wbGet_cons, ih]
    by_cases e : a = k
    · subst e; simp [wbGet_delete_self]
    · have e' : ¬ k = a := fun x => e x.symm
      simp [wbGet_delete_ne _ e, e']

/-- A record of the store between the two ends of a well-formed list is an
element record of the list. -/
theorem WellFormed.key_in_range {c : Config} {db : Store} {key : Bytes} {h t : Int}
    {L : List Bytes} (hwf : WellFormed c db key (some (h, t)) L) (hv : ListKeysValid c db)
    {k : Bytes} (hk : get db k ≠ none) (h1 : bytesLe (lEncodeListKey c key h) k = true)
    (h2 : bytesLe k (lEncodeListKey c key t) = true) :
    ∃ s : Int, h ≤ s ∧ s ≤ t ∧ k = lEncodeListKey c key s := by
  obtain ⟨_, b1, b2, b3, hl, hel⟩ := hwf
  rcases (bytesLe_iff_lt_or_eq _ _).1 h1 with l1 | e1
  · rcases (bytesLe_iff_lt_or_eq _ _).1 h2 with l2 | e2
    · have e : ∀ s, lEncodeListKey c key s = [c.ListType] ++
          (putUint16 key.length ++ (key ++ putUint32 (toU32 s))) := by
        intro s; simp [lEncodeListKey]
      have l1' := l1
      have l2' := l2
      rw [e] at l1' l2'
      obtain ⟨r, hr, _, _⟩ := bytesLt_sandwich l1' l2'
      obtain ⟨key', s', hk', hks⟩ := hv k hk (by simp [hr])
      subst hks
      obtain ⟨hkey, _, _⟩ := lEncodeListKey_between hk' l1 l2
      subst hkey
      have hw : lEncodeListKey c key' (wrap32 s') = lEncodeListKey c key' s' := by
        have : toU32 (wrap32 s') = toU32 s' := by unfold toU32 wrap32; omega
        simp only [lEncodeListKey, this]
      have hr := wrap32_range s'
      have hg := hel (wrap32 s') hr.1 hr.2
      rw [hw] at hg
      refine ⟨wrap32 s', ?_, ?_, hw.symm⟩
      · by_contra hlt
        rw [hg, if_neg (fun x => hlt x.1)] at hk
        exact hk rfl
      · by_contra hlt
        rw [hg, if_neg (fun x => hlt x.2)] at hk
        exact hk rfl
    · exact ⟨t, b2, le_refl _, e2⟩
  · exact ⟨h, le_refl _, b2, e1.symm⟩

/-- The element keys of sequence numbers in `[0, 2^31)` in ascending order. -/
theorem bytesLe_lEncodeListKey {c : Config} {key : Bytes} {a b : Int} (ha : 0 ≤ a)
    (ha' : a < 2147483648) (hb : 0 ≤ b) (hb' : b < 2147483648) (hab : a ≤ b) :
    bytesLe (lEncodeListKey c key a) (lEncodeListKey c key b) = true := by
  simp only [bytesLe, Bool.not_eq_true', Bool.not_eq_true]
  cases hx : bytesLt (lEncodeListKey c key b) (lEncodeListKey c key a) with
  | false => rfl
  | true =>
    have := (bytesLt_lEncodeListKey hb hb' ha ha').1 hx
    omega

theorem ListKeysValid.of_sub {c : Config} {db D : Store} (hv : ListKeysValid c db)
    (hsub : ∀ k, get D k ≠ none → get db k ≠ none) : ListKeysValid c D :=
  fun k hk hh => hv k (hsub k hk) hh

/-- Clearing a well-formed list removes every record of the key and leaves
every other record of the store as it is. The count it returns is the number
of element records that the engine still holds when the iterator runs: the
size of the list when the list is not above the threshold of the range delete
or the range delete drops no record, and at least 1 and at most the size
otherwise. -/
theorem WellFormed.clear_result {c : Config} {db : Store} {key : Bytes}
    {m : Option (Int × Int)} {L : List Bytes} (hc : c.OK) (hK : checkKeySize c key = none)
    (hwf : WellFormed c db key m L) (hv : ListKeysValid c db) :
    (∃ r : Int, (LClear c db key).1 = .ok r ∧ 0 ≤ r ∧ r ≤ L.length ∧ (L ≠ [] → 1 ≤ r) ∧
        ((L.length : Int) ≤ c.RANGE_DELETE_NUM → r = L.length) ∧
        ((∀ k, c.dropsRecord k = false) → r = L.length)) ∧
      WellFormed c (LClear c db key).2 key none [] ∧
      ListKeysValid c (LClear c db key).2 ∧
      ∀ k, k ≠ lEncodeMetaKey c key → (∀ s, k ≠ lEncodeListKey c key s) →
        get (LClear c db key).2 k = get db k := by
  cases m with
  | none =>
    obtain ⟨hL, hm, he⟩ := hwf
    subst hL
    have hinit := he listInitialSeq (by rw [listInitialSeq_eq]; decide)
      (by rw [listInitialSeq_eq]; decide)
    simp only [LClear, hK, lDelete_absent hm hinit, List.nil_append, List.length_nil,
      Nat.cast_zero]
    refine ⟨⟨0, rfl, le_refl _, le_refl _, fun hne => absurd rfl hne, fun _ => rfl,
      fun _ => rfl⟩, ⟨rfl, ?_, ?_⟩, ?_, ?_⟩
    · rw [get_write, wbGet_delete_self]
    · intro s s1 s2
      rw [get_write, wbGet_delete_ne _ (lEncodeListKey_ne_meta hc _ _ _).symm, he s s1 s2]
    · apply hv.after_deletes hc key
      intro k v hmem
      simp at hmem
    · intro k hk _
      rw [get_write, wbGet_delete_ne _ (fun e => hk e.symm)]
  | some ht =>
    obtain ⟨h, t⟩ := ht
    have hwf' := hwf
    obtain ⟨_, h1, h2, h3, hl, hel⟩ := hwf'
    simp only [listMinSeq, listMaxSeq_eq] at h1 h3
    have hm := hwf.meta_some
    obtain ⟨ks, e1, e2, hnd, hmem⟩ := lDelete_spec hm ([] : WriteBatch)
    have hD := lDelete_store hm ([] : WriteBatch)
    have hLC : LClear c db key = (.ok (lDelete c db key []).1,
        write (lDelete c db key []).2.2 (lDelete c db key []).2.1) := by
      simp only [LClear, hK]
    rw [hLC, e1, e2, List.nil_append]
    generalize (lDelete c db key []).2.2 = D at hmem hD
    simp only
    -- what the engine holds after the hints
    have hsub : ∀ k, get D k ≠ none → get db k ≠ none := by
      intro k hk
      rw [hD] at hk
      split at hk
      · rw [get_deleteFilesInRange] at hk
        split at hk
        · exact absurd rfl hk
        · exact hk
      · exact hk
    have hkeep : ∀ k, bytesLt k (lEncodeListKey c key t) = false → get D k = get db k := by
      intro k hk
      rw [hD]
      split
      · rw [get_deleteFilesInRange, if_neg (by simp [hk])]
      · rfl
    have hdrop : ∀ k, get D k = get db k ∨
        (bytesLe (lEncodeListKey c key h) k = true ∧
          bytesLe k (lEncodeListKey c key t) = true) := by
      intro k
      rw [hD]
      split
      · rw [get_deleteFilesInRange]
        split
        · rename_i hcond
          simp only [Bool.and_eq_true] at hcond
          exact Or.inr ⟨hcond.1.2, bytesLe_of_lt hcond.2⟩
        · exact Or.inl rfl
      · exact Or.inl rfl
    have hown : ∀ k, k ∈ ks → ∃ s : Int, h ≤ s ∧ s ≤ t ∧ k = lEncodeListKey c key s := by
      intro k hk
      obtain ⟨hg, b1, b2⟩ := (hmem k).1 hk
      exact hwf.key_in_range hv (hsub k hg) b1 b2
    have hwrite : ∀ k, k ≠ lEncodeMetaKey c key →
        get (write D (ks.map WOp.delete ++ [.delete (lEncodeMetaKey c key)])) k =
          if k ∈ ks then none else get D k := by
      intro k hk
      rw [get_write, wbGet_append, wbGet_delete_ne _ (fun e => hk e.symm), wbGet_map_delete]
    have hpos : 0 < L.length := by omega
    have htail : lEncodeListKey c key t ∈ ks := by
      apply (hmem _).2
      refine ⟨?_, bytesLe_lEncodeListKey (by omega) (by omega) (by omega) (by omega) h2,
        bytesLe_refl _⟩
      rw [hkeep _ (bytesLt_irrefl _), hel t (by omega) (by omega), if_pos ⟨h2, le_refl _⟩]
      intro hn
      have := List.getElem?_eq_none_iff.1 hn
      omega
    refine ⟨⟨ks.length, rfl, by omega, ?_, ?_, ?_, ?_⟩, ⟨rfl, ?_, ?_⟩, ?_, ?_⟩
    · -- at most the size
      have hsubset : ks ⊆
          (List.range L.length).map (fun i : Nat => lEncodeListKey c key (h + i)) := by
        intro k hk
        obtain ⟨s, s1, s2, rfl⟩ := hown k hk
        refine List.mem_map.2 ⟨(s - h).toNat, List.mem_range.2 (by omega), ?_⟩
        rw [show h + (((s - h).toNat : Nat) : Int) = s by omega]
      have := (hnd.subperm hsubset).length_le
      simp only [List.length_map, List.length_range] at this
      exact_mod_cast this
    · intro _
      have : 0 < ks.length := List.length_pos_of_mem htail
      exact_mod_cast this
    · intro hsmall
      have hD' : (if (L.length : Int) > c.RANGE_DELETE_NUM then
          deleteFilesInRange c db (lEncodeListKey c key h) (lEncodeListKey c key t) else db) =
          db := by rw [if_neg (by omega)]
      have := hwf.lDelete_some hv [] hD'
      rw [← e1, this]
    · intro hno
      have hD' : (if (L.length : Int) > c.RANGE_DELETE_NUM then
          deleteFilesInRange c db (lEncodeListKey c key h) (lEncodeListKey c key t) else db) =
          db := by rw [deleteFilesInRange_of_keeps hno, ite_self]
      have := hwf.lDelete_some hv [] hD'
      rw [← e1, this]
    · exact get_write_meta_delete _ _ _
    · intro s s1 s2
      rw [hwrite _ (lEncodeListKey_ne_meta hc _ _ _)]
      by_cases hin : lEncodeListKey c key s ∈ ks
      · rw [if_pos hin]
      · rw [if_neg hin]
        by_contra hne
        have hdb := hsub _ hne
        rw [hel s s1 s2] at hdb
        have hr : h ≤ s ∧ s ≤ t := by
          by_contra hr
          rw [if_neg hr] at hdb
          exact hdb rfl
        exact hin ((hmem _).2 ⟨hne,
          bytesLe_lEncodeListKey (by omega) (by omega) (by omega) (by omega) hr.1,
          bytesLe_lEncodeListKey (by omega) (by omega) (by omega) (by omega) hr.2⟩)
    · apply (hv.of_sub hsub).after_deletes hc key
      intro k v hmem'
      rw [List.mem_append] at hmem'
      rcases hmem' with hx | hx
      · obtain ⟨a, _, ha⟩ := List.mem_map.1 hx
        exact absurd ha (by simp)
      · exact absurd hx (by simp)
    · intro k hk hke
      rw [hwrite k hk, if_neg (fun hin => by
        obtain ⟨s, _, _, e⟩ := hown k hin
        exact hke s e)]
      rcases hdrop k with e | ⟨b1, b2⟩
      · exact e
      · by_cases hg : get db k = none
        · rw [hg]
          by_contra hne
          exact hsub k hne hg
        · obtain ⟨s, _, _, e⟩ := hwf.key_in_range hv hg b1 b2
          exact absurd e (hke s)

/-! ## Pushes beyond the 32-bit count -/

theorem lGetMeta_empty_store (c : Config) (key : Bytes) :
    lGetMeta [] (lEncodeMetaKey c key) = .ok (1073741824, 1073741824, 0) := by
  rw [lGetMeta_none (show get [] (lEncodeMetaKey c key) = none from rfl), listInitialSeq_eq]

/-- A head push of `2^32 + 1` values on the empty store passes the sequence
check and leaves the metadata of a one-element list. -/
theorem LPush_wide_count (c : Config) (key : Bytes) (hK : checkKeySize c key = none) :
    (LPush c [] key (List.replicate 4294967297 [])).1 = .ok 4294967297 ∧
      lGetMeta (LPush c [] key (List.replicate 4294967297 [])).2 (lEncodeMetaKey c key) =
        .ok (1073741824, 1073741824, 1) := by
  have hlen : (List.replicate 4294967297 ([] : Bytes)).length = 4294967297 :=
    List.length_replicate _ _
  have e := LPush_eval hK (lGetMeta_empty_store c key)
    (show (List.replicate 4294967297 ([] : Bytes)).length ≠ 0 by rw [hlen]; decide)
    1073741824 1073741824 (by decide)
    (by rw [hlen]; decide)
  rw [e, if_neg (by decide), hlen, lSetMeta_pos _ (by decide)]
  refine ⟨?_, ?_⟩
  · simp only [wrap64]
    norm_num
  simp only
  rw [lGetMeta_metaValue (get_write_meta_put _ _ _ _) (by decide) (by decide) (by decide)
    (by decide)]
  decide

/-- A tail push of `2^32 + 1` values on the empty store passes the sequence
check and leaves the metadata of a one-element list. -/
theorem RPush_wide_count (c : Config) (key : Bytes) (hK : checkKeySize c key = none) :
    (RPush c [] key (List.replicate 4294967297 [])).1 = .ok 4294967297 ∧
      lGetMeta (RPush c [] key (List.replicate 4294967297 [])).2 (lEncodeMetaKey c key) =
        .ok (1073741824, 1073741824, 1) := by
  have hlen : (List.replicate 4294967297 ([] : Bytes)).length = 4294967297 :=
    List.length_replicate _ _
  have e := RPush_eval hK (lGetMeta_empty_store c key)
    (show (List.replicate 4294967297 ([] : Bytes)).length ≠ 0 by rw [hlen]; decide)
    1073741824 1073741824 (by decide)
    (by rw [hlen]; decide)
  rw [e, if_neg (by decide), hlen, lSetMeta_pos _ (by decide)]
  refine ⟨?_, ?_⟩
  · simp only [wrap64]
    norm_num
  simp only
  rw [lGetMeta_metaValue (get_write_meta_put _ _ _ _) (by decide) (by decide) (by decide)
    (by decide)]
  decide

/-- The length read after a push whose metadata is known. -/
theorem LLen_of_lGetMeta {c : Config} {db : Store} {key : Bytes}
    (hK : checkKeySize c key = none) {h t size : Int}
    (hm : lGetMeta db (lEncodeMetaKey c key) = .ok (h, t, size)) :
    (LLen c db key).1 = .ok size := by
  simp only [LLen, hK, hm]

/-! ## A store with two lists -/

/-- The sample store holds no record of the key `j`. -/
theorem sampleStore_other_key :
    WellFormed sampleConfig sampleStore [106] none [] := by
  have hs : sampleStore =
      [(lEncodeMetaKey sampleConfig sampleKey, metaValue listInitialSeq (listInitialSeq + 2)),
        (lEncodeListKey sampleConfig sampleKey (listInitialSeq + 2), [99]),
        (lEncodeListKey sampleConfig sampleKey (listInitialSeq + 1), [98]),
        (lEncodeListKey sampleConfig sampleKey listInitialSeq, [97])] := by decide
  refine ⟨rfl, by decide, fun s _ _ => ?_⟩
  rw [hs]
  have hne : ∀ s', lEncodeListKey sampleConfig sampleKey s' ≠ lEncodeListKey sampleConfig [106] s :=
    fun s' => lEncodeListKey_ne_of_key_ne (by decide) (by decide) (by decide) s' s
  simp only [get, hne, if_false, (lEncodeListKey_ne_meta sampleConfig_ok [106] sampleKey s).symm]

/-- The list of `j` in the two-list sample store. -/
theorem sampleStore2_wf_other :
    WellFormed sampleConfig sampleStore2 [106] (some (listInitialSeq, listInitialSeq)) [[120]] := by
  have h := (sampleStore_other_key.rpush_none sampleConfig_ok
    (show checkKeySize sampleConfig [106] = none by decide)
    (show ([[120]] : List Bytes) ≠ [] by decide) (by decide)).1 (by decide)
  have e : listInitialSeq + ((([[120]] : List Bytes).length : Nat) : Int) - 1 =
      listInitialSeq := by
    simp only [List.length_cons, List.length_nil]; push_cast; omega
  rw [e] at h
  exact h.2.1

/-- The two-list sample store holds only element records under `ListType`. -/
theorem sampleStore2_valid : ListKeysValid sampleConfig sampleStore2 :=
  ((sampleStore_other_key.rpush_none sampleConfig_ok
    (show checkKeySize sampleConfig [106] = none by decide)
    (show ([[120]] : List Bytes) ≠ [] by decide) (by decide)).1 (by decide)).2.2
    sampleStore_valid

/-- The list of `k` in the two-list sample store is still `[a, b, c]`. -/
theorem sampleStore2_wf :
    WellFormed sampleConfig sampleStore2 sampleKey (some (listInitialSeq, listInitialSeq + 2))
      [[97], [98], [99]] := by
  have hs : sampleStore2 =
      (lEncodeMetaKey sampleConfig [106], metaValue listInitialSeq listInitialSeq) ::
        (lEncodeListKey sampleConfig [106] listInitialSeq, [120]) :: sampleStore := by decide
  refine sampleStore_wf.of_get_eq (by decide) (fun s => ?_)
  rw [hs]
  have hne : lEncodeListKey sampleConfig [106] listInitialSeq ≠
      lEncodeListKey sampleConfig sampleKey s :=
    lEncodeListKey_ne_of_key_ne (by decide) (by decide) (by decide) _ s
  simp only [get, hne, if_false, (lEncodeListKey_ne_meta sampleConfig_ok sampleKey [106] s).symm]

/-! ## Pushes of fewer than `2^31` values -/

/-- Pushes of fewer than `2^31` values: on a well-formed list with contents
`L`, a push of a non-empty argument list `args` that succeeds returns
`|L| + |args|`; after `RPush` the range read `LRange(K, 0, -1)` gives
`L ++ args`, after `LPush` it gives `reverse(args) ++ L`. -/
theorem push_then_range {c : Config} {db : Store} {key : Bytes} {m : Option (Int × Int)}
    {L : List Bytes} {args : List Bytes} (hc : c.OK) (hK : checkKeySize c key = none)
    (hwf : WellFormed c db key m L) (hv : ListKeysValid c db) (hne : args ≠ [])
    (hn : args.length < 2147483648) :
    ((∃ r, (RPush c db key args).1 = .ok r) →
      (RPush c db key args).1 = .ok ((L.length : Int) + args.length) ∧
        (LRange c (RPush c db key args).2 key 0 (-1)).1 = .ok (L ++ args)) ∧
    ((∃ r, (LPush c db key args).1 = .ok r) →
      (LPush c db key args).1 = .ok ((L.length : Int) + args.length) ∧
        (LRange c (LPush c db key args).2 key 0 (-1)).1 = .ok (args.reverse ++ L)) := by
  have range : ∀ {db' : Store} {m' : Option (Int × Int)} {L' : List Bytes},
      WellFormed c db' key m' L' → ListKeysValid c db' →
      (LRange c db' key 0 (-1)).1 = .ok L' := by
    intro db' m' L' hw' hv'
    rw [hw'.LRange_eq hv' hK (by decide) (by decide) (by decide) (by decide), lrangeSpec_all]
  constructor
  · rintro ⟨r, hr⟩
    cases m with
    | none =>
      obtain ⟨hok, herr⟩ := hwf.rpush_none hc hK hne hn
      by_cases hcond : listInitialSeq + args.length - 1 < listMaxSeq
      · obtain ⟨h1, h2, h3⟩ := hok hcond
        exact ⟨h1, range h2 (h3 hv)⟩
      · rw [herr hcond] at hr; simp at hr
    | some ht =>
      obtain ⟨h, t⟩ := ht
      obtain ⟨hok, herr⟩ := hwf.rpush_some hc hK hne hn
      by_cases hcond : t + args.length < listMaxSeq
      · obtain ⟨h1, h2, h3⟩ := hok hcond
        exact ⟨h1, range h2 (h3 hv)⟩
      · rw [herr hcond] at hr; simp at hr
  · rintro ⟨r, hr⟩
    cases m with
    | none =>
      obtain ⟨hok, herr⟩ := hwf.lpush_none hc hK hne hn
      by_cases hcond : listMinSeq < listInitialSeq - args.length + 1
      · obtain ⟨h1, h2, h3⟩ := hok hcond
        exact ⟨h1, range h2 (h3 hv)⟩
      · rw [herr hcond] at hr; simp at hr
    | some ht =>
      obtain ⟨h, t⟩ := ht
      obtain ⟨hok, herr⟩ := hwf.lpush_some hc hK hne hn
      by_cases hcond : listMinSeq < h - args.length
      · obtain ⟨h1, h2, h3⟩ := hok hcond
        exact ⟨h1, range h2 (h3 hv)⟩
      · rw [herr hcond] at hr; simp at hr

/-- On the empty store `RPush(k, a, b, c)` gives `[a, b, c]` and
`LPush(k, a, b, c)` gives `[c, b, a]`. -/
theorem push_then_range_sample :
    ((RPush sampleConfig [] sampleKey [[97], [98], [99]]).1 = .ok 3 ∧
      (LRange sampleConfig (RPush sampleConfig [] sampleKey [[97], [98], [99]]).2
        sampleKey 0 (-1)).1 = .ok [[97], [98], [99]]) ∧
    ((LPush sampleConfig [] sampleKey [[97], [98], [99]]).1 = .ok 3 ∧
      (LRange sampleConfig (LPush sampleConfig [] sampleKey [[97], [98], [99]]).2
        sampleKey 0 (-1)).1 = .ok [[99], [98], [97]]) :=
  ⟨(push_then_range sampleConfig_ok sampleKey_ok (WellFormed.of_empty_store _ _)
      (ListKeysValid.of_empty _) (by decide) (by decide)).1 ⟨3, by decide⟩,
    (push_then_range sampleConfig_ok sampleKey_ok (WellFormed.of_empty_store _ _)
      (ListKeysValid.of_empty _) (by decide) (by decide)).2 ⟨3, by decide⟩⟩

/-- Pushes of fewer than `2^31` values: starting from a store without records
for the key, after any finite sequence of `LPush`, `RPush`, `LPop` and `RPop`
calls on it, `LLen` is the number of elements of the pushes that succeeded
minus the number of pops that returned an element. -/
theorem llen_counts {c : Config} {db : Store} {key : Bytes} (hc : c.OK)
    (hK : checkKeySize c key = none) (hwf : WellFormed c db key none [])
    (calls : List Call) (hn : ∀ call ∈ calls, call.args.length < 2147483648) :
    (LLen c (runCalls c key db calls).1 key).1 = .ok (runCalls c key db calls).2 := by
  have := WellFormed.runCalls_llen hc hK calls db none [] hwf hn
  simpa using this

/-- Two pushes and two pops on the empty store leave three elements. -/
theorem llen_counts_sample :
    (runCalls sampleConfig sampleKey []
        [.lpush [[97]], .rpush [[98], [99], [100]], .lpop, .lpop, .rpush [[101]]]).2 = 3 ∧
      (LLen sampleConfig (runCalls sampleConfig sampleKey []
        [.lpush [[97]], .rpush [[98], [99], [100]], .lpop, .lpop, .rpush [[101]]]).1
        sampleKey).1 = .ok 3 :=
  ⟨by decide, llen_counts sampleConfig_ok sampleKey_ok (WellFormed.of_empty_store _ _) _
    (by decide)⟩

/-! ## Range reads and counts after a push beyond the 32-bit count -/

/-- A range read with limit 1 returns at most one value. -/
theorem rangeLoop_length_le_one (db : Store) (fuel : Nat) (it : Option Bytes) :
    (rangeLoop db 1 fuel it []).length ≤ 1 := by
  cases fuel with
  | zero => simp [rangeLoop]
  | succ f =>
    cases it with
    | none => simp [rangeLoop]
    | some k => simp [rangeLoop]

/-- The whole-list range read of a list whose metadata covers one sequence
number returns at most one value. -/
theorem LRange_of_single_meta {c : Config} {db : Store} {key : Bytes}
    (hK : checkKeySize c key = none) {h t : Int}
    (hm : lGetMeta db (lEncodeMetaKey c key) = .ok (h, t, 1)) :
    ∃ r : List Bytes, (LRange c db key 0 (-1)).1 = .ok r ∧ r.length ≤ 1 := by
  have e1 : add32 1 (-1) = 0 := by decide
  have e2 : add32 (sub32 0 0) 1 = 1 := by decide
  refine ⟨rangeLoop db 1 ((1 : Int).toNat + 1) (seek db (lEncodeListKey c key (add32 h 0))) [],
    ?_, rangeLoop_length_le_one _ _ _⟩
  simp only [LRange, hK, hm, e1, e2, show ¬ ((0 : Int) < 0) by decide,
    show ((-1 : Int) < 0) by decide, if_true, if_false,
    show ¬ ((0 : Int) > 0 ∨ (0 : Int) ≥ 1) by decide, show ¬ ((0 : Int) ≥ 1) by decide]
  rw [if_neg (by simp)]

/-- A single head push that succeeds, as a call sequence: it counts its
arguments and leaves the store of the push. -/
theorem runCalls_lpush_ok (c : Config) (key : Bytes) (db : Store) (args : List Bytes)
    {n : Int} (h : (LPush c db key args).1 = .ok n) :
    (runCalls c key db [.lpush args]).2 = (args.length : Int) ∧
      (runCalls c key db [.lpush args]).1 = (LPush c db key args).2 := by
  simp only [runCalls, Call.run, h, add_zero, and_self]

/-! ## The sample list above the threshold of the range delete -/

theorem dropConfig_ok : dropConfig.OK := by decide

theorem dropKey_ok : checkKeySize dropConfig sampleKey = none := by decide

theorem dropStore_wf :
    WellFormed dropConfig dropStore sampleKey (some (listInitialSeq, listInitialSeq + 2))
      [[97], [98], [99]] := by
  have h := ((WellFormed.of_empty_store dropConfig sampleKey).rpush_none dropConfig_ok
    dropKey_ok (show ([[97], [98], [99]] : List Bytes) ≠ [] by decide) (by decide)).1 (by decide)
  have e : listInitialSeq + ((([[97], [98], [99]] : List Bytes).length : Nat) : Int) - 1 =
      listInitialSeq + 2 := by
    simp only [List.length_cons, List.length_nil]; push_cast; omega
  rw [e] at h
  exact h.2.1

theorem dropStore_valid : ListKeysValid dropConfig dropStore :=
  (((WellFormed.of_empty_store dropConfig sampleKey).rpush_none dropConfig_ok
    dropKey_ok (show ([[97], [98], [99]] : List Bytes) ≠ [] by decide) (by decide)).1
    (by decide)).2.2 (ListKeysValid.of_empty _)

/-! # The claims -/

/-- C1: a push of `2^32 + 1` values on the empty store succeeds and returns
`2^32 + 1`, with `LPush` as with `RPush`, yet the range read `LRange(k, 0, -1)`
afterwards returns at most one value, where `reverse(args) ++ L` and
`L ++ args` have `2^32 + 1`. -/
theorem push_wide_then_range :
    ((LPush sampleConfig [] sampleKey (List.replicate 4294967297 [])).1 = .ok 4294967297 ∧
      ∃ r : List Bytes,
        (LRange sampleConfig (LPush sampleConfig [] sampleKey (List.replicate 4294967297 [])).2
          sampleKey 0 (-1)).1 = .ok r ∧ r.length ≤ 1) ∧
    ((RPush sampleConfig [] sampleKey (List.replicate 4294967297 [])).1 = .ok 4294967297 ∧
      ∃ r : List Bytes,
        (LRange sampleConfig (RPush sampleConfig [] sampleKey (List.replicate 4294967297 [])).2
          sampleKey 0 (-1)).1 = .ok r ∧ r.length ≤ 1) ∧
    ((List.replicate 4294967297 ([] : Bytes)).reverse ++ []).length = 4294967297 ∧
    ([] ++ List.replicate 4294967297 ([] : Bytes)).length = 4294967297 := by
  obtain ⟨h1, h2⟩ := LPush_wide_count sampleConfig sampleKey sampleKey_ok
  obtain ⟨r1, r2⟩ := RPush_wide_count sampleConfig sampleKey sampleKey_ok
  refine ⟨⟨h1, LRange_of_single_meta sampleKey_ok h2⟩,
    ⟨r1, LRange_of_single_meta sampleKey_ok r2⟩, ?_, ?_⟩
  · rw [List.length_append, List.length_reverse, List.length_replicate, List.length_nil]
  · rw [List.length_append, List.length_replicate, List.length_nil]

/-- C2: on a well-formed list with contents `L`, `LPop` and `RPop` return nil
and leave the store as it is when `L` is empty; otherwise `LPop` returns the
first element and leaves `L` without it, `RPop` returns the last element and
leaves `L` without it, and the metadata record is gone when nothing is left. -/
theorem pop_spec {c : Config} {db : Store} {key : Bytes} {m : Option (Int × Int)}
    {L : List Bytes} (hc : c.OK) (hK : checkKeySize c key = none)
    (hwf : WellFormed c db key m L) :
    (L = [] → LPop c db key = (.ok none, db) ∧ RPop c db key = (.ok none, db)) ∧
    (L ≠ [] →
      ((LPop c db key).1 = .ok L.head? ∧
        (∃ m', WellFormed c (LPop c db key).2 key m' L.tail) ∧
        (L.tail = [] → get (LPop c db key).2 (lEncodeMetaKey c key) = none)) ∧
      ((RPop c db key).1 = .ok L.getLast? ∧
        (∃ m', WellFormed c (RPop c db key).2 key m' L.dropLast) ∧
        (L.dropLast = [] → get (RPop c db key).2 (lEncodeMetaKey c key) = none))) := by
  constructor
  · intro hL
    have hm : m = none := hwf.eq_nil_iff.1 hL
    subst hm
    exact ⟨hwf.lpop_none hK _, hwf.lpop_none hK _⟩
  · intro hL
    cases m with
    | none => exact absurd hwf.1 hL
    | some ht =>
      obtain ⟨h, t⟩ := ht
      obtain ⟨l1, l2, _⟩ := hwf.lpop_some hc hK
      obtain ⟨r1, r2, _⟩ := hwf.rpop_some hc hK
      refine ⟨⟨l1, ⟨_, l2⟩, ?_⟩, ⟨r1, ⟨_, r2⟩, ?_⟩⟩
      · intro he
        have := l2.eq_nil_iff.1 he
        rw [this] at l2
        exact l2.2.1
      · intro he
        have := r2.eq_nil_iff.1 he
        rw [this] at r2
        exact r2.2.1

/-- On the sample list `[a, b, c]`, `LPop` returns `a` and `RPop` returns `c`. -/
theorem pop_spec_witness :
    (LPop sampleConfig sampleStore sampleKey).1 = .ok (some [97]) ∧
      (RPop sampleConfig sampleStore sampleKey).1 = .ok (some [99]) :=
  ⟨((pop_spec sampleConfig_ok sampleKey_ok sampleStore_wf).2 (by decide)).1.1,
    ((pop_spec sampleConfig_ok sampleKey_ok sampleStore_wf).2 (by decide)).2.1⟩

/-- C3: starting from the empty store, the single call `LPush` of `2^32 + 1`
values succeeds, so the elements pushed minus the elements popped are
`2^32 + 1`, yet `LLen` afterwards is 1. -/
theorem llen_wide_push_miscounts :
    (runCalls sampleConfig sampleKey [] [.lpush (List.replicate 4294967297 [])]).2 =
        4294967297 ∧
      (LLen sampleConfig
        (runCalls sampleConfig sampleKey [] [.lpush (List.replicate 4294967297 [])]).1
        sampleKey).1 = .ok 1 := by
  obtain ⟨h1, h2⟩ := LPush_wide_count sampleConfig sampleKey sampleKey_ok
  obtain ⟨e2, e1⟩ := runCalls_lpush_ok sampleConfig sampleKey [] _ h1
  rw [e2, e1, List.length_replicate]
  exact ⟨by norm_num, LLen_of_lGetMeta sampleKey_ok h2⟩

/-- C4: in a store whose element namespace holds only element records of
lists, a range read of a well-formed list with contents `L` and signed 32-bit
indices returns the empty list when, after the conversion of negative indices
and raising `start` to 0, `start > stop` or `start >= llen`, and otherwise
exactly the elements of `L` from `start` to `min(stop, llen - 1)`: no value of
another key. The store is left as it is. -/
theorem LRange_spec {c : Config} {db : Store} {key : Bytes} {m : Option (Int × Int)}
    {L : List Bytes} (hK : checkKeySize c key = none) (hwf : WellFormed c db key m L)
    (hv : ListKeysValid c db) {start stop : Int}
    (hs1 : -2147483648 ≤ start) (hs2 : start < 2147483648)
    (he1 : -2147483648 ≤ stop) (he2 : stop < 2147483648) :
    LRange c db key start stop = (.ok (lrangeSpec L start stop), db) :=
  hwf.LRange_eq hv hK hs1 hs2 he1 he2

/-- On the sample list `[a, b, c]`, `LRange(k, -2, 5)` is `[b, c]`. -/
theorem LRange_spec_witness :
    LRange sampleConfig sampleStore sampleKey (-2) 5 = (.ok [[98], [99]], sampleStore) :=
  LRange_spec sampleKey_ok sampleStore_wf sampleStore_valid (by decide) (by decide)
    (by decide) (by decide)

/-- C5: an index read of a well-formed list with contents `L` of length `n`
with a signed 32-bit index `i` returns `L[i]` when `0 <= i < n`, `L[n + i]`
when `-n <= i < 0`, and nil without error for every other `i`. -/
theorem LIndex_spec {c : Config} {db : Store} {key : Bytes} {m : Option (Int × Int)}
    {L : List Bytes} (hK : checkKeySize c key = none) (hwf : WellFormed c db key m L)
    {i : Int} (i1 : -2147483648 ≤ i) (i2 : i < 2147483648) :
    LIndex c db key i =
      (.ok (if 0 ≤ i ∧ i < L.length then L[i.toNat]?
        else if -(L.length : Int) ≤ i ∧ i < 0 then L[((L.length : Int) + i).toNat]?
        else none), db) :=
  hwf.LIndex_eq hK i1 i2

/-- On the sample list `[a, b, c]`, `LIndex(k, -1)` is `c` and the index
`2^31 - 1`, whose sequence number wraps around, gives nil. -/
theorem LIndex_spec_witness :
    LIndex sampleConfig sampleStore sampleKey (-1) = (.ok (some [99]), sampleStore) ∧
      LIndex sampleConfig sampleStore sampleKey 2147483647 = (.ok none, sampleStore) :=
  ⟨LIndex_spec sampleKey_ok sampleStore_wf (by decide) (by decide),
    LIndex_spec sampleKey_ok sampleStore_wf (by decide) (by decide)⟩

/-- C6: on the empty store `LSet("empty", 0, "x")` does not fail with the index
error: it returns without error and writes an element record at
`listInitialSeq`, while no metadata record exists. -/
theorem LSet_empty_list_writes :
    LSet sampleConfig [] [101, 109, 112, 116, 121] 0 [120] =
        (.ok (), [(lEncodeListKey sampleConfig [101, 109, 112, 116, 121] listInitialSeq,
          [120])]) ∧
      (LKeyExists sampleConfig (LSet sampleConfig [] [101, 109, 112, 116, 121] 0 [120]).2
        [101, 109, 112, 116, 121]).1 = .ok 0 := by
  decide

/-- C7: on a well-formed non-empty list with contents `L` of length `n` and a
signed 32-bit index `i`: when `-n <= i < n`, `LSet` succeeds, afterwards
`LIndex(K, i)` is the new value, `LLen` is `n`, the list holds `L` with only
that position replaced, and every other record of the store is as before;
otherwise `LSet` fails with the index error and the store is as before. -/
theorem LSet_spec {c : Config} {db : Store} {key : Bytes} {h t : Int} {L : List Bytes}
    (hc : c.OK) (hK : checkKeySize c key = none)
    (hwf : WellFormed c db key (some (h, t)) L)
    {i : Int} (i1 : -2147483648 ≤ i) (i2 : i < 2147483648) (v : Bytes) :
    (-(L.length : Int) ≤ i ∧ i < L.length →
      (LSet c db key i v).1 = .ok () ∧
        (LIndex c (LSet c db key i v).2 key i).1 = .ok (some v) ∧
        (LLen c (LSet c db key i v).2 key).1 = .ok (L.length : Int) ∧
        WellFormed c (LSet c db key i v).2 key (some (h, t))
          (L.set (if 0 ≤ i then i else (L.length : Int) + i).toNat v) ∧
        ∀ k, k ≠ lEncodeListKey c key (h + (if 0 ≤ i then i else (L.length : Int) + i)) →
          get (LSet c db key i v).2 k = get db k) ∧
    (¬ (-(L.length : Int) ≤ i ∧ i < L.length) → LSet c db key i v = (.err .listIndex, db)) := by
  constructor
  · intro hin
    obtain ⟨e, hw, _⟩ := hwf.lset_ok hc hK i1 i2 v hin
    rw [e]
    refine ⟨rfl, ?_, ?_, hw, ?_⟩
    · rw [hw.LIndex_eq hK i1 i2]
      simp only [List.length_set]
      by_cases hi : 0 ≤ i
      · rw [if_pos ⟨hi, hin.2⟩, if_pos hi, List.getElem?_set_self (by omega)]
      · rw [if_neg (by omega), if_pos (by omega), if_neg hi,
          List.getElem?_set_self (by omega)]
    · rw [hw.LLen_eq hK, List.length_set]
    · intro k hk
      simp only
      rw [get_put, if_neg hk]
  · intro hout
    exact hwf.lset_err hK i1 i2 v hout

/-- On the sample list `[a, b, c]`, `LSet(k, -1, "x")` succeeds and `LSet(k, 3, "x")`
fails with the index error. -/
theorem LSet_spec_witness :
    ((LSet sampleConfig sampleStore sampleKey (-1) [120]).1 = .ok () ∧
      (LIndex sampleConfig (LSet sampleConfig sampleStore sampleKey (-1) [120]).2
        sampleKey (-1)).1 = .ok (some [120])) ∧
      LSet sampleConfig sampleStore sampleKey 3 [120] = (.err .listIndex, sampleStore) :=
  ⟨⟨((LSet_spec sampleConfig_ok sampleKey_ok sampleStore_wf (by decide) (by decide) [120]).1
      (by decide)).1,
    ((LSet_spec sampleConfig_ok sampleKey_ok sampleStore_wf (by decide) (by decide) [120]).1
      (by decide)).2.1⟩,
    (LSet_spec sampleConfig_ok sampleKey_ok sampleStore_wf (by decide) (by decide) [120]).2
      (by decide)⟩

/-- C8, as stated, fails: on the well-formed list `[a, b, c]`, `LTrim(k, -5, -4)`
is not rejected, the indices clamped to `0 .. llen - 1` are both 0, so one
element should stay, but the list is empty afterwards. -/
theorem LTrim_clamp_counterexample :
    WellFormed sampleConfig sampleStore sampleKey (some (listInitialSeq, listInitialSeq + 2))
        [[97], [98], [99]] ∧
      (LTrim sampleConfig sampleStore sampleKey (-5) (-4)).1 = .ok () ∧
      trimIndexSpec 3 (-5) = 0 ∧ trimIndexSpec 3 (-4) = 0 ∧
      (LLen sampleConfig (LTrim sampleConfig sampleStore sampleKey (-5) (-4)).2 sampleKey).1 ≠
        .ok (trimIndexSpec 3 (-4) - trimIndexSpec 3 (-5) + 1) ∧
      (LRange sampleConfig (LTrim sampleConfig sampleStore sampleKey (-5) (-4)).2
        sampleKey 0 (-1)).1 = .ok [] :=
  ⟨sampleStore_wf, by decide, by decide, by decide, by decide, by decide⟩

/-- C8, amended: on a well-formed list with contents `L` of length `llen` and
signed 32-bit `start`, `stop` that `LTrim` does not reject, let `s0`, `e0` be
the indices after adding `llen` to negative values, `s = max(s0, 0)` and
`e = min(e0, llen - 1)` (`stop` is not raised to 0). When `e0 >= -1`, `LTrim`
returns ok, the contents are `L[s..e]` (empty when `e = s - 1`), the metadata
is `(headSeq + s, headSeq + e)` (absent when the result is empty), `LLen` is
`e - s + 1` and the list is well-formed. -/
theorem LTrim_slice {c : Config} {db : Store} {key : Bytes} {m : Option (Int × Int)}
    {L : List Bytes} (hc : c.OK) (hK : checkKeySize c key = none)
    (hwf : WellFormed c db key m L)
    {start stop : Int} (a1 : -2147483648 ≤ start) (a2 : start < 2147483648)
    (b1 : -2147483648 ≤ stop) (b2 : stop < 2147483648) {s0 e0 : Int}
    (hs0 : s0 = if start < 0 then start + L.length else start)
    (he0 : e0 = if stop < 0 then stop + L.length else stop)
    (hvalid : (LTrim c db key start stop).1 ≠ .err .trimInvalid) (hge : -1 ≤ e0) :
    (LTrim c db key start stop).1 = .ok () ∧
      WellFormed c (LTrim c db key start stop).2 key
        (if max s0 0 ≤ min e0 ((L.length : Int) - 1)
          then m.map (fun ht => (ht.1 + max s0 0, ht.1 + min e0 ((L.length : Int) - 1)))
          else none)
        ((L.drop (max s0 0).toNat).take (min e0 ((L.length : Int) - 1) - max s0 0 + 1).toNat) ∧
      (LLen c (LTrim c db key start stop).2 key).1 =
        .ok (min e0 ((L.length : Int) - 1) - max s0 0 + 1) := by
  cases m with
  | none =>
    have hL : L = [] := hwf.1
    subst hL
    simp only [List.length_nil, Nat.cast_zero, add_zero, ite_self] at hs0 he0
    subst hs0 he0
    obtain ⟨hinv, hok⟩ := hwf.ltrim_none hK a1 a2 b1 b2
    have hval : ¬ (s0 ≥ 0 ∨ s0 > e0) := by
      intro hcon
      rw [hinv hcon] at hvalid
      exact hvalid rfl
    obtain ⟨r1, r2, _⟩ := hok hval
    refine ⟨r1, ?_, ?_⟩
    · simp only [List.length_nil, Nat.cast_zero, List.drop_nil, List.take_nil, Option.map_none',
        ite_self]
      exact r2
    · rw [r2.LLen_eq hK]
      simp only [List.length_nil, Nat.cast_zero]
      congr 1
      omega
  | some ht =>
    obtain ⟨h, t⟩ := ht
    obtain ⟨hinv, hok⟩ := hwf.ltrim_some hc hK a1 a2 b1 b2 hs0 he0
    have hval : ¬ (s0 ≥ L.length ∨ s0 > e0) := by
      intro hcon
      rw [hinv hcon] at hvalid
      exact hvalid rfl
    obtain ⟨r1, r2⟩ := hok hval
    obtain ⟨r2, _⟩ := r2 hge
    refine ⟨r1, r2, ?_⟩
    rw [r2.LLen_eq hK]
    simp only [List.length_take, List.length_drop]
    have := hwf.length_lt
    congr 1
    omega

/-- On the sample list `[a, b, c]`, `LTrim(k, 1, 5)` keeps `[b, c]`. -/
theorem LTrim_slice_witness :
    (LTrim sampleConfig sampleStore sampleKey 1 5).1 = .ok () ∧
      (LLen sampleConfig (LTrim sampleConfig sampleStore sampleKey 1 5).2 sampleKey).1 =
        .ok 2 ∧
      (LRange sampleConfig (LTrim sampleConfig sampleStore sampleKey 1 5).2 sampleKey
        0 (-1)).1 = .ok [[98], [99]] :=
  ⟨(LTrim_slice sampleConfig_ok sampleKey_ok sampleStore_wf
      (show (-2147483648 : Int) ≤ 1 by decide) (by decide)
      (show (-2147483648 : Int) ≤ 5 by decide) (by decide) rfl rfl (by decide) (by decide)).1,
    (LTrim_slice sampleConfig_ok sampleKey_ok sampleStore_wf
      (show (-2147483648 : Int) ≤ 1 by decide) (by decide)
      (show (-2147483648 : Int) ≤ 5 by decide) (by decide) rfl rfl (by decide) (by decide)).2.2,
    by decide⟩

/-- C9: the 64-bit indices are cut to 32 bits before the check. On the
three-element sample list, `LTrim(k, 2^32, 2^32 + 1)` has `start >= llen`, yet
it is not rejected: it returns ok and trims the list to its first two
elements. -/
theorem LTrim_wide_index_accepted :
    (LTrim sampleConfig sampleStore sampleKey 4294967296 4294967297).1 = .ok () ∧
      (LRange sampleConfig (LTrim sampleConfig sampleStore sampleKey 4294967296 4294967297).2
        sampleKey 0 (-1)).1 = .ok [[97], [98]] := by
  decide

/-- C10: `LTrim(K, 0, -1)` leaves a well-formed list as it is: the same
contents, the same length and the same metadata. -/
theorem LTrim_all_noop {c : Config} {db : Store} {key : Bytes} {m : Option (Int × Int)}
    {L : List Bytes} (hc : c.OK) (hK : checkKeySize c key = none)
    (hwf : WellFormed c db key m L) :
    WellFormed c (LTrim c db key 0 (-1)).2 key m L ∧
      (LLen c (LTrim c db key 0 (-1)).2 key).1 = (LLen c db key).1 ∧
      lGetMeta (LTrim c db key 0 (-1)).2 (lEncodeMetaKey c key) =
        lGetMeta db (lEncodeMetaKey c key) := by
  have key_fact : WellFormed c (LTrim c db key 0 (-1)).2 key m L := by
    cases m with
    | none =>
      rw [(hwf.ltrim_none hK (show (-2147483648 : Int) ≤ 0 by decide) (by decide)
        (show (-2147483648 : Int) ≤ -1 by decide) (by decide)).1 (Or.inl (le_refl _))]
      exact hwf
    | some ht =>
      obtain ⟨h, t⟩ := ht
      have hwf' := hwf
      obtain ⟨_, h1, h2, h3, hl, _⟩ := hwf'
      have hlt := hwf.length_lt
      obtain ⟨_, hok⟩ := hwf.ltrim_some hc hK (show (-2147483648 : Int) ≤ 0 by decide)
        (by decide) (show (-2147483648 : Int) ≤ -1 by decide) (by decide)
        (show (0 : Int) = if (0 : Int) < 0 then 0 + (L.length : Int) else 0 by simp)
        (show (L.length : Int) - 1 = if (-1 : Int) < 0 then -1 + (L.length : Int) else -1 by
          simp; ring)
      have r := ((hok (by omega)).2 (by omega)).1
      have e1 : max (0 : Int) 0 = 0 := by simp
      have e2 : min ((L.length : Int) - 1) ((L.length : Int) - 1) = (L.length : Int) - 1 := by
        simp
      rw [e1, e2, if_pos (by omega), show h + (0 : Int) = h by ring,
        show h + ((L.length : Int) - 1) = t by omega,
        show ((0 : Int)).toNat = 0 by rfl, List.drop_zero,
        show ((L.length : Int) - 1 - 0 + 1).toNat = L.length by omega, List.take_length] at r
      exact r
  refine ⟨key_fact, ?_, ?_⟩
  · rw [key_fact.LLen_eq hK, hwf.LLen_eq hK]
  · cases m with
    | none => rw [key_fact.meta_none, hwf.meta_none]
    | some ht =>
      obtain ⟨h, t⟩ := ht
      rw [key_fact.meta_some, hwf.meta_some]

/-- On the sample list `[a, b, c]`, `LTrim(k, 0, -1)` keeps the three elements. -/
theorem LTrim_all_noop_witness :
    WellFormed sampleConfig (LTrim sampleConfig sampleStore sampleKey 0 (-1)).2 sampleKey
      (some (listInitialSeq, listInitialSeq + 2)) [[97], [98], [99]] :=
  (LTrim_all_noop sampleConfig_ok sampleKey_ok sampleStore_wf).1

/-- C11: with a negative count the trims by count do not return a number of
removed elements. On the sample list `[a, b, c]`, `LTrimFront(k, -2)` and
`LTrimBack(k, -2)` return `-2`, remove nothing and widen the metadata to five
sequence numbers, so `LLen` is 5; and `LTrimFront(k, 2147483647)` fails with
the sequence error instead of removing the three elements. -/
theorem LTrimFront_negative_count :
    (LTrimFront sampleConfig sampleStore sampleKey (-2)).map Prod.fst = some (.ok (-2)) ∧
      (LTrimFront sampleConfig sampleStore sampleKey (-2)).map
        (fun r => (LLen sampleConfig r.2 sampleKey).1) = some (.ok 5) ∧
      (LTrimBack sampleConfig sampleStore sampleKey (-2)).map Prod.fst = some (.ok (-2)) ∧
      (LTrimBack sampleConfig sampleStore sampleKey (-2)).map
        (fun r => (LLen sampleConfig r.2 sampleKey).1) = some (.ok 5) ∧
      LTrimFront sampleConfig sampleStore sampleKey 2147483647 =
        some (.err .listSeq, sampleStore) := by
  decide

/-- C12, as stated, fails above the threshold of the range delete: the list
`[a, b, c]` is well-formed in a store of list records only and `LLen` is 3,
but with a threshold of 2 and an engine whose range delete drops the records
in `[startKey, stopKey)` the iterator of `lDelete` meets the last element only
and `LClear` returns 1. -/
theorem LClear_range_delete_counterexample :
    WellFormed dropConfig dropStore sampleKey (some (listInitialSeq, listInitialSeq + 2))
        [[97], [98], [99]] ∧
      ListKeysValid dropConfig dropStore ∧
      (LLen dropConfig dropStore sampleKey).1 = .ok 3 ∧
      (LClear dropConfig dropStore sampleKey).1 = .ok 1 :=
  ⟨dropStore_wf, dropStore_valid, by decide, by decide⟩

/-- C12, amended: in a store whose element namespace holds only element
records of lists, `LClear` of a well-formed list of size `s` returns the
number `r` of element records that its iterator meets, `0 <= r <= s`. It is
`s` when `s` is not above the threshold `RANGE_DELETE_NUM` or the range delete
of the engine drops no record, and at least 1 for a non-empty list. In every
case no element record and no metadata record of the key is left afterwards,
`LKeyExists` is 0 and `LLen` is 0. -/
theorem LClear_spec {c : Config} {db : Store} {key : Bytes} {m : Option (Int × Int)}
    {L : List Bytes} (hc : c.OK) (hK : checkKeySize c key = none)
    (hwf : WellFormed c db key m L) (hv : ListKeysValid c db) :
    (∃ r : Int, (LClear c db key).1 = .ok r ∧ 0 ≤ r ∧ r ≤ L.length ∧ (L ≠ [] → 1 ≤ r) ∧
        ((L.length : Int) ≤ c.RANGE_DELETE_NUM → r = L.length) ∧
        ((∀ k, c.dropsRecord k = false) → r = L.length)) ∧
      get (LClear c db key).2 (lEncodeMetaKey c key) = none ∧
      (∀ s : Int, -2147483648 ≤ s → s < 2147483648 →
        get (LClear c db key).2 (lEncodeListKey c key s) = none) ∧
      (LKeyExists c (LClear c db key).2 key).1 = .ok 0 ∧
      (LLen c (LClear c db key).2 key).1 = .ok 0 := by
  obtain ⟨h1, h2, _, _⟩ := hwf.clear_result hc hK hv
  refine ⟨h1, h2.2.1, h2.2.2, ?_, ?_⟩
  · simp only [LKeyExists, hK, h2.2.1]
  · rw [h2.LLen_eq hK]
    rfl

/-- On the sample list `[a, b, c]` below the threshold `LClear(k)` returns 3; with
the threshold 2 and a range delete that drops records, `LKeyExists(k)` and
`LLen(k)` are 0 afterwards all the same. -/
theorem LClear_spec_witness :
    (∃ r : Int, (LClear sampleConfig sampleStore sampleKey).1 = .ok r ∧ r = 3) ∧
      (LKeyExists dropConfig (LClear dropConfig dropStore sampleKey).2 sampleKey).1 = .ok 0 ∧
      (LLen dropConfig (LClear dropConfig dropStore sampleKey).2 sampleKey).1 = .ok 0 :=
  ⟨(LClear_spec sampleConfig_ok sampleKey_ok sampleStore_wf sampleStore_valid).1.elim
      (fun r hr => ⟨r, hr.1, hr.2.2.2.2.1 (by decide)⟩),
    (LClear_spec dropConfig_ok dropKey_ok dropStore_wf dropStore_valid).2.2.2⟩

/-- C13: the public operations reach states where metadata and element records
do not go together. After `LSet(k, 0, x)` on the empty store an element record
exists without a metadata record (`LKeyExists` is 0, `LLen` is 0). After
`LTrim(k, -5, -5)` on the list `[a, b, c]` the metadata record exists
(`LKeyExists` is 1, `LLen` is 3) without any of its element records. -/
theorem meta_without_elements_reachable :
    (get (LSet sampleConfig [] sampleKey 0 [120]).2
        (lEncodeListKey sampleConfig sampleKey listInitialSeq) = some [120] ∧
      get (LSet sampleConfig [] sampleKey 0 [120]).2 (lEncodeMetaKey sampleConfig sampleKey) =
        none ∧
      (LKeyExists sampleConfig (LSet sampleConfig [] sampleKey 0 [120]).2 sampleKey).1 =
        .ok 0 ∧
      (LLen sampleConfig (LSet sampleConfig [] sampleKey 0 [120]).2 sampleKey).1 = .ok 0) ∧
    ((LTrim sampleConfig sampleStore sampleKey (-5) (-5)).1 = .ok () ∧
      (LKeyExists sampleConfig (LTrim sampleConfig sampleStore sampleKey (-5) (-5)).2
        sampleKey).1 = .ok 1 ∧
      (LLen sampleConfig (LTrim sampleConfig sampleStore sampleKey (-5) (-5)).2
        sampleKey).1 = .ok 3 ∧
      (LTrim sampleConfig sampleStore sampleKey (-5) (-5)).2 =
        [(lEncodeMetaKey sampleConfig sampleKey,
          metaValue listInitialSeq (listInitialSeq + 2))]) := by
  decide

/-- C14: a head push of `2^32 + 1` values on the empty store succeeds and
returns `2^32 + 1`, yet the new metadata describes one sequence number only
(`LLen` is 1): the count is narrowed to 32 bits, so the value with index
`2^32` is put under the element key of the value with index 0 and the pushed
values are not stored at distinct sequence numbers. -/
theorem LPush_wide_count_collides :
    (LPush sampleConfig [] sampleKey (List.replicate 4294967297 [])).1 = .ok 4294967297 ∧
      lGetMeta (LPush sampleConfig [] sampleKey (List.replicate 4294967297 [])).2
        (lEncodeMetaKey sampleConfig sampleKey) = .ok (listInitialSeq, listInitialSeq, 1) ∧
      (LLen sampleConfig (LPush sampleConfig [] sampleKey (List.replicate 4294967297 [])).2
        sampleKey).1 = .ok 1 ∧
      lEncodeListKey sampleConfig sampleKey
          (add32 listInitialSeq (mul32 (wrap32 ((4294967296 : Nat) : Int)) (-1))) =
        lEncodeListKey sampleConfig sampleKey
          (add32 listInitialSeq (mul32 (wrap32 ((0 : Nat) : Int)) (-1))) := by
  obtain ⟨h1, h2⟩ := LPush_wide_count sampleConfig sampleKey sampleKey_ok
  refine ⟨h1, ?_, LLen_of_lGetMeta sampleKey_ok h2, by decide⟩
  rw [h2, listInitialSeq_eq]

/-- C15: on the empty store the exact value `checkSeq` of a push of `2^32 + 1`
values is beyond the bounds on either side (at most `listMinSeq` for a head
push, at least `listMaxSeq` for a tail push), yet both pushes return
`2^32 + 1` instead of the sequence error and write metadata: `LLen` is 1
afterwards where it was 0 before. -/
theorem push_wide_count_passes_check :
    (checkSeqSpec none 4294967297 false ≤ listMinSeq ∧
      (LPush sampleConfig [] sampleKey (List.replicate 4294967297 [])).1 = .ok 4294967297 ∧
      (LLen sampleConfig (LPush sampleConfig [] sampleKey (List.replicate 4294967297 [])).2
        sampleKey).1 = .ok 1) ∧
    (checkSeqSpec none 4294967297 true ≥ listMaxSeq ∧
      (RPush sampleConfig [] sampleKey (List.replicate 4294967297 [])).1 = .ok 4294967297 ∧
      (LLen sampleConfig (RPush sampleConfig [] sampleKey (List.replicate 4294967297 [])).2
        sampleKey).1 = .ok 1) ∧
    (LLen sampleConfig [] sampleKey).1 = .ok 0 := by
  obtain ⟨h1, h2⟩ := LPush_wide_count sampleConfig sampleKey sampleKey_ok
  obtain ⟨r1, r2⟩ := RPush_wide_count sampleConfig sampleKey sampleKey_ok
  exact ⟨⟨by decide, h1, LLen_of_lGetMeta sampleKey_ok h2⟩,
    ⟨by decide, r1, LLen_of_lGetMeta sampleKey_ok r2⟩, by decide⟩

/-- C16: `lDecodeListKey` is the exact partial inverse of `lEncodeListKey`.
The element key of a key of at most 65535 bytes and a 32-bit `seq` has length
`len(key) + 7` and decodes to `(key, seq)`. A byte string `ek` is accepted
exactly when its first byte is `ListType` and its length is 7 plus the
big-endian `u16` in its bytes 1 and 2, and is rejected with the
invalid-list-key error otherwise; every accepted byte string is the element
key of the pair it decodes to. -/
theorem lDecodeListKey_partial_inverse (c : Config) :
    (∀ (key : Bytes) (s : Int), key.length ≤ 65535 → -2147483648 ≤ s → s < 2147483648 →
      (lEncodeListKey c key s).length = key.length + 7 ∧
        lDecodeListKey c (lEncodeListKey c key s) = .ok (key, s)) ∧
    (∀ ek : Bytes,
      ((∃ r, lDecodeListKey c ek = .ok r) ↔
        (ek.head? = some c.ListType ∧ ek.length = 7 + (ek.getD 1 0 * 256 + ek.getD 2 0))) ∧
      ((¬ ∃ r, lDecodeListKey c ek = .ok r) → lDecodeListKey c ek = .err .listKey) ∧
      (∀ (key : Bytes) (s : Int), (∀ b ∈ ek, b < 256) → lDecodeListKey c ek = .ok (key, s) →
        ek = lEncodeListKey c key s)) := by
  refine ⟨fun key s hk s1 s2 =>
    ⟨lEncodeListKey_length c key s, lDecodeListKey_lEncodeListKey c hk s1 s2⟩, fun ek => ?_⟩
  obtain ⟨hok, herr⟩ := lDecodeListKey_ok_iff c ek
  have hiff : (∃ r, lDecodeListKey c ek = .ok r) ↔
      (ek.head? = some c.ListType ∧ ek.length = 7 + (ek.getD 1 0 * 256 + ek.getD 2 0)) := by
    constructor
    · rintro ⟨r, hr⟩
      by_contra hacc
      rw [herr hacc] at hr
      exact absurd hr (by simp)
    · intro hacc
      exact ⟨_, hok hacc⟩
  refine ⟨hiff, fun hno => herr (fun hacc => hno (hiff.2 hacc)), fun key s hb hd => ?_⟩
  exact (lEncodeListKey_of_lDecodeListKey hb hd).1

/-- The element key of `k` with `seq` 5 decodes to `(k, 5)`, and the byte string
`[24, 0, 1, 107, 0, 0, 0, 5]` is that element key. -/
theorem lDecodeListKey_partial_inverse_witness :
    ((lEncodeListKey sampleConfig sampleKey 5).length = sampleKey.length + 7 ∧
      lDecodeListKey sampleConfig (lEncodeListKey sampleConfig sampleKey 5) =
        .ok (sampleKey, 5)) ∧
    [24, 0, 1, 107, 0, 0, 0, 5] = lEncodeListKey sampleConfig sampleKey 5 :=
  ⟨(lDecodeListKey_partial_inverse sampleConfig).1 sampleKey 5 (by decide) (by decide)
      (by decide),
    ((lDecodeListKey_partial_inverse sampleConfig).2 [24, 0, 1, 107, 0, 0, 0, 5]).2.2
      sampleKey 5 (by decide) (by decide)⟩

/-- C17: for a fixed key and sequence numbers `s1`, `s2` in `[0, 2^31)`,
`s1 < s2` holds exactly when the element key of `s1` is bytewise smaller than
the element key of `s2`. -/
theorem lEncodeListKey_seq_order (c : Config) (key : Bytes) (s1 s2 : Int)
    (h1 : 0 ≤ s1) (h1' : s1 < 2147483648) (h2 : 0 ≤ s2) (h2' : s2 < 2147483648) :
    s1 < s2 ↔ bytesLt (lEncodeListKey c key s1) (lEncodeListKey c key s2) = true :=
  (bytesLt_lEncodeListKey h1 h1' h2 h2').symm

/-- The element key of `listMinSeq` sorts before the element key of
`listMaxSeq`. -/
theorem lEncodeListKey_seq_order_witness :
    bytesLt (lEncodeListKey sampleConfig sampleKey listMinSeq)
      (lEncodeListKey sampleConfig sampleKey listMaxSeq) = true :=
  (lEncodeListKey_seq_order sampleConfig sampleKey listMinSeq listMaxSeq (by decide)
    (by decide) (by decide) (by decide)).1 (by decide)

/-- C18: the element keys of one list form a contiguous range under the
bytewise order. An element key of a key `key2` of at most 65535 bytes that
lies between two element keys of `key` (itself of at most 65535 bytes) is an
element key of `key`; and when `LMetaType` differs from `ListType` no metadata
key lies between two element keys of `key`. -/
theorem element_keys_contiguous (c : Config) (key : Bytes) (hk : key.length ≤ 65535)
    (s1 s2 : Int) :
    (∀ (key2 : Bytes) (s : Int), key2.length ≤ 65535 →
      bytesLe (lEncodeListKey c key s1) (lEncodeListKey c key2 s) = true →
      bytesLe (lEncodeListKey c key2 s) (lEncodeListKey c key s2) = true → key2 = key) ∧
    (c.LMetaType ≠ c.ListType → ∀ key3 : Bytes,
      ¬ (bytesLe (lEncodeListKey c key s1) (lEncodeMetaKey c key3) = true ∧
        bytesLe (lEncodeMetaKey c key3) (lEncodeListKey c key s2) = true)) := by
  refine ⟨fun key2 s hk2 h1 h2 => ?_, fun hne key3 h => ?_⟩
  · by_contra hkk
    have hne : ∀ a b, lEncodeListKey c key a ≠ lEncodeListKey c key2 b :=
      lEncodeListKey_ne_of_key_ne hk hk2 (fun e => hkk e.symm)
    rcases (bytesLe_iff_lt_or_eq _ _).1 h1 with l1 | e1
    · rcases (bytesLe_iff_lt_or_eq _ _).1 h2 with l2 | e2
      · exact hkk (lEncodeListKey_between hk2 l1 l2).1
      · exact hne _ _ e2.symm
    · exact hne _ _ e1
  · obtain ⟨h1, h2⟩ := h
    simp only [lEncodeListKey, lEncodeMetaKey] at h1 h2
    have a := bytesLe_head h1
    have b := bytesLe_head h2
    omega

/-- With the sample configuration, the element key of the key `k` with `seq` 5
lies between the element keys of `k` with `seq` 1 and 9, and the metadata key
of `k` does not. -/
theorem element_keys_contiguous_witness :
    bytesLe (lEncodeListKey sampleConfig sampleKey 1)
        (lEncodeListKey sampleConfig sampleKey 5) = true ∧
      bytesLe (lEncodeListKey sampleConfig sampleKey 5)
        (lEncodeListKey sampleConfig sampleKey 9) = true ∧
      sampleKey = sampleKey ∧
      ¬ (bytesLe (lEncodeListKey sampleConfig sampleKey 1)
          (lEncodeMetaKey sampleConfig sampleKey) = true ∧
        bytesLe (lEncodeMetaKey sampleConfig sampleKey)
          (lEncodeListKey sampleConfig sampleKey 9) = true) :=
  ⟨by decide, by decide,
    (element_keys_contiguous sampleConfig sampleKey (by decide) 1 9).1 sampleKey 5 (by decide)
      (by decide) (by decide),
    (element_keys_contiguous sampleConfig sampleKey (by decide) 1 9).2 (by decide) sampleKey⟩

/-- C19: after `LSet(k, 0, x)` on the empty store the metadata record of `k`
is absent, yet `lDelete` returns 1 and stages the deletion of the element
record at `listInitialSeq` (followed by the deletion of the metadata key), and
`LClear(k)` returns 1. -/
theorem lDelete_absent_meta_counts_element :
    get (LSet sampleConfig [] sampleKey 0 [120]).2 (lEncodeMetaKey sampleConfig sampleKey) =
        none ∧
      lDelete sampleConfig (LSet sampleConfig [] sampleKey 0 [120]).2 sampleKey [] =
        (1, [.delete (lEncodeListKey sampleConfig sampleKey listInitialSeq),
          .delete (lEncodeMetaKey sampleConfig sampleKey)],
          (LSet sampleConfig [] sampleKey 0 [120]).2) ∧
      (LClear sampleConfig (LSet sampleConfig [] sampleKey 0 [120]).2 sampleKey).1 = .ok 1 := by
  decide

/-- C20: `LClear(K)` leaves every other list as it is. In a store whose
element namespace holds only element records of lists, with the list of `K`
well-formed, every record that is neither the metadata record nor an element
record of `K` is unchanged; so for a distinct key `K2` with a well-formed
list, both of at most 65535 bytes, the metadata record and every element
record of `K2` are unchanged and `LRange(K2, 0, -1)` and `LLen(K2)` return
what they returned before. -/
theorem LClear_frame {c : Config} {db : Store} {key key2 : Bytes}
    {m m2 : Option (Int × Int)} {L L2 : List Bytes} (hc : c.OK)
    (hk : key.length ≤ 65535) (hk2 : key2.length ≤ 65535) (hne : key ≠ key2)
    (hwf : WellFormed c db key m L) (hwf2 : WellFormed c db key2 m2 L2)
    (hv : ListKeysValid c db) :
    (∀ k, k ≠ lEncodeMetaKey c key → (∀ s, k ≠ lEncodeListKey c key s) →
      get (LClear c db key).2 k = get db k) ∧
    get (LClear c db key).2 (lEncodeMetaKey c key2) = get db (lEncodeMetaKey c key2) ∧
    (∀ s : Int, get (LClear c db key).2 (lEncodeListKey c key2 s) =
      get db (lEncodeListKey c key2 s)) ∧
    (LRange c (LClear c db key).2 key2 0 (-1)).1 = (LRange c db key2 0 (-1)).1 ∧
    (LLen c (LClear c db key).2 key2).1 = (LLen c db key2).1 := by
  have hframe : ∀ k, k ≠ lEncodeMetaKey c key → (∀ s, k ≠ lEncodeListKey c key s) →
      get (LClear c db key).2 k = get db k := by
    cases hK : checkKeySize c key with
    | some e =>
      intro k _ _
      simp only [LClear, hK]
    | none => exact (hwf.clear_result hc hK hv).2.2.2
  have hvalid : ListKeysValid c (LClear c db key).2 := by
    cases hK : checkKeySize c key with
    | some e =>
      simp only [LClear, hK]
      exact hv
    | none => exact (hwf.clear_result hc hK hv).2.2.1
  have hmeta : get (LClear c db key).2 (lEncodeMetaKey c key2) =
      get db (lEncodeMetaKey c key2) :=
    hframe _ (fun e => hne (lEncodeMetaKey_inj e).symm)
      (fun s e => lEncodeListKey_ne_meta hc key key2 s e.symm)
  have helem : ∀ s : Int, get (LClear c db key).2 (lEncodeListKey c key2 s) =
      get db (lEncodeListKey c key2 s) := fun s =>
    hframe _ (lEncodeListKey_ne_meta hc key2 key s)
      (fun s' e => lEncodeListKey_ne_of_key_ne hk hk2 hne s' s e.symm)
  have hwf2' : WellFormed c (LClear c db key).2 key2 m2 L2 := hwf2.of_get_eq hmeta helem
  refine ⟨hframe, hmeta, helem, ?_, ?_⟩
  · cases hK2 : checkKeySize c key2 with
    | some e => simp only [LRange, hK2]
    | none =>
      rw [hwf2'.LRange_eq hvalid hK2 (by decide) (by decide) (by decide) (by decide),
        hwf2.LRange_eq hv hK2 (by decide) (by decide) (by decide) (by decide)]
  · cases hK2 : checkKeySize c key2 with
    | some e => simp only [LLen, hK2]
    | none => rw [hwf2'.LLen_eq hK2, hwf2.LLen_eq hK2]

/-- In the store with the lists `k = [a, b, c]` and `j = [x]`, clearing `j`
leaves the records of `k` and what `LRange(k, 0, -1)` and `LLen(k)` return. -/
theorem LClear_frame_witness :
    (LRange sampleConfig (LClear sampleConfig sampleStore2 [106]).2 sampleKey 0 (-1)).1 =
        (LRange sampleConfig sampleStore2 sampleKey 0 (-1)).1 ∧
      (LLen sampleConfig (LClear sampleConfig sampleStore2 [106]).2 sampleKey).1 =
        (LLen sampleConfig sampleStore2 sampleKey).1 :=
  (LClear_frame sampleConfig_ok (show ([106] : Bytes).length ≤ 65535 by decide)
    (show sampleKey.length ≤ 65535 by decide) (show ([106] : Bytes) ≠ sampleKey by decide)
    sampleStore2_wf_other sampleStore2_wf sampleStore2_valid).2.2.2

end RockRedis
